import Mathlib

/-!
# Spreadsheet cell/graph engine (nxlak/cpp-spreadsheet)

A shallow embedding of `src/spreadsheet/cell.h`, `cell.cpp` and `sheet.cpp`,
followed by the properties proved about it.

Conventions of the embedding.

* A `Cell*` is represented by the `Position` of the grid slot that owns the
  cell (cells are heap objects owned by their slot and never move), `nullptr`
  by `none`.
* A C++ call that throws returns the sheet as it is at the moment of the throw
  together with the exception.  Recursion and loops without a syntactic bound
  carry a step budget; `Stop.unfinished` is the outcome of a call whose budget
  ran out, i.e. of a call that has not returned.
* `common.h`, `formula.h` and `sheet.h` are not among the sources; what the
  code needs from them is modelled below and marked as such.
-/

namespace Spreadsheet

/-! ## Types of `common.h` and `formula.h` -/

/-- Grid coordinate: the two `int` fields of `Position`. -/
structure Position where
  row : Int
  col : Int
deriving DecidableEq, Repr

/-- Modelled from the spec: `Position::MAX_ROWS` of the missing `common.h`, the
implementation-defined bound on row indices. -/
def MAX_ROWS : Int := 16384

/-- Modelled from the spec: `Position::MAX_COLS` of the missing `common.h`, the
implementation-defined bound on column indices. -/
def MAX_COLS : Int := 16384

/-- Modelled from the spec: `Position::IsValid` of the missing `common.h`; both
coordinates are non-negative and below the implementation-defined maximum, and
the predicate does not depend on the sheet. -/
def Position.IsValid (p : Position) : Bool :=
  decide (0 ≤ p.row) && decide (0 ≤ p.col) && decide (p.row < MAX_ROWS) && decide (p.col < MAX_COLS)

/-- Modelled from the spec: `FORMULA_SIGN` of the missing `common.h`, the formula marker. -/
def FORMULA_SIGN : Char := '='

/-- Modelled from the spec: `ESCAPE_SIGN` of the missing `common.h`, the escape marker
(the apostrophe, code point 39). -/
def ESCAPE_SIGN : Char := Char.ofNat 39

/-- A `double` produced by the external evaluator.  The engine never inspects it,
so it is kept as an uninterpreted code. -/
structure Number where
  code : Nat
deriving DecidableEq, Repr

/-- The evaluation error of `common.h`, identified by its category. -/
structure FormulaError where
  category : Nat
deriving DecidableEq, Repr

/-- The variant `FormulaInterface::Value`: a number or an evaluation error. -/
inductive FormulaValue where
  | number (d : Number)
  | error (e : FormulaError)
deriving DecidableEq, Repr

/-- The variant `CellInterface::Value`: text, number or evaluation error. -/
inductive Value where
  | text (s : String)
  | number (d : Number)
  | error (e : FormulaError)
deriving DecidableEq, Repr

/-- The three exceptions the engine raises. -/
inductive Exception where
  | InvalidPositionException
  | CircularDependencyException
  | FormulaException
deriving DecidableEq, Repr

/-- Why a call did not return normally: it threw, or its step budget ran out. -/
inductive Stop where
  | thrown (e : Exception)
  | unfinished
deriving DecidableEq, Repr

/-- Modelled from the spec: the behaviour of `FormulaInterface::Evaluate` of the missing
`formula.h`, a deterministic computation that reaches the sheet only through cell
lookups: it either finishes with a value or asks for the cell at a position
(`none` when `GetCell` reports no cell, otherwise that cell's `GetValue`) and goes on. -/
inductive Evaluation where
  | done (v : FormulaValue)
  | lookup (pos : Position) (k : Option Value → Evaluation)

/-- Every lookup the computation can make is at one of the positions `R`. -/
inductive Evaluation.ReadsWithin (R : List Position) : Evaluation → Prop where
  | done (v : FormulaValue) : Evaluation.ReadsWithin R (Evaluation.done v)
  | lookup (pos : Position) (k : Option Value → Evaluation) :
      pos ∈ R → (∀ v, Evaluation.ReadsWithin R (k v)) →
      Evaluation.ReadsWithin R (Evaluation.lookup pos k)

/-- Modelled from the spec: the parsed formula object `FormulaInterface` of the missing
`formula.h`: its expression text, the positions it reads (`GetReferencedCells`, all of
them valid positions) and its evaluation, which reads only those positions. -/
structure FormulaInterface where
  GetExpression : String
  GetReferencedCells : List Position
  Evaluate : Evaluation
  refs_valid : ∀ p ∈ GetReferencedCells, p.IsValid = true
  reads_refs : Evaluate.ReadsWithin GetReferencedCells

/-! ## `Cell::Impl` and `Cell` (cell.h) -/

/-- The three implementations of `Cell::Impl`; `FormulaImpl` carries its cache. -/
inductive Impl where
  | EmptyImpl
  | TextImpl (value_ : String)
  | FormulaImpl (formula_ : FormulaInterface) (cache_ : Option FormulaValue)

/-- `Impl::GetText`. -/
def Impl.GetText : Impl → String
  | .EmptyImpl => ""
  | .TextImpl value_ => value_
  | .FormulaImpl formula_ _ => String.singleton FORMULA_SIGN ++ formula_.GetExpression

/-- `Impl::GetReferencedCells`: empty unless overridden by `FormulaImpl`. -/
def Impl.GetReferencedCells : Impl → List Position
  | .FormulaImpl formula_ _ => formula_.GetReferencedCells
  | _ => []

/-- `Impl::HasCache`: `true` in the base class, `cache_.has_value()` for a formula. -/
def Impl.HasCache : Impl → Bool
  | .FormulaImpl _ cache_ => cache_.isSome
  | _ => true

/-- `Impl::ClearCache`: nothing in the base class, `cache_.reset()` for a formula. -/
def Impl.ClearCache : Impl → Impl
  | .FormulaImpl formula_ _ => .FormulaImpl formula_ none
  | i => i

/-- The cache slot of an implementation (`none` for the implementations without one). -/
def Impl.cache : Impl → Option FormulaValue
  | .FormulaImpl _ cache_ => cache_
  | _ => none

/-- A cell: its implementation and the set `dependets_` of the cells that refer to it. -/
structure Cell where
  impl_ : Impl
  dependets_ : List Position

/-- `Cell::Cell`: an empty implementation and no dependents. -/
def Cell.new : Cell := ⟨.EmptyImpl, []⟩

/-- `Cell::GetText`. -/
def Cell.GetText (c : Cell) : String := c.impl_.GetText

/-- `Cell::GetReferencedCells`. -/
def Cell.GetReferencedCells (c : Cell) : List Position := c.impl_.GetReferencedCells

/-- `Cell::IsReferenced`. -/
def Cell.IsReferenced (c : Cell) : Bool := !c.dependets_.isEmpty

/-- `dependets_.insert(p)` on the set representation. -/
def Cell.insertDependent (p : Position) (c : Cell) : Cell :=
  { c with dependets_ := if p ∈ c.dependets_ then c.dependets_ else p :: c.dependets_ }

/-- `dependets_.erase(p)` on the set representation. -/
def Cell.eraseDependent (p : Position) (c : Cell) : Cell :=
  { c with dependets_ := c.dependets_.filter (fun q => decide (q ≠ p)) }

/-! ## `Sheet` (sheet.cpp) -/

/-- The sheet: `table_`, a vector of rows of optional cells. -/
structure Sheet where
  table_ : List (List (Option Cell))

/-- `CreateSheet`: the empty sheet. -/
def CreateSheet : Sheet := ⟨[]⟩

/-- `std::vector::resize(n)` with value-initialised new elements. -/
def vectorResize {α : Type} (xs : List α) (n : Nat) (fill : α) : List α :=
  xs.take n ++ List.replicate (n - xs.length) fill

/-- The row `table_[r]` (empty when out of range). -/
def Sheet.rowAt (s : Sheet) (r : Nat) : List (Option Cell) := s.table_.getD r []

/-- The slot `table_[r][c]`, `none` when out of range or holding no cell. -/
def Sheet.slot (s : Sheet) (r c : Nat) : Option Cell := (s.rowAt r).getD c none

/-- The assignment `table_[r][c] = v` (within range). -/
def Sheet.setSlot (s : Sheet) (r c : Nat) (v : Option Cell) : Sheet :=
  ⟨s.table_.set r ((s.rowAt r).set c v)⟩

/-- Dereference of a `Cell*` given as the position of its slot. -/
def Sheet.cellAt (s : Sheet) (p : Position) : Option Cell :=
  if 0 ≤ p.row ∧ 0 ≤ p.col then s.slot p.row.toNat p.col.toNat else none

/-- In-place update of the cell object at `p`. -/
def Sheet.updateCell (s : Sheet) (p : Position) (f : Cell → Cell) : Sheet :=
  match s.cellAt p with
  | none => s
  | some c => s.setSlot p.row.toNat p.col.toNat (some (f c))

/-- `Sheet::GetConcreteCell`. -/
def Sheet.GetConcreteCell (s : Sheet) (pos : Position) : Except Exception (Option Cell) :=
  if !pos.IsValid then .error .InvalidPositionException
  else if pos.row.toNat < s.table_.length ∧ pos.col.toNat < (s.rowAt pos.row.toNat).length then
    .ok (s.slot pos.row.toNat pos.col.toNat)
  else .ok none

/-- `Sheet::GetCell`: the cell at `pos` when one is stored and its text is not empty. -/
def Sheet.GetCell (s : Sheet) (pos : Position) : Except Exception (Option Cell) :=
  if !pos.IsValid then .error .InvalidPositionException
  else if pos.row.toNat < s.table_.length ∧ pos.col.toNat < (s.rowAt pos.row.toNat).length then
    match s.slot pos.row.toNat pos.col.toNat with
    | some cell => if !cell.GetText.isEmpty then .ok (some cell) else .ok none
    | none => .ok none
  else .ok none

/-- Number of slots of the grid. -/
def Sheet.slotCount (s : Sheet) : Nat := (s.table_.map List.length).sum

/-- The positions of the slots of the rows `t`, the first of which is row `k`. -/
def positionsFrom : Nat → List (List (Option Cell)) → List Position
  | _, [] => []
  | k, row :: rows =>
    List.map (fun c : Nat => Position.mk (Int.ofNat k) (Int.ofNat c)) (List.range row.length) ++
      positionsFrom (k + 1) rows

/-- The positions of all slots of the grid. -/
def Sheet.positions (s : Sheet) : List Position := positionsFrom 0 s.table_

/-- The positions the cell at `p` refers to (none when no cell is stored there). -/
def Sheet.refsAt (s : Sheet) (p : Position) : List Position :=
  (s.cellAt p).elim [] Cell.GetReferencedCells

/-- The cells recorded as dependents of the cell at `p`. -/
def Sheet.dependentsAt (s : Sheet) (p : Position) : List Position :=
  (s.cellAt p).elim [] Cell.dependets_

/-- The reads-from edge: a cell is stored at `p` and lists `q` among its referenced
positions. -/
def Sheet.ReadsFrom (s : Sheet) (p q : Position) : Prop := q ∈ s.refsAt p

/-- The dependents edge: a cell is stored at `p` and the cell at `q` is in its
dependents set. -/
def Sheet.DependentEdge (s : Sheet) (p q : Position) : Prop := q ∈ s.dependentsAt p

/-! ## Cycle check (cell.cpp) -/

/-- The loop `for (pos : refs) if (check(GetConcreteCell(pos), visited)) return true;`
shared by `CheckCircularDependency` and `ThrowIfCircularDependency`; the visited set is
threaded through the calls. -/
def forReferenced (s : Sheet)
    (check : Option Position → List Position → Except Stop (Bool × List Position)) :
    List Position → List Position → Except Stop (Bool × List Position)
  | [], visited => .ok (false, visited)
  | pos :: rest, visited =>
    match s.GetConcreteCell pos with
    | .error e => .error (.thrown e)
    | .ok next =>
      match check (next.map fun _ => pos) visited with
      | .error e => .error e
      | .ok (true, visited1) => .ok (true, visited1)
      | .ok (false, visited1) => forReferenced s check rest visited1

/-- `Cell::CheckCircularDependency(current, target, visited)`; the first argument is the
recursion budget. -/
def CheckCircularDependency (s : Sheet) (target : Position) :
    Nat → Option Position → List Position → Except Stop (Bool × List Position)
  | 0, _, _ => .error .unfinished
  | _ + 1, none, visited => .ok (false, visited)
  | fuel + 1, some current, visited =>
    if current = target then .ok (true, visited)
    else if current ∈ visited then .ok (false, visited)
    else
      forReferenced s (CheckCircularDependency s target fuel) (s.refsAt current)
        (current :: visited)

/-- `Cell::ThrowIfCircularDependency(impl)` for the cell at `self`; `none` is a normal
return. -/
def ThrowIfCircularDependency (s : Sheet) (self : Position) (impl : Impl) : Option Stop :=
  match forReferenced s (CheckCircularDependency s self (s.slotCount + 1))
      impl.GetReferencedCells [] with
  | .error e => some e
  | .ok (true, _) => some (.thrown .CircularDependencyException)
  | .ok (false, _) => none

/-! ## Cache invalidation (cell.cpp) -/

/-- `impl_->ClearCache()` on a cell object. -/
def Cell.resetCache (c : Cell) : Cell := { c with impl_ := c.impl_.ClearCache }

/-- `impl_ = std::move(temp_impl)` on a cell object. -/
def Cell.setImpl (i : Impl) (c : Cell) : Cell := { c with impl_ := i }

/-- `impl_->ClearCache()` on the cell at `p`. -/
def Sheet.clearCacheAt (s : Sheet) (p : Position) : Sheet :=
  s.updateCell p Cell.resetCache

/-- The `while (!stack.empty())` loop of `Cell::ClearCache`; the stack top is the head
of the list and the first argument is the iteration budget. -/
def ClearCacheLoop : Nat → Sheet → List Position → List Position → Sheet × Option Stop
  | _, s, [], _ => (s, none)
  | 0, s, _ :: _, _ => (s, some .unfinished)
  | fuel + 1, s, c :: stack, visited =>
    if c ∈ visited then ClearCacheLoop fuel s stack visited
    else
      ClearCacheLoop fuel (s.clearCacheAt c) ((s.dependentsAt c).reverse ++ stack)
        (c :: visited)

/-- Number of dependents entries over all slots. -/
def Sheet.dependentCount (s : Sheet) : Nat :=
  (s.positions.map fun p => (s.dependentsAt p).length).sum

/-- `Cell::ClearCache` for the cell at `self`. -/
def Cell.ClearCache (s : Sheet) (self : Position) : Sheet × Option Stop :=
  ClearCacheLoop (s.dependentCount + 2) s [self] []

/-! ## `Cell::Set`, `Sheet::SetCell`, `Sheet::ClearCell` -/

/-- Step 2 of `Cell::Set`: the new implementation for a text; `none` when `ParseFormula`
throws. -/
def Cell.makeImpl (ParseFormula : String → Option FormulaInterface) (text : String) :
    Option Impl :=
  if text.isEmpty then some .EmptyImpl
  else if text.length > 1 && text.front == FORMULA_SIGN then
    (ParseFormula (text.drop 1)).map fun f => .FormulaImpl f none
  else some (.TextImpl text)

/-- Step 4 of `Cell::Set`: erase the cell at `self` from the dependents of the cells it
used to refer to. -/
def Cell.eraseFromReferenced (self : Position) : Sheet → List Position → Sheet × Option Stop
  | s, [] => (s, none)
  | s, pos :: rest =>
    match s.GetConcreteCell pos with
    | .error e => (s, some (.thrown e))
    | .ok none => Cell.eraseFromReferenced self s rest
    | .ok (some _) =>
      Cell.eraseFromReferenced self (s.updateCell pos (Cell.eraseDependent self)) rest

/-- `Cell::FillDependets` for the cell at `self`, over the referenced positions;
`setCell` is `Sheet::SetCell` of the owning sheet. -/
def Cell.FillDependets (setCell : Sheet → Position → String → Sheet × Option Stop)
    (self : Position) : Sheet → List Position → Sheet × Option Stop
  | s, [] => (s, none)
  | s, pos :: rest =>
    match s.GetConcreteCell pos with
    | .error e => (s, some (.thrown e))
    | .ok (some _) =>
      Cell.FillDependets setCell self (s.updateCell pos (Cell.insertDependent self)) rest
    | .ok none =>
      match setCell s pos "" with
      | (s1, some stop) => (s1, some stop)
      | (s1, none) =>
        match s1.GetConcreteCell pos with
        | .error e => (s1, some (.thrown e))
        | .ok _ =>
          Cell.FillDependets setCell self (s1.updateCell pos (Cell.insertDependent self)) rest

/-- `Cell::Set(text)` for the cell at `self`. -/
def Cell.Set (ParseFormula : String → Option FormulaInterface)
    (setCell : Sheet → Position → String → Sheet × Option Stop)
    (s : Sheet) (self : Position) (text : String) : Sheet × Option Stop :=
  let old_refs := s.refsAt self
  match Cell.makeImpl ParseFormula text with
  | none => (s, some (.thrown .FormulaException))
  | some temp_impl =>
    match ThrowIfCircularDependency s self temp_impl with
    | some stop => (s, some stop)
    | none =>
      match Cell.eraseFromReferenced self s old_refs with
      | (s1, some stop) => (s1, some stop)
      | (s1, none) =>
        let s2 := s1.updateCell self (Cell.setImpl temp_impl)
        match Cell.FillDependets setCell self s2 temp_impl.GetReferencedCells with
        | (s3, some stop) => (s3, some stop)
        | (s3, none) => Cell.ClearCache s3 self

/-- The part of `Sheet::SetCell` before `Cell::Set`: grow the grid to hold `pos` and
create the cell when the slot is empty. -/
def Sheet.ensureCell (s : Sheet) (pos : Position) : Sheet :=
  let s1 : Sheet :=
    if pos.row.toNat ≥ s.table_.length then ⟨vectorResize s.table_ (pos.row.toNat + 1) []⟩ else s
  let s2 : Sheet :=
    if pos.col.toNat ≥ (s1.rowAt pos.row.toNat).length then
      ⟨s1.table_.set pos.row.toNat (vectorResize (s1.rowAt pos.row.toNat) (pos.col.toNat + 1) none)⟩
    else s1
  if (s2.slot pos.row.toNat pos.col.toNat).isNone then
    s2.setSlot pos.row.toNat pos.col.toNat (some Cell.new)
  else s2

/-- `Sheet::SetCell` with a bound on the nesting of `SetCell` inside `FillDependets`. -/
def Sheet.SetCellAux (ParseFormula : String → Option FormulaInterface) :
    Nat → Sheet → Position → String → Sheet × Option Stop
  | 0, s, _, _ => (s, some .unfinished)
  | depth + 1, s, pos, text =>
    if !pos.IsValid then (s, some (.thrown .InvalidPositionException))
    else Cell.Set ParseFormula (Sheet.SetCellAux ParseFormula depth) (s.ensureCell pos) pos text

/-- `Sheet::SetCell`.  The nested call made by `FillDependets` sets an empty text, whose
implementation refers to nothing, so the nesting never exceeds one level. -/
def Sheet.SetCell (ParseFormula : String → Option FormulaInterface)
    (s : Sheet) (pos : Position) (text : String) : Sheet × Option Stop :=
  Sheet.SetCellAux ParseFormula 2 s pos text

/-- `Cell::Clear`. -/
def Cell.Clear (ParseFormula : String → Option FormulaInterface) (s : Sheet) (self : Position) :
    Sheet × Option Stop :=
  Cell.Set ParseFormula (Sheet.SetCell ParseFormula) s self ""

/-- `Sheet::ClearCell`. -/
def Sheet.ClearCell (ParseFormula : String → Option FormulaInterface)
    (s : Sheet) (pos : Position) : Sheet × Option Stop :=
  if !pos.IsValid then (s, some (.thrown .InvalidPositionException))
  else if pos.row.toNat < s.table_.length ∧ pos.col.toNat < (s.rowAt pos.row.toNat).length ∧
      (s.slot pos.row.toNat pos.col.toNat).isSome then
    match Cell.Clear ParseFormula s pos with
    | (s1, some stop) => (s1, some stop)
    | (s1, none) =>
      match s1.slot pos.row.toNat pos.col.toNat with
      | some cell =>
        if !cell.IsReferenced && cell.GetText.isEmpty then
          (s1.setSlot pos.row.toNat pos.col.toNat none, none)
        else (s1, none)
      | none => (s1, none)
  else (s, none)

/-! ## `Sheet::GetPrintableSize` (sheet.cpp) -/

/-- The `Size` of `common.h`: `rows` and `cols`, both initially zero. -/
structure Size where
  rows : Nat
  cols : Nat
deriving DecidableEq, Repr

/-- The inner loop of `GetPrintableSize` over `j = n - 1, ..., 0`: the first index found,
scanning from the end of the row, whose slot holds a cell with non-empty text. -/
def scanRowBackwards (row : List (Option Cell)) : Nat → Option Nat
  | 0 => none
  | j + 1 =>
    match row.getD j none with
    | some cell => if !cell.GetText.isEmpty then some j else scanRowBackwards row j
    | none => scanRowBackwards row j

/-- The outer loop of `GetPrintableSize` over the rows from index `i` on. -/
def printableSizeFrom : Nat → List (List (Option Cell)) → Size → Size
  | _, [], size => size
  | i, row :: rows, size =>
    match scanRowBackwards row row.length with
    | some j => printableSizeFrom (i + 1) rows ⟨max size.rows (i + 1), max size.cols (j + 1)⟩
    | none => printableSizeFrom (i + 1) rows size

/-- `Sheet::GetPrintableSize`. -/
def Sheet.GetPrintableSize (s : Sheet) : Size := printableSizeFrom 0 s.table_ ⟨0, 0⟩

/-! ## `Cell::GetValue` (cell.cpp) -/

/-- A formula result as a cell value (the two `std::get` branches of
`FormulaImpl::GetValue`). -/
def FormulaValue.toValue : FormulaValue → Value
  | .number d => .number d
  | .error e => .error e

/-- `TextImpl::GetValue`: the text without its leading escape sign. -/
def textValue (value_ : String) : Value :=
  if !value_.isEmpty && value_.front == ESCAPE_SIGN then .text (value_.drop 1)
  else .text value_

/-- `cache_ = v` on a cell object holding a formula. -/
def Cell.setCache (v : FormulaValue) (c : Cell) : Cell :=
  match c.impl_ with
  | .FormulaImpl formula_ _ => { c with impl_ := .FormulaImpl formula_ (some v) }
  | _ => c

/-- `formula_->Evaluate(sheet_)`: the evaluation runs against the sheet, each lookup being
`sheet.GetCell(pos)` followed, when a cell is returned, by that cell's `GetValue`. -/
def runEvaluation (getValue : Sheet → Position → Sheet × Except Stop Value) :
    Evaluation → Sheet → Sheet × Except Stop FormulaValue
  | .done v, s => (s, .ok v)
  | .lookup pos k, s =>
    match s.GetCell pos with
    | .error e => (s, .error (.thrown e))
    | .ok none => runEvaluation getValue (k none) s
    | .ok (some _) =>
      match getValue s pos with
      | (s1, .error e) => (s1, .error e)
      | (s1, .ok v) => runEvaluation getValue (k (some v)) s1

/-- `Cell::GetValue` for the cell at `self` (a stored cell); the first argument is the
recursion budget.  A formula without cache is evaluated and the result cached. -/
def Cell.GetValue : Nat → Sheet → Position → Sheet × Except Stop Value
  | 0, s, _ => (s, .error .unfinished)
  | fuel + 1, s, self =>
    match (s.cellAt self).map Cell.impl_ with
    | none => (s, .ok (.text ""))
    | some .EmptyImpl => (s, .ok (.text ""))
    | some (.TextImpl value_) => (s, .ok (textValue value_))
    | some (.FormulaImpl _ (some v)) => (s, .ok v.toValue)
    | some (.FormulaImpl formula_ none) =>
      match runEvaluation (Cell.GetValue fuel) formula_.Evaluate s with
      | (s1, .error e) => (s1, .error e)
      | (s1, .ok v) => (s1.updateCell self (Cell.setCache v), .ok v.toValue)

/-! ## A small formula compiler used for the concrete instances

Formulas are sums of cell names such as `A1+B2`; a name is a column letter followed
by a row digit. -/

/-- The position named by a letter and a digit, e.g. `A1` is row 0, column 0. -/
def demoCellName : List Char → Option Position
  | [c, d] =>
    if 65 ≤ c.toNat ∧ c.toNat ≤ 90 ∧ 49 ≤ d.toNat ∧ d.toNat ≤ 57 then
      some ⟨((d.toNat - 49 : Nat) : Int), ((c.toNat - 65 : Nat) : Int)⟩
    else none
  | _ => none

/-- Split a text at the plus signs. -/
def demoSplit : List Char → List (List Char)
  | [] => [[]]
  | c :: cs =>
    match demoSplit cs with
    | [] => [[c]]
    | w :: ws => if c = '+' then [] :: w :: ws else (c :: w) :: ws

/-- The positions named by a list of words, when all of them are cell names. -/
def demoCellNames : List (List Char) → Option (List Position)
  | [] => some []
  | w :: ws =>
    match demoCellName w, demoCellNames ws with
    | some p, some ps => some (p :: ps)
    | _, _ => none

/-- The number written by a list of digits. -/
def demoDigits : List Char → Nat → Option Nat
  | [], acc => some acc
  | c :: cs, acc =>
    if 48 ≤ c.toNat ∧ c.toNat ≤ 57 then demoDigits cs (10 * acc + (c.toNat - 48)) else none

/-- Evaluation of a sum of cells: absent cells count as zero, texts must be numerals,
errors propagate. -/
def demoSum : List Position → Nat → Evaluation
  | [], acc => .done (.number ⟨acc⟩)
  | p :: ps, acc =>
    .lookup p fun v =>
      match v with
      | none => demoSum ps acc
      | some (.number d) => demoSum ps (acc + d.code)
      | some (.text t) =>
        match t.data with
        | [] => demoSum ps acc
        | c :: cs =>
          match demoDigits (c :: cs) 0 with
          | some n => demoSum ps (acc + n)
          | none => .done (.error ⟨1⟩)
      | some (.error e) => .done (.error e)

/-- The formula object for a list of positions. -/
def demoFormula (expression : String) (ps : List Position) : FormulaInterface where
  GetExpression := expression
  GetReferencedCells := ps.filter Position.IsValid
  Evaluate := demoSum (ps.filter Position.IsValid) 0
  refs_valid := fun _ hp => (List.mem_filter.mp hp).2
  reads_refs := by
    have key : ∀ (R qs : List Position) (acc : Nat), (∀ q ∈ qs, q ∈ R) →
        (demoSum qs acc).ReadsWithin R := by
      intro R qs
      induction qs with
      | nil => intro acc _; exact Evaluation.ReadsWithin.done _
      | cons q qs ih =>
        intro acc hsub
        have hq : q ∈ R := hsub q (List.mem_cons_self _ _)
        have hqs : ∀ x ∈ qs, x ∈ R := fun x hx => hsub x (List.mem_cons_of_mem _ hx)
        refine Evaluation.ReadsWithin.lookup _ _ hq ?_
        intro v
        cases v with
        | none => exact ih acc hqs
        | some v =>
          cases v with
          | number d => exact ih _ hqs
          | error e => exact Evaluation.ReadsWithin.done _
          | text t =>
            simp only []
            split
            · exact ih acc hqs
            · split
              · exact ih _ hqs
              · exact Evaluation.ReadsWithin.done _
    exact key _ _ 0 (fun _ h => h)

/-- The demonstration `ParseFormula`: `none` stands for a `FormulaException`. -/
def demoParse (text : String) : Option FormulaInterface :=
  (demoCellNames (demoSplit text.data)).map fun ps => demoFormula text ps

/-! ## Vocabulary of the properties -/

/-- What a search that answered `false` has done to the visited set: it only grew, the
target was not added, and every cell added has all its stored successors in it. -/
def Searched (s : Sheet) (target : Position) (V V' : List Position) : Prop :=
  V ⊆ V' ∧ (target ∉ V → target ∉ V') ∧
    ∀ u ∈ V', u ∉ V → ∀ q ∈ s.refsAt u, s.cellAt q = none ∨ q ∈ V'

/-- The pre-edit condition under which the cycle check rejects: a referenced position is
the target itself or reaches it along reads-from edges. -/
def Sheet.ClosesCycle (s : Sheet) (target : Position) (refs : List Position) : Prop :=
  ∃ r ∈ refs, Relation.ReflTransGen s.ReadsFrom r target

/-- What `Cell::FillDependets` needs of the sheet's `SetCell`: on an empty text at a valid
position holding no cell it returns normally, having created an empty cell there and
changed no other cell. -/
def Vivifies (setCell : Sheet → Position → String → Sheet × Option Stop)
    (refs : List Position) : Prop :=
  ∀ (s : Sheet) (p : Position), p ∈ refs → s.cellAt p = none →
    ∃ s1, setCell s p "" = (s1, none) ∧
      ∀ q, s1.cellAt q = if q = p then some Cell.new else s.cellAt q

/-- Pending work of the sweep: dependents entries of the slots not yet visited. -/
def sweepWeight (D : Position → List Position) (L visited : List Position) : Nat :=
  ((L.filter fun p => decide (p ∉ visited)).map fun p => (D p).length).sum

/-- The cell found at `q` once steps 4 to 6 of `Cell::Set` have run for the cell at `self`
with new implementation `impl`: `self` is erased from the dependents of the cells it
referred to, gets its new implementation, and is inserted into the dependents of the cells
it now refers to, which are created empty when missing. -/
def Cell.rewired (s : Sheet) (self : Position) (impl : Impl) (q : Position) : Option Cell :=
  let erased := (s.cellAt q).map fun c => if q ∈ s.refsAt self then c.eraseDependent self else c
  let installed := if q = self then erased.map (Cell.setImpl impl) else erased
  if q ∈ impl.GetReferencedCells then some ((installed.getD Cell.new).insertDependent self)
  else installed

/-- The summary of an accepted `Cell::Set` used below: the sheet after it holds, at every
position, the rewired cell, with its cache reset when the position is in `V`. -/
def SetResult (s : Sheet) (self : Position) (impl : Impl) (s' : Sheet) (V : List Position) :
    Prop :=
  (∀ q, q ∈ V ↔ Relation.ReflTransGen s'.DependentEdge self q) ∧
  (∀ q, s'.cellAt q =
    if q ∈ V then (Cell.rewired s self impl q).map Cell.resetCache
    else Cell.rewired s self impl q)

/-- No cell is reachable from itself along one or more reads-from edges. -/
def Sheet.Acyclic (s : Sheet) : Prop := ∀ p, ¬ Relation.TransGen s.ReadsFrom p p

/-- The sheets obtained from the empty sheet by `SetCell` and `ClearCell` calls, whatever
their outcome (a call that throws leaves the sheet as it is at the throw). -/
inductive Reachable (ParseFormula : String → Option FormulaInterface) : Sheet → Prop where
  | create : Reachable ParseFormula CreateSheet
  | setCell (s : Sheet) (pos : Position) (text : String) :
      Reachable ParseFormula s → Reachable ParseFormula (Sheet.SetCell ParseFormula s pos text).1
  | clearCell (s : Sheet) (pos : Position) :
      Reachable ParseFormula s → Reachable ParseFormula (Sheet.ClearCell ParseFormula s pos).1

/-- The implementation `GetValue` works on at `p`; a position without a cell behaves as
an empty cell (it is reported absent by `GetCell` either way). -/
def Sheet.implAt (s : Sheet) (p : Position) : Impl :=
  ((s.cellAt p).map Cell.impl_).getD .EmptyImpl

/-- `cache_ = v` on an implementation. -/
def Impl.withCache (v : FormulaValue) : Impl → Impl
  | .FormulaImpl formula_ _ => .FormulaImpl formula_ (some v)
  | i => i

/-- Two sheets that agree on the implementation at every position. -/
def Sheet.SameContent (s s' : Sheet) : Prop := ∀ q, s.implAt q = s'.implAt q

/-- Reads-from edges and dependents edges are inverse to each other.  Since an edge leaves
a stored cell only, both ends of every edge then hold a cell. -/
def Sheet.Symmetric (s : Sheet) : Prop := ∀ a b, b ∈ s.refsAt a ↔ a ∈ s.dependentsAt b

/-- The cache of the cell at `p` (absent when there is no cell or the cell has none). -/
def Sheet.cacheAt (s : Sheet) (p : Position) : Option FormulaValue := (s.implAt p).cache

/-- The slot `j` of a row holds a cell with non-empty text. -/
def rowHasText (row : List (Option Cell)) (j : Nat) : Prop :=
  ∃ c, row.getD j none = some c ∧ c.GetText.isEmpty = false

/-- The slot in row `i`, column `j` holds a cell with non-empty text. -/
def Sheet.HasTextAt (s : Sheet) (i j : Nat) : Prop :=
  ∃ c, s.slot i j = some c ∧ c.GetText ≠ ""

/-- The evaluation run against the current content of the sheet, the value of a looked-up
cell being given by `value` instead of that cell's `GetValue`; `none` when a lookup fails. -/
def pureEvaluation (s : Sheet) (value : Position → Option Value) :
    Evaluation → Option FormulaValue
  | .done v => some v
  | .lookup pos k =>
    match s.GetCell pos with
    | .error _ => none
    | .ok none => pureEvaluation s value (k none)
    | .ok (some _) =>
      match value pos with
      | none => none
      | some v => pureEvaluation s value (k (some v))

/-- The value of the cell at `p` computed from the current content of the cells it reads,
directly or transitively, without consulting any cache; the first argument bounds the
depth of the recursion through formulas, `none` when it does not suffice. -/
def Sheet.trueValue : Nat → Sheet → Position → Option Value
  | 0, _, _ => none
  | fuel + 1, s, p =>
    match s.implAt p with
    | .EmptyImpl => some (.text "")
    | .TextImpl value_ => some (textValue value_)
    | .FormulaImpl formula_ _ =>
      (pureEvaluation s (Sheet.trueValue fuel s) formula_.Evaluate).map FormulaValue.toValue

/-- Every cache present in the sheet holds the value its formula has on the current
content of the sheet. -/
def Sheet.CachesCoherent (s : Sheet) : Prop :=
  ∀ p f v, s.implAt p = .FormulaImpl f (some v) →
    ∃ fuel, pureEvaluation s (s.trueValue fuel) f.Evaluate = some v

/-- The two sheets hold the same content at every position, caches apart. -/
def Sheet.SameSkeleton (s s' : Sheet) : Prop :=
  ∀ q, (s'.implAt q).ClearCache = (s.implAt q).ClearCache

/-- What a `GetValue`-like step guarantees on a coherent sheet: the content is unchanged
caches apart, the sheet stays coherent, and a returned value is the cache-free value. -/
def ValueStepOk (gv : Sheet → Position → Sheet × Except Stop Value) : Prop :=
  ∀ (s : Sheet) (p : Position) (s1 : Sheet) (r : Except Stop Value), s.CachesCoherent →
    gv s p = (s1, r) →
    s.SameSkeleton s1 ∧ s1.CachesCoherent ∧
      ∀ v, r = .ok v → ∃ k, s.trueValue k p = some v

/-- A cell object with its cache erased. -/
def Cell.withoutCache (c : Cell) : Impl × List Position := (c.impl_.ClearCache, c.dependets_)

/-- The second sheet stores the same cells as the first, caches apart. -/
def Sheet.CachesApart (s s' : Sheet) : Prop :=
  ∀ q, (s'.cellAt q).map Cell.withoutCache = (s.cellAt q).map Cell.withoutCache

/-- The sheets obtained from the empty sheet by `SetCell`, `ClearCell` and `GetValue`
calls in any order, whatever their outcome. -/
inductive ReadReachable (ParseFormula : String → Option FormulaInterface) : Sheet → Prop where
  | create : ReadReachable ParseFormula CreateSheet
  | setCell (s : Sheet) (pos : Position) (text : String) :
      ReadReachable ParseFormula s →
      ReadReachable ParseFormula (Sheet.SetCell ParseFormula s pos text).1
  | clearCell (s : Sheet) (pos : Position) :
      ReadReachable ParseFormula s →
      ReadReachable ParseFormula (Sheet.ClearCell ParseFormula s pos).1
  | getValue (s : Sheet) (fuel : Nat) (pos : Position) :
      ReadReachable ParseFormula s → ReadReachable ParseFormula (Cell.GetValue fuel s pos).1

/-- A sheet that no sequence of edits produces: `A1` reads `B1` and `B1` reads `A1`, next
to an empty `C1`. -/
def cyclicSheet : Sheet :=
  ⟨[[some ⟨.FormulaImpl (demoFormula "B1" [⟨0, 1⟩]) none, [⟨0, 1⟩]⟩,
     some ⟨.FormulaImpl (demoFormula "A1" [⟨0, 0⟩]) none, [⟨0, 0⟩]⟩,
     some ⟨.EmptyImpl, []⟩]]⟩

/-- The stored positions of a sheet, as a list. -/
def Sheet.storedPositions (s : Sheet) : List Position :=
  s.positions.filter fun p => (s.cellAt p).isSome

/-- No stored text cell holds the empty text (an empty text is stored as `EmptyImpl`). -/
def Sheet.TextsNonempty (s : Sheet) : Prop :=
  ∀ p T, s.implAt p = .TextImpl T → T.isEmpty = false

/-- The observations of the interface agree on two sheets: at every position `GetCell`
reports the same presence (or the same exception) and the same text, `GetValue` returns
the same value on both once the budget covers the grid, and the printable sizes are
equal. -/
def Sheet.SameObservations (s s' : Sheet) : Prop :=
  (∀ q, Except.map Option.isSome (s'.GetCell q) = Except.map Option.isSome (s.GetCell q)) ∧
  (∀ q, (s'.implAt q).GetText = (s.implAt q).GetText) ∧
  (∀ q c c', s.GetCell q = .ok (some c) → s'.GetCell q = .ok (some c') →
    c'.GetText = c.GetText) ∧
  (∀ q fuel fuel', s.slotCount + 1 ≤ fuel → s'.slotCount + 1 ≤ fuel' →
    ∃ v, (Cell.GetValue fuel s q).2 = .ok v ∧ (Cell.GetValue fuel' s' q).2 = .ok v) ∧
  s'.GetPrintableSize = s.GetPrintableSize

/-! ## The grid as a finite map from positions to cells -/

theorem Position.nonneg_of_IsValid {p : Position} (h : p.IsValid = true) :
    0 ≤ p.row ∧ 0 ≤ p.col := by
  simp only [Position.IsValid, Bool.and_eq_true, decide_eq_true_eq] at h
  exact ⟨h.1.1.1, h.1.1.2⟩

theorem Position.eq_of_toNat_eq {p q : Position} (hp : 0 ≤ p.row ∧ 0 ≤ p.col)
    (hq : 0 ≤ q.row ∧ 0 ≤ q.col) (hr : p.row.toNat = q.row.toNat)
    (hc : p.col.toNat = q.col.toNat) : p = q := by
  cases p; cases q
  simp only [Position.mk.injEq] at *
  omega

theorem Sheet.slot_lt {s : Sheet} {r c : Nat} {x : Cell} (h : s.slot r c = some x) :
    r < s.table_.length ∧ c < (s.rowAt r).length := by
  unfold Sheet.slot at h
  have hc : c < (s.rowAt r).length := by
    by_contra hc
    rw [List.getD_eq_getElem?_getD, List.getElem?_eq_none (by omega)] at h
    simp at h
  refine ⟨?_, hc⟩
  by_contra hr
  unfold Sheet.rowAt at hc
  rw [List.getD_eq_getElem?_getD, List.getElem?_eq_none (by omega)] at hc
  simp at hc

theorem Sheet.rowAt_setSlot (s : Sheet) (r c : Nat) (v : Option Cell) (r' : Nat) :
    (s.setSlot r c v).rowAt r' = if r' = r then (s.rowAt r).set c v else s.rowAt r' := by
  unfold Sheet.setSlot Sheet.rowAt
  simp only [List.getD_eq_getElem?_getD, List.getElem?_set]
  by_cases h : r = r'
  · subst h
    by_cases hl : r < s.table_.length
    · simp [hl]
    · simp [hl, List.getElem?_eq_none (not_lt.mp hl)]
  · simp [h, Ne.symm h]

theorem Sheet.slot_setSlot (s : Sheet) (r c : Nat) (v : Option Cell) (r' c' : Nat) :
    (s.setSlot r c v).slot r' c' =
      if r' = r ∧ c' = c ∧ c < (s.rowAt r).length then v else s.slot r' c' := by
  unfold Sheet.slot
  rw [Sheet.rowAt_setSlot]
  by_cases h : r' = r
  · subst h
    simp only [if_true, true_and, List.getD_eq_getElem?_getD, List.getElem?_set]
    by_cases hc : c = c'
    · subst hc
      by_cases hl : c < (s.rowAt r').length
      · simp [hl]
      · simp [hl, List.getElem?_eq_none (not_lt.mp hl)]
    · simp [hc, Ne.symm hc]
  · simp [h]

theorem Sheet.length_setSlot (s : Sheet) (r c : Nat) (v : Option Cell) :
    (s.setSlot r c v).table_.length = s.table_.length := by
  simp [Sheet.setSlot]

theorem Sheet.cellAt_setSlot (s : Sheet) (p : Position) (hp : 0 ≤ p.row ∧ 0 ≤ p.col)
    (hc : p.col.toNat < (s.rowAt p.row.toNat).length) (v : Option Cell) (q : Position) :
    (s.setSlot p.row.toNat p.col.toNat v).cellAt q = if q = p then v else s.cellAt q := by
  unfold Sheet.cellAt
  by_cases hq : 0 ≤ q.row ∧ 0 ≤ q.col
  · simp only [hq, and_self, if_true, Sheet.slot_setSlot]
    by_cases h : q = p
    · subst h; simp [hc]
    · have : ¬ (q.row.toNat = p.row.toNat ∧ q.col.toNat = p.col.toNat ∧
          p.col.toNat < (s.rowAt p.row.toNat).length) := by
        rintro ⟨h1, h2, _⟩
        exact h (Position.eq_of_toNat_eq hq hp h1 h2)
      simp [this, h]
  · have : q ≠ p := by rintro rfl; exact hq hp
    simp [hq, this]

theorem Sheet.cellAt_nonneg {s : Sheet} {p : Position} {c : Cell} (h : s.cellAt p = some c) :
    0 ≤ p.row ∧ 0 ≤ p.col := by
  unfold Sheet.cellAt at h
  by_contra hn
  simp [hn] at h

theorem Sheet.cellAt_lt {s : Sheet} {p : Position} {c : Cell} (h : s.cellAt p = some c) :
    p.row.toNat < s.table_.length ∧ p.col.toNat < (s.rowAt p.row.toNat).length := by
  have hn := Sheet.cellAt_nonneg h
  unfold Sheet.cellAt at h
  rw [if_pos hn] at h
  exact Sheet.slot_lt h

theorem Sheet.cellAt_eq_slot {s : Sheet} {p : Position} (hp : 0 ≤ p.row ∧ 0 ≤ p.col) :
    s.cellAt p = s.slot p.row.toNat p.col.toNat := by
  simp [Sheet.cellAt, hp]

theorem Sheet.cellAt_updateCell (s : Sheet) (p : Position) (f : Cell → Cell) (q : Position) :
    (s.updateCell p f).cellAt q = if q = p then (s.cellAt p).map f else s.cellAt q := by
  unfold Sheet.updateCell
  cases h : s.cellAt p with
  | none =>
    by_cases hq : q = p
    · subst hq; simp [h]
    · simp [hq]
  | some c =>
    simp only [Option.map_some']
    exact Sheet.cellAt_setSlot s p (Sheet.cellAt_nonneg h) (Sheet.cellAt_lt h).2 _ q

theorem Sheet.GetConcreteCell_eq (s : Sheet) (p : Position) :
    s.GetConcreteCell p =
      if p.IsValid then .ok (s.cellAt p) else .error .InvalidPositionException := by
  unfold Sheet.GetConcreteCell
  by_cases hv : p.IsValid = true
  · have hn := Position.nonneg_of_IsValid hv
    simp only [hv, Bool.not_true, Bool.false_eq_true, if_false, if_true,
      Sheet.cellAt_eq_slot hn]
    split
    · rfl
    · rename_i hlt
      cases hs : s.slot p.row.toNat p.col.toNat with
      | none => rfl
      | some x => exact absurd (Sheet.slot_lt hs) hlt
  · simp [hv]

theorem Sheet.GetConcreteCell_valid (s : Sheet) {p : Position} (hv : p.IsValid = true) :
    s.GetConcreteCell p = .ok (s.cellAt p) := by
  simp [Sheet.GetConcreteCell_eq, hv]

theorem vectorResize_length {α : Type} (xs : List α) (n : Nat) (d : α) :
    (vectorResize xs n d).length = n := by
  simp [vectorResize, List.length_take]
  omega

theorem vectorResize_getD {α : Type} (xs : List α) (n : Nat) (d : α) (h : xs.length ≤ n)
    (i : Nat) : (vectorResize xs n d).getD i d = xs.getD i d := by
  unfold vectorResize
  rw [List.take_of_length_le h]
  simp only [List.getD_eq_getElem?_getD]
  by_cases hi : i < xs.length
  · rw [List.getElem?_append_left hi]
  · rw [List.getElem?_append_right (not_lt.mp hi), List.getElem?_eq_none (not_lt.mp hi),
      List.getElem?_replicate]
    split <;> rfl

/-- The sheet after the row vector has been grown for `pos`. -/
theorem Sheet.ensureCell_spec (s : Sheet) (pos : Position) (hp : 0 ≤ pos.row ∧ 0 ≤ pos.col)
    (q : Position) :
    (s.ensureCell pos).cellAt q =
      if q = pos then some ((s.cellAt pos).getD Cell.new) else s.cellAt q := by
  -- stage 1
  obtain ⟨s1, hs1, hrow1, hlen1⟩ : ∃ s1 : Sheet,
      s1 = (if pos.row.toNat ≥ s.table_.length then
        (⟨vectorResize s.table_ (pos.row.toNat + 1) []⟩ : Sheet) else s) ∧
      (∀ r, s1.rowAt r = s.rowAt r) ∧ pos.row.toNat < s1.table_.length := by
    refine ⟨_, rfl, ?_, ?_⟩
    · intro r
      split
      · rename_i h
        exact vectorResize_getD _ _ _ (by omega) r
      · rfl
    · split
      · simp [vectorResize_length]
      · rename_i h; omega
  obtain ⟨s2, hs2, hslot2, hlen2⟩ : ∃ s2 : Sheet,
      s2 = (if pos.col.toNat ≥ (s1.rowAt pos.row.toNat).length then
        (⟨s1.table_.set pos.row.toNat
          (vectorResize (s1.rowAt pos.row.toNat) (pos.col.toNat + 1) none)⟩ : Sheet) else s1) ∧
      (∀ r c, s2.slot r c = s.slot r c) ∧ pos.col.toNat < (s2.rowAt pos.row.toNat).length := by
    refine ⟨_, rfl, ?_, ?_⟩
    · intro r c
      split
      · rename_i h
        unfold Sheet.slot
        by_cases hr : r = pos.row.toNat
        · subst hr
          have : (Sheet.mk (s1.table_.set pos.row.toNat
              (vectorResize (s1.rowAt pos.row.toNat) (pos.col.toNat + 1) none))).rowAt
                pos.row.toNat
              = vectorResize (s1.rowAt pos.row.toNat) (pos.col.toNat + 1) none := by
            simp [Sheet.rowAt, List.getD_eq_getElem?_getD, List.getElem?_set, hlen1]
          rw [this, vectorResize_getD _ _ _ (by omega), hrow1]
        · have : (Sheet.mk (s1.table_.set pos.row.toNat
              (vectorResize (s1.rowAt pos.row.toNat) (pos.col.toNat + 1) none))).rowAt r
              = s1.rowAt r := by
            simp [Sheet.rowAt, List.getD_eq_getElem?_getD, List.getElem?_set, Ne.symm hr]
          rw [this, hrow1]
      · unfold Sheet.slot; rw [hrow1]
    · split
      · simp [Sheet.rowAt, List.getD_eq_getElem?_getD, List.getElem?_set, hlen1,
          vectorResize_length]
      · rename_i h; omega
  have hcell2 : ∀ q, s2.cellAt q = s.cellAt q := by
    intro q; unfold Sheet.cellAt; rw [hslot2]
  have hE : s.ensureCell pos =
      if (s2.slot pos.row.toNat pos.col.toNat).isNone then
        s2.setSlot pos.row.toNat pos.col.toNat (some Cell.new) else s2 := by
    unfold Sheet.ensureCell
    simp only [← hs1, ← hs2]
  rw [hE]
  have hslotpos : s2.slot pos.row.toNat pos.col.toNat = s.cellAt pos := by
    rw [hslot2, Sheet.cellAt_eq_slot hp]
  rw [hslotpos]
  cases hc : s.cellAt pos with
  | none =>
    simp only [Option.isNone_none, if_true, Option.getD_none]
    rw [Sheet.cellAt_setSlot s2 pos hp hlen2, hcell2]
  | some c =>
    simp only [Option.isNone_some, Bool.false_eq_true, if_false, Option.getD_some]
    rw [hcell2]
    by_cases hq : q = pos
    · subst hq; simp [hc]
    · simp [hq]

theorem Sheet.GetCell_eq (s : Sheet) (p : Position) :
    s.GetCell p =
      if p.IsValid then
        .ok ((s.cellAt p).filter fun cell => !cell.GetText.isEmpty)
      else .error .InvalidPositionException := by
  unfold Sheet.GetCell
  by_cases hv : p.IsValid = true
  · have hn := Position.nonneg_of_IsValid hv
    simp only [hv, Bool.not_true, Bool.false_eq_true, if_false, if_true,
      Sheet.cellAt_eq_slot hn]
    cases hs : s.slot p.row.toNat p.col.toNat with
    | none => simp
    | some x =>
      have := Sheet.slot_lt hs
      simp only [this, and_self, if_true, Option.filter]
      split <;> rfl
  · simp [hv]

theorem positionsFrom_length (k : Nat) (t : List (List (Option Cell))) :
    (positionsFrom k t).length = (t.map List.length).sum := by
  induction t generalizing k with
  | nil => rfl
  | cons row rows ih => simp [positionsFrom, ih]

theorem Sheet.positions_length (s : Sheet) : s.positions.length = s.slotCount :=
  positionsFrom_length 0 s.table_

theorem mem_positionsFrom (k : Nat) (t : List (List (Option Cell))) (r c : Nat)
    (hr : k ≤ r) (hlt : r - k < t.length) (hc : c < (t.getD (r - k) []).length) :
    Position.mk (Int.ofNat r) (Int.ofNat c) ∈ positionsFrom k t := by
  induction t generalizing k with
  | nil => simp at hlt
  | cons row rows ih =>
    simp only [positionsFrom, List.mem_append, List.mem_map, List.mem_range]
    by_cases h : r = k
    · subst h
      left
      simp only [Nat.sub_self, List.getD_cons_zero] at hc
      exact ⟨c, hc, rfl⟩
    · right
      have h1 : r - k = (r - (k + 1)) + 1 := by omega
      rw [h1] at hlt hc
      simp only [List.length_cons, Nat.add_lt_add_iff_right] at hlt
      simp only [List.getD_cons_succ] at hc
      exact ih (k + 1) (by omega) hlt hc

theorem Sheet.mem_positions {s : Sheet} {p : Position} {c : Cell} (h : s.cellAt p = some c) :
    p ∈ s.positions := by
  have hn := Sheet.cellAt_nonneg h
  have hl := Sheet.cellAt_lt h
  have := mem_positionsFrom 0 s.table_ p.row.toNat p.col.toNat (Nat.zero_le _)
    (by simpa using hl.1) (by simpa [Sheet.rowAt] using hl.2)
  have e : Position.mk (Int.ofNat p.row.toNat) (Int.ofNat p.col.toNat) = p := by
    cases p
    simp only [Position.mk.injEq, Int.ofNat_eq_coe]
    exact ⟨Int.toNat_of_nonneg hn.1, Int.toNat_of_nonneg hn.2⟩
  rw [e] at this
  exact this

theorem Sheet.refsAt_valid (s : Sheet) (p : Position) : ∀ q ∈ s.refsAt p, q.IsValid = true := by
  intro q hq
  unfold Sheet.refsAt at hq
  cases h : s.cellAt p with
  | none => simp [h] at hq
  | some c =>
    simp only [h, Option.elim_some, Cell.GetReferencedCells] at hq
    cases hi : c.impl_ with
    | EmptyImpl => simp [hi, Impl.GetReferencedCells] at hq
    | TextImpl v => simp [hi, Impl.GetReferencedCells] at hq
    | FormulaImpl f cache =>
      simp only [hi, Impl.GetReferencedCells] at hq
      exact f.refs_valid q hq

theorem Impl.refs_valid (i : Impl) : ∀ q ∈ i.GetReferencedCells, q.IsValid = true := by
  intro q hq
  cases i with
  | EmptyImpl => simp [Impl.GetReferencedCells] at hq
  | TextImpl v => simp [Impl.GetReferencedCells] at hq
  | FormulaImpl f cache => exact f.refs_valid q hq

/-! ## The cycle search -/

/-- One step of the loop over valid positions. -/
theorem forReferenced_cons_valid (s : Sheet)
    (check : Option Position → List Position → Except Stop (Bool × List Position))
    (pos : Position) (rest visited : List Position) (hv : pos.IsValid = true) :
    forReferenced s check (pos :: rest) visited =
      match check ((s.cellAt pos).map fun _ => pos) visited with
      | .error e => .error e
      | .ok (true, visited1) => .ok (true, visited1)
      | .ok (false, visited1) => forReferenced s check rest visited1 := by
  simp only [forReferenced, Sheet.GetConcreteCell_valid s hv]

theorem forReferenced_sound (s : Sheet) (target : Position)
    (check : Option Position → List Position → Except Stop (Bool × List Position))
    (hcheck : ∀ cur vis v', check cur vis = .ok (true, v') →
      ∃ c, cur = some c ∧ Relation.ReflTransGen s.ReadsFrom c target) :
    ∀ (refs vis v' : List Position), (∀ r ∈ refs, r.IsValid = true) →
      forReferenced s check refs vis = .ok (true, v') →
      ∃ r ∈ refs, Relation.ReflTransGen s.ReadsFrom r target := by
  intro refs
  induction refs with
  | nil => intro vis v' _ h; simp [forReferenced] at h
  | cons pos rest ih =>
    intro vis v' hval h
    rw [forReferenced_cons_valid s check pos rest vis (hval pos (List.mem_cons_self _ _))] at h
    cases hc : check ((s.cellAt pos).map fun _ => pos) vis with
    | error e => simp [hc] at h
    | ok res =>
      obtain ⟨b, v1⟩ := res
      cases b with
      | true =>
        obtain ⟨c, hcur, hreach⟩ := hcheck _ _ _ hc
        have : c = pos := by
          cases hs : s.cellAt pos with
          | none => simp [hs] at hcur
          | some x => simp [hs] at hcur; exact hcur.symm
        subst this
        exact ⟨c, List.mem_cons_self _ _, hreach⟩
      | false =>
        simp only [hc] at h
        obtain ⟨r, hr, hreach⟩ := ih v1 v' (fun r hr => hval r (List.mem_cons_of_mem _ hr)) h
        exact ⟨r, List.mem_cons_of_mem _ hr, hreach⟩

theorem CheckCircularDependency_sound (s : Sheet) (target : Position) :
    ∀ (fuel : Nat) (cur : Option Position) (vis v' : List Position),
      CheckCircularDependency s target fuel cur vis = .ok (true, v') →
      ∃ c, cur = some c ∧ Relation.ReflTransGen s.ReadsFrom c target := by
  intro fuel
  induction fuel with
  | zero => intro cur vis v' h; simp [CheckCircularDependency] at h
  | succ fuel ih =>
    intro cur vis v' h
    cases cur with
    | none => simp [CheckCircularDependency] at h
    | some current =>
      rw [CheckCircularDependency] at h
      by_cases ht : current = target
      · exact ⟨current, rfl, ht ▸ Relation.ReflTransGen.refl⟩
      · rw [if_neg ht] at h
        by_cases hm : current ∈ vis
        · simp [hm] at h
        · rw [if_neg hm] at h
          obtain ⟨r, hr, hreach⟩ := forReferenced_sound s target _ ih _ _ _
            (s.refsAt_valid current) h
          exact ⟨current, rfl, Relation.ReflTransGen.head hr hreach⟩

theorem Searched.refl (s : Sheet) (target : Position) (V : List Position) :
    Searched s target V V :=
  ⟨fun _ h => h, fun h => h, fun _ hu hnu => absurd hu hnu⟩

theorem Searched.trans {s : Sheet} {target : Position} {V V1 V2 : List Position}
    (h1 : Searched s target V V1) (h2 : Searched s target V1 V2) : Searched s target V V2 := by
  refine ⟨fun x hx => h2.1 (h1.1 hx), fun ht => h2.2.1 (h1.2.1 ht), ?_⟩
  intro u hu hnu q hq
  by_cases hu1 : u ∈ V1
  · rcases h1.2.2 u hu1 hnu q hq with h | h
    · exact Or.inl h
    · exact Or.inr (h2.1 h)
  · exact h2.2.2 u hu hu1 q hq

theorem forReferenced_complete (s : Sheet) (target : Position)
    (check : Option Position → List Position → Except Stop (Bool × List Position))
    (hcheck : ∀ cur vis v', check cur vis = .ok (false, v') →
      Searched s target vis v' ∧ ∀ c, cur = some c → c ∈ v') :
    ∀ (refs vis v' : List Position), (∀ r ∈ refs, r.IsValid = true) →
      forReferenced s check refs vis = .ok (false, v') →
      Searched s target vis v' ∧ ∀ r ∈ refs, s.cellAt r = none ∨ r ∈ v' := by
  intro refs
  induction refs with
  | nil =>
    intro vis v' _ h
    simp only [forReferenced, Except.ok.injEq, Prod.mk.injEq, true_and] at h
    subst h
    exact ⟨Searched.refl _ _ _, fun r hr => absurd hr (List.not_mem_nil r)⟩
  | cons pos rest ih =>
    intro vis v' hval h
    rw [forReferenced_cons_valid s check pos rest vis (hval pos (List.mem_cons_self _ _))] at h
    cases hc : check ((s.cellAt pos).map fun _ => pos) vis with
    | error e => simp [hc] at h
    | ok res =>
      obtain ⟨b, v1⟩ := res
      cases b with
      | true => simp [hc] at h
      | false =>
        simp only [hc] at h
        obtain ⟨hs1, hcur⟩ := hcheck _ _ _ hc
        obtain ⟨hs2, hrest⟩ := ih v1 v' (fun r hr => hval r (List.mem_cons_of_mem _ hr)) h
        refine ⟨hs1.trans hs2, ?_⟩
        intro r hr
        rcases List.mem_cons.mp hr with rfl | hr
        · cases hst : s.cellAt r with
          | none => exact Or.inl rfl
          | some x =>
            right
            exact hs2.1 (hcur r (by simp [hst]))
        · exact hrest r hr

theorem CheckCircularDependency_complete (s : Sheet) (target : Position) :
    ∀ (fuel : Nat) (cur : Option Position) (vis v' : List Position),
      CheckCircularDependency s target fuel cur vis = .ok (false, v') →
      Searched s target vis v' ∧ ∀ c, cur = some c → c ∈ v' := by
  intro fuel
  induction fuel with
  | zero => intro cur vis v' h; simp [CheckCircularDependency] at h
  | succ fuel ih =>
    intro cur vis v' h
    cases cur with
    | none =>
      simp only [CheckCircularDependency, Except.ok.injEq, Prod.mk.injEq, true_and] at h
      subst h
      exact ⟨Searched.refl _ _ _, fun c hc => by simp at hc⟩
    | some current =>
      rw [CheckCircularDependency] at h
      by_cases ht : current = target
      · simp [ht] at h
      · rw [if_neg ht] at h
        by_cases hm : current ∈ vis
        · simp only [hm, if_true, Except.ok.injEq, Prod.mk.injEq, true_and] at h
          subst h
          exact ⟨Searched.refl _ _ _, fun c hc => by
            simp only [Option.some.injEq] at hc; subst hc; exact hm⟩
        · rw [if_neg hm] at h
          obtain ⟨hs, hrefs⟩ := forReferenced_complete s target _ ih _ _ _
            (s.refsAt_valid current) h
          have hcur : current ∈ v' := hs.1 (List.mem_cons_self _ _)
          refine ⟨⟨fun x hx => hs.1 (List.mem_cons_of_mem _ hx), ?_, ?_⟩, ?_⟩
          · intro htv
            apply hs.2.1
            intro hmem
            rcases List.mem_cons.mp hmem with h1 | h1
            · exact ht h1.symm
            · exact htv h1
          · intro u hu hnu q hq
            by_cases huc : u = current
            · subst huc; exact hrefs q hq
            · apply hs.2.2 u hu _ q hq
              intro hmem
              rcases List.mem_cons.mp hmem with h1 | h1
              · exact huc h1
              · exact hnu h1
          · intro c hc
            simp only [Option.some.injEq] at hc
            subst hc; exact hcur

/-- A set of cells closed under stored successors and not containing the stored target
cannot contain a cell that reaches the target. -/
theorem closed_not_reach (s : Sheet) (target : Position) (V : List Position)
    (hclosed : ∀ u ∈ V, ∀ q ∈ s.refsAt u, s.cellAt q = none ∨ q ∈ V)
    (htarget : target ∉ V) (hstored : s.cellAt target ≠ none)
    {x : Position} (hx : x ∈ V) : ¬ Relation.ReflTransGen s.ReadsFrom x target := by
  intro hreach
  have key : ∀ y, Relation.ReflTransGen s.ReadsFrom x y → s.cellAt y ≠ none → y ∈ V := by
    intro y hy
    induction hy with
    | refl => intro _; exact hx
    | tail hxz hzy ih =>
      rename_i z y
      intro hys
      have hzs : s.cellAt z ≠ none := by
        intro hz
        have : s.refsAt z = [] := by simp [Sheet.refsAt, hz]
        unfold Sheet.ReadsFrom at hzy
        rw [this] at hzy
        exact absurd hzy (List.not_mem_nil _)
      rcases hclosed z (ih hzs) y hzy with h | h
      · exact absurd h hys
      · exact h
  exact htarget (key target hreach hstored)

theorem forReferenced_terminates (s : Sheet) (L : List Position) (fuel : Nat)
    (check : Option Position → List Position → Except Stop (Bool × List Position))
    (hcheck : ∀ cur vis, (∀ c, cur = some c → s.cellAt c ≠ none) → vis.Nodup → vis ⊆ L →
      L.length + 1 ≤ fuel + vis.length →
      ∃ b v', check cur vis = .ok (b, v') ∧ v'.Nodup ∧ v' ⊆ L ∧ vis.length ≤ v'.length) :
    ∀ (refs vis : List Position), (∀ r ∈ refs, r.IsValid = true) → vis.Nodup → vis ⊆ L →
      L.length + 1 ≤ fuel + vis.length →
      ∃ b v', forReferenced s check refs vis = .ok (b, v') ∧ v'.Nodup ∧ v' ⊆ L ∧
        vis.length ≤ v'.length := by
  intro refs
  induction refs with
  | nil =>
    intro vis _ hnd hsub _
    exact ⟨false, vis, rfl, hnd, hsub, le_refl _⟩
  | cons pos rest ih =>
    intro vis hval hnd hsub hfuel
    rw [forReferenced_cons_valid s check pos rest vis (hval pos (List.mem_cons_self _ _))]
    have hstored : ∀ c, (s.cellAt pos).map (fun _ => pos) = some c → s.cellAt c ≠ none := by
      intro c hc
      cases hs : s.cellAt pos with
      | none => simp [hs] at hc
      | some x => simp [hs] at hc; subst hc; simp [hs]
    obtain ⟨b, v1, hc, hnd1, hsub1, hlen1⟩ := hcheck _ vis hstored hnd hsub hfuel
    rw [hc]
    cases b with
    | true => exact ⟨true, v1, rfl, hnd1, hsub1, hlen1⟩
    | false =>
      obtain ⟨b2, v2, h2, hnd2, hsub2, hlen2⟩ :=
        ih v1 (fun r hr => hval r (List.mem_cons_of_mem _ hr)) hnd1 hsub1 (by omega)
      exact ⟨b2, v2, h2, hnd2, hsub2, by omega⟩

theorem CheckCircularDependency_terminates (s : Sheet) (target : Position) (L : List Position)
    (hL : ∀ p, s.cellAt p ≠ none → p ∈ L) :
    ∀ (fuel : Nat) (cur : Option Position) (vis : List Position),
      (∀ c, cur = some c → s.cellAt c ≠ none) → vis.Nodup → vis ⊆ L →
      L.length + 1 ≤ fuel + vis.length →
      ∃ b v', CheckCircularDependency s target fuel cur vis = .ok (b, v') ∧ v'.Nodup ∧
        v' ⊆ L ∧ vis.length ≤ v'.length := by
  intro fuel
  induction fuel with
  | zero =>
    intro cur vis _ hnd hsub hfuel
    have := (List.subperm_of_subset hnd hsub).length_le
    omega
  | succ fuel ih =>
    intro cur vis hcur hnd hsub hfuel
    cases cur with
    | none => exact ⟨false, vis, rfl, hnd, hsub, le_refl _⟩
    | some current =>
      rw [CheckCircularDependency]
      by_cases ht : current = target
      · rw [if_pos ht]; exact ⟨true, vis, rfl, hnd, hsub, le_refl _⟩
      · rw [if_neg ht]
        by_cases hm : current ∈ vis
        · rw [if_pos hm]; exact ⟨false, vis, rfl, hnd, hsub, le_refl _⟩
        · rw [if_neg hm]
          have hnd1 : (current :: vis).Nodup := List.nodup_cons.mpr ⟨hm, hnd⟩
          have hsub1 : (current :: vis) ⊆ L := by
            intro x hx
            rcases List.mem_cons.mp hx with rfl | hx
            · exact hL _ (hcur _ rfl)
            · exact hsub hx
          obtain ⟨b, v', h, hnd', hsub', hlen'⟩ :=
            forReferenced_terminates s L fuel _ ih _ (current :: vis)
              (s.refsAt_valid current) hnd1 hsub1 (by simp only [List.length_cons]; omega)
          refine ⟨b, v', h, hnd', hsub', ?_⟩
          simp only [List.length_cons] at hlen'
          omega

/-- The cycle check is exact and always returns: it throws `CircularDependencyException`
when a referenced position reaches the target and returns normally otherwise. -/
theorem ThrowIfCircularDependency_spec (s : Sheet) (self : Position) (impl : Impl)
    (hself : s.cellAt self ≠ none) :
    (s.ClosesCycle self impl.GetReferencedCells ∧
        ThrowIfCircularDependency s self impl = some (.thrown .CircularDependencyException)) ∨
    (¬ s.ClosesCycle self impl.GetReferencedCells ∧
        ThrowIfCircularDependency s self impl = none) := by
  have hL : ∀ p, s.cellAt p ≠ none → p ∈ s.positions := by
    intro p hp
    cases h : s.cellAt p with
    | none => exact absurd h hp
    | some c => exact Sheet.mem_positions h
  obtain ⟨b, v', h, _, _, _⟩ :=
    forReferenced_terminates s s.positions (s.slotCount + 1)
      (CheckCircularDependency s self (s.slotCount + 1))
      (CheckCircularDependency_terminates s self s.positions hL (s.slotCount + 1))
      impl.GetReferencedCells [] impl.refs_valid List.nodup_nil (List.nil_subset _)
      (by rw [Sheet.positions_length]; simp)
  cases b with
  | true =>
    left
    refine ⟨forReferenced_sound s self _ (CheckCircularDependency_sound s self _) _ _ _
      impl.refs_valid h, ?_⟩
    simp [ThrowIfCircularDependency, h]
  | false =>
    right
    obtain ⟨hs, hrefs⟩ := forReferenced_complete s self _
      (CheckCircularDependency_complete s self _) _ _ _ impl.refs_valid h
    refine ⟨?_, by simp [ThrowIfCircularDependency, h]⟩
    rintro ⟨r, hr, hreach⟩
    have hclosed : ∀ u ∈ v', ∀ q ∈ s.refsAt u, s.cellAt q = none ∨ q ∈ v' :=
      fun u hu q hq => hs.2.2 u hu (List.not_mem_nil u) q hq
    have htv : self ∉ v' := hs.2.1 (List.not_mem_nil _)
    rcases hrefs r hr with hnone | hmem
    · -- an unstored referenced position reaches the target only by being the target
      rcases Relation.ReflTransGen.cases_head hreach with heq | ⟨z, hrz, _⟩
      · subst heq; exact hself hnone
      · unfold Sheet.ReadsFrom Sheet.refsAt at hrz
        simp [hnone] at hrz
    · exact closed_not_reach s self v' hclosed htv hself hmem hreach

/-! ## The edge loops of `Cell::Set` -/

theorem Cell.eraseDependent_idem (p : Position) (c : Cell) :
    (c.eraseDependent p).eraseDependent p = c.eraseDependent p := by
  simp [Cell.eraseDependent, List.filter_filter]

theorem Cell.insertDependent_idem (p : Position) (c : Cell) :
    (c.insertDependent p).insertDependent p = c.insertDependent p := by
  unfold Cell.insertDependent
  by_cases h : p ∈ c.dependets_
  · simp [h]
  · simp [h]

theorem Cell.eraseFromReferenced_spec (self : Position) :
    ∀ (refs : List Position) (s : Sheet), (∀ r ∈ refs, r.IsValid = true) →
      ∃ s', Cell.eraseFromReferenced self s refs = (s', none) ∧
        ∀ q, s'.cellAt q =
          (s.cellAt q).map fun c => if q ∈ refs then c.eraseDependent self else c := by
  intro refs
  induction refs with
  | nil =>
    intro s _
    exact ⟨s, rfl, fun q => by simp⟩
  | cons pos rest ih =>
    intro s hval
    have hv := hval pos (List.mem_cons_self _ _)
    have hrest : ∀ r ∈ rest, r.IsValid = true := fun r hr => hval r (List.mem_cons_of_mem _ hr)
    rw [Cell.eraseFromReferenced, Sheet.GetConcreteCell_valid s hv]
    cases hc : s.cellAt pos with
    | none =>
      obtain ⟨s', h, hcell⟩ := ih s hrest
      refine ⟨s', h, ?_⟩
      intro q
      rw [hcell]
      by_cases hq : q = pos
      · subst hq; simp [hc]
      · simp [hq]
    | some c =>
      obtain ⟨s', h, hcell⟩ := ih (s.updateCell pos (Cell.eraseDependent self)) hrest
      refine ⟨s', h, ?_⟩
      intro q
      rw [hcell, Sheet.cellAt_updateCell]
      by_cases hq : q = pos
      · subst hq
        by_cases hm : q ∈ rest
        · simp [hc, hm, Cell.eraseDependent_idem]
        · simp [hc, hm]
      · simp [hq]

theorem Cell.FillDependets_spec (setCell : Sheet → Position → String → Sheet × Option Stop)
    (self : Position) :
    ∀ (refs : List Position) (s : Sheet), (∀ r ∈ refs, r.IsValid = true) →
      Vivifies setCell refs →
      ∃ s', Cell.FillDependets setCell self s refs = (s', none) ∧
        ∀ q, s'.cellAt q =
          if q ∈ refs then some (((s.cellAt q).getD Cell.new).insertDependent self)
          else s.cellAt q := by
  intro refs
  induction refs with
  | nil =>
    intro s _ _
    exact ⟨s, rfl, fun q => by simp⟩
  | cons pos rest ih =>
    intro s hval hset
    have hv := hval pos (List.mem_cons_self _ _)
    have hrest : ∀ r ∈ rest, r.IsValid = true := fun r hr => hval r (List.mem_cons_of_mem _ hr)
    have hsetrest : Vivifies setCell rest :=
      fun s p hp hnone => hset s p (List.mem_cons_of_mem _ hp) hnone
    rw [Cell.FillDependets, Sheet.GetConcreteCell_valid s hv]
    -- the sheet in which the dependent is inserted holds a cell at `pos`
    have step : ∀ (s1 : Sheet) (c1 : Cell), s1.cellAt pos = some c1 →
        (∀ q, q ≠ pos → s1.cellAt q = s.cellAt q) →
        c1 = (s.cellAt pos).getD Cell.new →
        ∃ s', Cell.FillDependets setCell self
            (s1.updateCell pos (Cell.insertDependent self)) rest = (s', none) ∧
          ∀ q, s'.cellAt q =
            if q ∈ pos :: rest then some (((s.cellAt q).getD Cell.new).insertDependent self)
            else s.cellAt q := by
      intro s1 c1 hc1 hframe hc1eq
      obtain ⟨s', h, hcell⟩ := ih (s1.updateCell pos (Cell.insertDependent self)) hrest hsetrest
      refine ⟨s', h, ?_⟩
      intro q
      rw [hcell, Sheet.cellAt_updateCell]
      by_cases hq : q = pos
      · subst hq
        by_cases hm : q ∈ rest
        · simp [hc1, hm, Cell.insertDependent_idem, hc1eq]
        · simp [hc1, hm, hc1eq]
      · simp [hq, hframe q hq]
    cases hc : s.cellAt pos with
    | some c =>
      exact step s c hc (fun _ _ => rfl) (by simp [hc])
    | none =>
      obtain ⟨s1, hs1, hcell1⟩ := hset s pos (List.mem_cons_self _ _) hc
      simp only [hs1, Sheet.GetConcreteCell_valid s1 hv]
      exact step s1 Cell.new (by simp [hcell1]) (fun q hq => by simp [hcell1, hq])
        (by simp [hc])

/-! ## The invalidation sweep -/

theorem Sheet.dependentsAt_clearCacheAt (s : Sheet) (c p : Position) :
    (s.clearCacheAt c).dependentsAt p = s.dependentsAt p := by
  unfold Sheet.dependentsAt Sheet.clearCacheAt
  rw [Sheet.cellAt_updateCell]
  by_cases h : p = c
  · subst h
    cases s.cellAt p <;> simp [Cell.resetCache]
  · simp [h]

theorem sum_filter_ne_add_le (w : Position → Nat) (c : Position) :
    ∀ (L : List Position), c ∈ L →
      ((L.filter fun p => !decide (p = c)).map w).sum + w c ≤ (L.map w).sum := by
  intro L
  induction L with
  | nil => intro h; simp at h
  | cons x xs ih =>
    intro h
    by_cases hx : x = c
    · subst hx
      have : ((xs.filter fun p => !decide (p = x)).map w).sum ≤ (xs.map w).sum := by
        clear ih h
        induction xs with
        | nil => simp
        | cons y ys ihy =>
          by_cases hy : y = x
          · simp [List.filter_cons, hy]; omega
          · simp [List.filter_cons, hy]; omega
      simp [List.filter_cons]
      omega
    · have hc : c ∈ xs := by
        rcases List.mem_cons.mp h with h | h
        · exact absurd h.symm hx
        · exact h
      have := ih hc
      simp [List.filter_cons, hx]
      omega

theorem sweepWeight_cons (D : Position → List Position) (L visited : List Position)
    (c : Position) (hc : c ∉ visited) (hL : D c ≠ [] → c ∈ L) :
    sweepWeight D L (c :: visited) + (D c).length ≤ sweepWeight D L visited := by
  unfold sweepWeight
  have hf : (L.filter fun p => decide (p ∉ c :: visited)) =
      ((L.filter fun p => decide (p ∉ visited)).filter fun p => !decide (p = c)) := by
    rw [List.filter_filter]
    congr 1
    funext p
    simp [List.mem_cons, not_or, and_comm]
  rw [hf]
  by_cases hD : D c = []
  · simp only [hD, List.length_nil, add_zero]
    generalize (L.filter fun p => decide (p ∉ visited)) = M
    induction M with
    | nil => simp
    | cons y ys ih =>
      by_cases hy : y = c
      · simp [List.filter_cons, hy]; omega
      · simp [List.filter_cons, hy]; omega
  · exact sum_filter_ne_add_le (fun p => (D p).length) c _
      (List.mem_filter.mpr ⟨hL hD, by simpa using hc⟩)

theorem ClearCacheLoop_spec (D : Position → List Position) (L : List Position)
    (hL : ∀ p, D p ≠ [] → p ∈ L) :
    ∀ (fuel : Nat) (s : Sheet) (stack visited : List Position),
      (∀ p, s.dependentsAt p = D p) →
      stack.length + sweepWeight D L visited < fuel →
      ∃ s' V', ClearCacheLoop fuel s stack visited = (s', none) ∧
        visited ⊆ V' ∧ stack ⊆ V' ∧
        (∀ v ∈ V', v ∉ visited → ∀ d ∈ D v, d ∈ V') ∧
        (∀ v ∈ V', v ∈ visited ∨
          ∃ x ∈ stack, Relation.ReflTransGen (fun a b => b ∈ D a) x v) ∧
        (∀ q, s'.cellAt q =
          if q ∈ V' ∧ q ∉ visited then (s.cellAt q).map Cell.resetCache else s.cellAt q) := by
  intro fuel
  induction fuel with
  | zero => intro s stack visited _ h; omega
  | succ fuel ih =>
    intro s stack visited hD hfuel
    cases stack with
    | nil =>
      refine ⟨s, visited, by simp [ClearCacheLoop], fun _ h => h, List.nil_subset _,
        fun v hv hnv => absurd hv hnv, fun v hv => Or.inl hv, fun q => ?_⟩
      by_cases hq : q ∈ visited <;> simp [hq]
    | cons c stack =>
      rw [ClearCacheLoop]
      simp only [List.length_cons] at hfuel
      by_cases hm : c ∈ visited
      · rw [if_pos hm]
        obtain ⟨s', V', h, hsub, hstack, hclosed, hreach, hcell⟩ :=
          ih s stack visited hD (by omega)
        refine ⟨s', V', h, hsub, ?_, hclosed, ?_, hcell⟩
        · intro x hx
          rcases List.mem_cons.mp hx with rfl | hx
          · exact hsub hm
          · exact hstack hx
        · intro v hv
          rcases hreach v hv with h1 | ⟨x, hx, hxv⟩
          · exact Or.inl h1
          · exact Or.inr ⟨x, List.mem_cons_of_mem _ hx, hxv⟩
      · rw [if_neg hm]
        have hw := sweepWeight_cons D L visited c hm (hL c)
        obtain ⟨s', V', h, hsub, hstack, hclosed, hreach, hcell⟩ :=
          ih (s.clearCacheAt c) ((s.dependentsAt c).reverse ++ stack) (c :: visited)
            (fun p => by rw [Sheet.dependentsAt_clearCacheAt, hD])
            (by simp only [List.length_append, List.length_reverse, hD c]; omega)
        have hcV : c ∈ V' := hsub (List.mem_cons_self _ _)
        refine ⟨s', V', h, fun x hx => hsub (List.mem_cons_of_mem _ hx), ?_, ?_, ?_, ?_⟩
        · intro x hx
          rcases List.mem_cons.mp hx with rfl | hx
          · exact hcV
          · exact hstack (List.mem_append_right _ hx)
        · intro v hv hnv d hd
          by_cases hvc : v = c
          · subst hvc
            apply hstack
            apply List.mem_append_left
            rw [List.mem_reverse, hD]
            exact hd
          · apply hclosed v hv _ d hd
            intro hmem
            rcases List.mem_cons.mp hmem with h1 | h1
            · exact hvc h1
            · exact hnv h1
        · intro v hv
          rcases hreach v hv with h1 | ⟨x, hx, hxv⟩
          · rcases List.mem_cons.mp h1 with h2 | h2
            · subst h2
              exact Or.inr ⟨v, List.mem_cons_self _ _, Relation.ReflTransGen.refl⟩
            · exact Or.inl h2
          · rcases List.mem_append.mp hx with hx | hx
            · rw [List.mem_reverse, hD] at hx
              exact Or.inr ⟨c, List.mem_cons_self _ _, Relation.ReflTransGen.head hx hxv⟩
            · exact Or.inr ⟨x, List.mem_cons_of_mem _ hx, hxv⟩
        · intro q
          rw [hcell]
          unfold Sheet.clearCacheAt
          rw [Sheet.cellAt_updateCell]
          by_cases hqc : q = c
          · subst hqc
            simp [hcV, hm]
          · simp [hqc]

/-- `Cell::ClearCache` returns, and resets exactly the caches of the cells reachable from
`self` along dependents edges. -/
theorem Cell.ClearCache_spec (s : Sheet) (self : Position) :
    ∃ (s' : Sheet) (V : List Position), Cell.ClearCache s self = (s', none) ∧
      (∀ q, q ∈ V ↔ Relation.ReflTransGen s.DependentEdge self q) ∧
      (∀ q, s'.cellAt q = if q ∈ V then (s.cellAt q).map Cell.resetCache else s.cellAt q) := by
  have hL : ∀ p, s.dependentsAt p ≠ [] → p ∈ s.positions := by
    intro p hp
    cases h : s.cellAt p with
    | none => simp [Sheet.dependentsAt, h] at hp
    | some c => exact Sheet.mem_positions h
  obtain ⟨s', V', h, _, hstack, hclosed, hreach, hcell⟩ :=
    ClearCacheLoop_spec s.dependentsAt s.positions hL (s.dependentCount + 2) s [self] []
      (fun _ => rfl) (by
        have : sweepWeight s.dependentsAt s.positions [] = s.dependentCount := by
          simp [sweepWeight, Sheet.dependentCount]
        simp only [List.length_singleton, this]; omega)
  refine ⟨s', V', h, ?_, ?_⟩
  · intro q
    constructor
    · intro hq
      rcases hreach q hq with h1 | ⟨x, hx, hxq⟩
      · exact absurd h1 (List.not_mem_nil _)
      · simp only [List.mem_singleton] at hx
        subst hx
        exact hxq
    · intro hq
      induction hq with
      | refl => exact hstack (List.mem_cons_self _ _)
      | tail _ hzy ih => exact hclosed _ ih (List.not_mem_nil _) _ hzy
  · intro q
    rw [hcell]
    simp

/-! ## `Cell::Set` as a whole -/

theorem ThrowIfCircularDependency_of_no_refs (s : Sheet) (self : Position) (impl : Impl)
    (h : impl.GetReferencedCells = []) : ThrowIfCircularDependency s self impl = none := by
  simp [ThrowIfCircularDependency, h, forReferenced]

theorem Cell.Set_formula_error (ParseFormula : String → Option FormulaInterface)
    (setCell : Sheet → Position → String → Sheet × Option Stop)
    (s : Sheet) (self : Position) (text : String)
    (h : Cell.makeImpl ParseFormula text = none) :
    Cell.Set ParseFormula setCell s self text = (s, some (.thrown .FormulaException)) := by
  simp [Cell.Set, h]

theorem Cell.Set_circular (ParseFormula : String → Option FormulaInterface)
    (setCell : Sheet → Position → String → Sheet × Option Stop)
    (s : Sheet) (self : Position) (text : String) (impl : Impl)
    (h : Cell.makeImpl ParseFormula text = some impl)
    (hthrow : ThrowIfCircularDependency s self impl = some (.thrown .CircularDependencyException)) :
    Cell.Set ParseFormula setCell s self text =
      (s, some (.thrown .CircularDependencyException)) := by
  simp [Cell.Set, h, hthrow]

theorem Cell.Set_accepted (ParseFormula : String → Option FormulaInterface)
    (setCell : Sheet → Position → String → Sheet × Option Stop)
    (s : Sheet) (self : Position) (text : String) (impl : Impl)
    (h : Cell.makeImpl ParseFormula text = some impl)
    (hpass : ThrowIfCircularDependency s self impl = none)
    (hset : Vivifies setCell impl.GetReferencedCells) :
    ∃ (s' : Sheet) (V : List Position), Cell.Set ParseFormula setCell s self text = (s', none) ∧
      (∀ q, q ∈ V ↔ Relation.ReflTransGen s'.DependentEdge self q) ∧
      (∀ q, s'.cellAt q =
        if q ∈ V then (Cell.rewired s self impl q).map Cell.resetCache
        else Cell.rewired s self impl q) := by
  obtain ⟨s1, h1, hc1⟩ := Cell.eraseFromReferenced_spec self (s.refsAt self) s
    (s.refsAt_valid self)
  obtain ⟨s3, h3, hc3⟩ := Cell.FillDependets_spec setCell self impl.GetReferencedCells
    (s1.updateCell self (Cell.setImpl impl)) impl.refs_valid hset
  obtain ⟨s', V, h4, hV, hc4⟩ := Cell.ClearCache_spec s3 self
  have hpre : ∀ q, s3.cellAt q = Cell.rewired s self impl q := by
    intro q
    simp only [hc3, Sheet.cellAt_updateCell, hc1]
    unfold Cell.rewired
    by_cases hq : q = self
    · subst hq; simp
    · simp [hq]
  have hdeps : ∀ q, s'.dependentsAt q = s3.dependentsAt q := by
    intro q
    unfold Sheet.dependentsAt
    rw [hc4]
    split
    · cases s3.cellAt q <;> simp [Cell.resetCache]
    · rfl
  have hedge : s'.DependentEdge = s3.DependentEdge := by
    funext a b
    simp only [Sheet.DependentEdge, hdeps]
  refine ⟨s', V, ?_, ?_, ?_⟩
  · simp only [Cell.Set, h, hpass, h1, h3, h4]
  · intro q; rw [hedge]; exact hV q
  · intro q; rw [hc4, hpre]

/-! ## `Sheet::SetCell` and `Sheet::ClearCell` as a whole -/

theorem Cell.makeImpl_empty (ParseFormula : String → Option FormulaInterface) :
    Cell.makeImpl ParseFormula "" = some .EmptyImpl := by
  rfl

/-- The nested `SetCell(pos, "")` of `FillDependets` creates an empty cell and returns. -/
theorem Sheet.SetCellAux_vivifies (ParseFormula : String → Option FormulaInterface) (n : Nat)
    (refs : List Position) (hval : ∀ r ∈ refs, r.IsValid = true) :
    Vivifies (Sheet.SetCellAux ParseFormula (n + 1)) refs := by
  intro s p hp hnone
  have hv := hval p hp
  have hn := Position.nonneg_of_IsValid hv
  have hpass : ThrowIfCircularDependency (s.ensureCell p) p .EmptyImpl = none :=
    ThrowIfCircularDependency_of_no_refs _ _ _ rfl
  obtain ⟨s', V, hset, hV, hcell⟩ := Cell.Set_accepted ParseFormula
    (Sheet.SetCellAux ParseFormula n) (s.ensureCell p) p "" .EmptyImpl
    (Cell.makeImpl_empty ParseFormula) hpass (fun _ _ hq _ => absurd hq (List.not_mem_nil _))
  refine ⟨s', ?_, ?_⟩
  · simp only [Sheet.SetCellAux, hv, Bool.not_true, Bool.false_eq_true, if_false, hset]
  · have hrefs : (s.ensureCell p).refsAt p = [] := by
      simp [Sheet.refsAt, Sheet.ensureCell_spec s p hn, hnone, Cell.new,
        Cell.GetReferencedCells, Impl.GetReferencedCells]
    have hrew : ∀ q, Cell.rewired (s.ensureCell p) p .EmptyImpl q =
        if q = p then some Cell.new else s.cellAt q := by
      intro q
      unfold Cell.rewired
      simp only [hrefs, List.not_mem_nil, if_false, Impl.GetReferencedCells,
        Sheet.ensureCell_spec s p hn, hnone, Option.getD_none]
      by_cases hq : q = p
      · subst hq; simp [Cell.setImpl, Cell.new]
      · simp [hq]
    intro q
    rw [hcell, hrew]
    by_cases hq : q = p
    · subst hq; simp [Cell.resetCache, Cell.new, Impl.ClearCache]
    · simp only [hq, if_false]
      split
      · rename_i hqV
        -- `q` would be a dependent of the fresh cell, which has none
        exfalso
        have hreach := (hV q).mp hqV
        rcases Relation.ReflTransGen.cases_head hreach with heq | ⟨z, hpz, _⟩
        · exact hq heq.symm
        · unfold Sheet.DependentEdge Sheet.dependentsAt at hpz
          rw [hcell, hrew] at hpz
          simp only [if_true] at hpz
          split at hpz <;> simp [Cell.new, Cell.resetCache] at hpz
      · rfl

/-- The outcome of `Sheet::SetCell` at a valid position, in terms of the sheet `s1` in
which `Cell::Set` runs (the grid grown and the target cell created). -/
theorem Sheet.SetCell_spec (ParseFormula : String → Option FormulaInterface)
    (s : Sheet) (pos : Position) (text : String) (hv : pos.IsValid = true) :
    (Cell.makeImpl ParseFormula text = none ∧
      Sheet.SetCell ParseFormula s pos text =
        (s.ensureCell pos, some (.thrown .FormulaException))) ∨
    (∃ impl, Cell.makeImpl ParseFormula text = some impl ∧
      (s.ensureCell pos).ClosesCycle pos impl.GetReferencedCells ∧
      Sheet.SetCell ParseFormula s pos text =
        (s.ensureCell pos, some (.thrown .CircularDependencyException))) ∨
    (∃ impl, Cell.makeImpl ParseFormula text = some impl ∧
      ¬ (s.ensureCell pos).ClosesCycle pos impl.GetReferencedCells ∧
      ∃ (s' : Sheet) (V : List Position), Sheet.SetCell ParseFormula s pos text = (s', none) ∧
        (∀ q, q ∈ V ↔ Relation.ReflTransGen s'.DependentEdge pos q) ∧
        (∀ q, s'.cellAt q =
          if q ∈ V then (Cell.rewired (s.ensureCell pos) pos impl q).map Cell.resetCache
          else Cell.rewired (s.ensureCell pos) pos impl q)) := by
  have hn := Position.nonneg_of_IsValid hv
  have hunfold : Sheet.SetCell ParseFormula s pos text =
      Cell.Set ParseFormula (Sheet.SetCellAux ParseFormula 1) (s.ensureCell pos) pos text := by
    simp [Sheet.SetCell, Sheet.SetCellAux, hv]
  have hself : (s.ensureCell pos).cellAt pos ≠ none := by
    rw [Sheet.ensureCell_spec s pos hn]; simp
  cases hm : Cell.makeImpl ParseFormula text with
  | none =>
    left
    exact ⟨rfl, by rw [hunfold, Cell.Set_formula_error _ _ _ _ _ hm]⟩
  | some impl =>
    right
    rcases ThrowIfCircularDependency_spec (s.ensureCell pos) pos impl hself with
      ⟨hcyc, hthrow⟩ | ⟨hcyc, hpass⟩
    · left
      exact ⟨impl, rfl, hcyc, by rw [hunfold, Cell.Set_circular _ _ _ _ _ _ hm hthrow]⟩
    · right
      obtain ⟨s', V, hset, hV, hcell⟩ := Cell.Set_accepted ParseFormula
        (Sheet.SetCellAux ParseFormula 1) (s.ensureCell pos) pos text impl hm hpass
        (Sheet.SetCellAux_vivifies ParseFormula 0 _ impl.refs_valid)
      exact ⟨impl, rfl, hcyc, s', V, by rw [hunfold, hset], hV, hcell⟩

/-! ## Frame properties of the edit -/

theorem Impl.ClearCache_refs (i : Impl) :
    i.ClearCache.GetReferencedCells = i.GetReferencedCells := by
  cases i <;> rfl

theorem Impl.ClearCache_text (i : Impl) : i.ClearCache.GetText = i.GetText := by
  cases i <;> rfl

theorem Sheet.refsAt_ensureCell (s : Sheet) (pos : Position) (hn : 0 ≤ pos.row ∧ 0 ≤ pos.col)
    (q : Position) : (s.ensureCell pos).refsAt q = s.refsAt q := by
  unfold Sheet.refsAt
  rw [Sheet.ensureCell_spec s pos hn]
  by_cases hq : q = pos
  · subst hq
    cases s.cellAt q <;> simp [Cell.new, Cell.GetReferencedCells, Impl.GetReferencedCells]
  · simp [hq]

theorem Sheet.readsFrom_ensureCell (s : Sheet) (pos : Position)
    (hn : 0 ≤ pos.row ∧ 0 ≤ pos.col) : (s.ensureCell pos).ReadsFrom = s.ReadsFrom := by
  funext a b
  simp only [Sheet.ReadsFrom, Sheet.refsAt_ensureCell s pos hn]

/-- The implementation found at `q` after the rewiring of `Cell::Set`. -/
theorem Cell.rewired_impl (s : Sheet) (self : Position) (impl : Impl) (q : Position)
    (hself : s.cellAt self ≠ none) :
    (Cell.rewired s self impl q).map Cell.impl_ =
      if q = self then some impl
      else match s.cellAt q with
        | some c => some c.impl_
        | none => if q ∈ impl.GetReferencedCells then some .EmptyImpl else none := by
  unfold Cell.rewired
  by_cases hq : q = self
  · subst hq
    cases hc : s.cellAt q with
    | none => exact absurd hc hself
    | some c =>
      by_cases h1 : q ∈ impl.GetReferencedCells <;> by_cases h2 : q ∈ s.refsAt q <;>
        simp [h1, h2, Cell.setImpl, Cell.insertDependent, Cell.eraseDependent]
  · cases hc : s.cellAt q with
    | none =>
      by_cases h1 : q ∈ impl.GetReferencedCells <;>
        simp [hq, h1, Cell.new, Cell.insertDependent]
    | some c =>
      by_cases h1 : q ∈ impl.GetReferencedCells <;> by_cases h2 : q ∈ s.refsAt self <;>
        simp [hq, h1, h2, Cell.insertDependent, Cell.eraseDependent]

theorem SetResult.refsAt {s : Sheet} {self : Position} {impl : Impl} {s' : Sheet}
    {V : List Position} (h : SetResult s self impl s' V) (hself : s.cellAt self ≠ none)
    (q : Position) :
    s'.refsAt q = if q = self then impl.GetReferencedCells else s.refsAt q := by
  have himpl : (s'.cellAt q).map Cell.impl_ =
      if q ∈ V then ((Cell.rewired s self impl q).map Cell.impl_).map Impl.ClearCache
      else (Cell.rewired s self impl q).map Cell.impl_ := by
    rw [h.2 q]
    split
    · cases Cell.rewired s self impl q <;> simp [Cell.resetCache]
    · rfl
  have hrefs : s'.refsAt q = ((s'.cellAt q).map Cell.impl_).elim [] Impl.GetReferencedCells := by
    unfold Sheet.refsAt
    cases s'.cellAt q <;> simp [Cell.GetReferencedCells]
  rw [hrefs, himpl, Cell.rewired_impl s self impl q hself]
  by_cases hq : q = self
  · subst hq
    by_cases hV : q ∈ V <;> simp [hV, Impl.ClearCache_refs]
  · simp only [hq, if_false]
    unfold Sheet.refsAt
    cases hc : s.cellAt q with
    | some c => by_cases hV : q ∈ V <;> simp [hV, Impl.ClearCache_refs, Cell.GetReferencedCells]
    | none =>
      by_cases hV : q ∈ V <;> by_cases h1 : q ∈ impl.GetReferencedCells <;>
        simp only [hV, h1, if_true, if_false, Option.map_some', Option.map_none',
          Option.elim] <;> rfl

/-! ## Acyclicity -/

theorem acyclic_of_rewire {E E' : Position → Position → Prop} (pos : Position)
    (R : List Position)
    (hE' : ∀ a b, E' a b → (a ≠ pos ∧ E a b) ∨ (a = pos ∧ b ∈ R))
    (hacyc : ∀ p, ¬ Relation.TransGen E p p)
    (hcheck : ¬ ∃ r ∈ R, Relation.ReflTransGen E r pos) :
    ∀ p, ¬ Relation.TransGen E' p p := by
  have back : ∀ x, Relation.ReflTransGen E' x pos → Relation.ReflTransGen E x pos := by
    intro x hx
    induction hx using Relation.ReflTransGen.head_induction_on with
    | refl => exact Relation.ReflTransGen.refl
    | head hxy _ ih =>
      rcases hE' _ _ hxy with ⟨_, h⟩ | ⟨h, _⟩
      · exact Relation.ReflTransGen.head h ih
      · rw [h]
  have split : ∀ a b, Relation.TransGen E' a b →
      Relation.TransGen E a b ∨
        (Relation.ReflTransGen E' a pos ∧ ∃ r ∈ R, Relation.ReflTransGen E' r b) := by
    intro a b hab
    induction hab with
    | single hab =>
      rcases hE' _ _ hab with ⟨_, h⟩ | ⟨h, hb⟩
      · exact Or.inl (Relation.TransGen.single h)
      · exact Or.inr ⟨h ▸ Relation.ReflTransGen.refl, _, hb, Relation.ReflTransGen.refl⟩
    | tail hac hcb ih =>
      rcases ih with h | ⟨h1, r, hr, h2⟩
      · rcases hE' _ _ hcb with ⟨_, h'⟩ | ⟨h', hb⟩
        · exact Or.inl (Relation.TransGen.tail h h')
        · exact Or.inr ⟨h' ▸ hac.to_reflTransGen, _, hb, Relation.ReflTransGen.refl⟩
      · exact Or.inr ⟨h1, r, hr, Relation.ReflTransGen.tail h2 hcb⟩
  intro p hp
  rcases split p p hp with h | ⟨h1, r, hr, h2⟩
  · exact hacyc p h
  · exact hcheck ⟨r, hr, back r (h2.trans h1)⟩

theorem Sheet.Acyclic.of_subrelation {s s' : Sheet}
    (h : ∀ a b, s'.ReadsFrom a b → s.ReadsFrom a b) (hs : s.Acyclic) : s'.Acyclic :=
  fun p hp => hs p (Relation.TransGen.mono h hp)

theorem Sheet.SetCell_invalid (ParseFormula : String → Option FormulaInterface)
    (s : Sheet) (pos : Position) (text : String) (hv : pos.IsValid = false) :
    Sheet.SetCell ParseFormula s pos text = (s, some (.thrown .InvalidPositionException)) := by
  simp [Sheet.SetCell, Sheet.SetCellAux, hv]

theorem Sheet.SetCell_acyclic (ParseFormula : String → Option FormulaInterface)
    (s : Sheet) (pos : Position) (text : String) (hs : s.Acyclic) :
    (Sheet.SetCell ParseFormula s pos text).1.Acyclic := by
  by_cases hv : pos.IsValid = true
  · have hn := Position.nonneg_of_IsValid hv
    have hs1 : (s.ensureCell pos).Acyclic := by
      unfold Sheet.Acyclic; rw [Sheet.readsFrom_ensureCell s pos hn]; exact hs
    have hself : (s.ensureCell pos).cellAt pos ≠ none := by
      rw [Sheet.ensureCell_spec s pos hn]; simp
    rcases Sheet.SetCell_spec ParseFormula s pos text hv with
      ⟨_, h⟩ | ⟨impl, _, _, h⟩ | ⟨impl, _, hcyc, s', V, h, hV, hcell⟩
    · rw [h]; exact hs1
    · rw [h]; exact hs1
    · rw [h]
      have hres : SetResult (s.ensureCell pos) pos impl s' V := ⟨hV, hcell⟩
      apply acyclic_of_rewire pos impl.GetReferencedCells _ hs1 hcyc
      intro a b hab
      unfold Sheet.ReadsFrom at hab
      rw [hres.refsAt hself a] at hab
      by_cases ha : a = pos
      · right; simpa [ha] using hab
      · left; exact ⟨ha, by simpa [ha] using hab⟩
  · rw [Sheet.SetCell_invalid ParseFormula s pos text (by simpa using hv)]
    exact hs

/-! ## `Sheet::ClearCell` -/

theorem Cell.Clear_spec (ParseFormula : String → Option FormulaInterface) (s : Sheet)
    (self : Position) :
    ∃ (s1 : Sheet) (V : List Position), Cell.Clear ParseFormula s self = (s1, none) ∧
      SetResult s self .EmptyImpl s1 V := by
  obtain ⟨s1, V, h, hV, hcell⟩ := Cell.Set_accepted ParseFormula (Sheet.SetCell ParseFormula)
    s self "" .EmptyImpl (Cell.makeImpl_empty ParseFormula)
    (ThrowIfCircularDependency_of_no_refs _ _ _ rfl)
    (fun _ _ hq _ => absurd hq (List.not_mem_nil _))
  exact ⟨s1, V, h, hV, hcell⟩

theorem Sheet.ClearCell_invalid (ParseFormula : String → Option FormulaInterface)
    (s : Sheet) (pos : Position) (hv : pos.IsValid = false) :
    Sheet.ClearCell ParseFormula s pos = (s, some (.thrown .InvalidPositionException)) := by
  simp [Sheet.ClearCell, hv]

theorem Sheet.ClearCell_absent (ParseFormula : String → Option FormulaInterface)
    (s : Sheet) (pos : Position) (hv : pos.IsValid = true) (hnone : s.cellAt pos = none) :
    Sheet.ClearCell ParseFormula s pos = (s, none) := by
  have hn := Position.nonneg_of_IsValid hv
  rw [Sheet.cellAt_eq_slot hn] at hnone
  simp [Sheet.ClearCell, hv, hnone]

/-- The cell at `self` after `Cell::Clear`: empty, with the dependents it had (itself
excepted when it referred to itself). -/
theorem SetResult.clear_self {s : Sheet} {self : Position} {s1 : Sheet} {V : List Position}
    (h : SetResult s self .EmptyImpl s1 V) {c : Cell} (hc : s.cellAt self = some c) :
    ∃ c1, s1.cellAt self = some c1 ∧ c1.impl_ = .EmptyImpl ∧
      (∀ d, d ∈ c1.dependets_ → d ∈ c.dependets_) := by
  have hmem : self ∈ V := (h.1 self).mpr Relation.ReflTransGen.refl
  have hrew : Cell.rewired s self .EmptyImpl self =
      some (Cell.setImpl .EmptyImpl
        (if self ∈ s.refsAt self then c.eraseDependent self else c)) := by
    simp [Cell.rewired, hc, Impl.GetReferencedCells]
  refine ⟨_, by rw [h.2 self, if_pos hmem, hrew]; rfl, ?_, ?_⟩
  · simp [Cell.resetCache, Cell.setImpl, Impl.ClearCache]
  · intro d hd
    simp only [Cell.resetCache, Cell.setImpl] at hd
    split at hd
    · simp only [Cell.eraseDependent, List.mem_filter] at hd
      exact hd.1
    · exact hd

theorem Sheet.ClearCell_present (ParseFormula : String → Option FormulaInterface)
    (s : Sheet) (pos : Position) (hv : pos.IsValid = true) {c : Cell}
    (hc : s.cellAt pos = some c) :
    ∃ (s1 : Sheet) (V : List Position) (c1 : Cell), SetResult s pos .EmptyImpl s1 V ∧
      s1.cellAt pos = some c1 ∧ c1.impl_ = .EmptyImpl ∧
      ∃ s2, Sheet.ClearCell ParseFormula s pos = (s2, none) ∧
        ∀ q, s2.cellAt q = if q = pos ∧ c1.dependets_ = [] then none else s1.cellAt q := by
  have hn := Position.nonneg_of_IsValid hv
  obtain ⟨s1, V, hclear, hres⟩ := Cell.Clear_spec ParseFormula s pos
  obtain ⟨c1, hc1, himpl, _⟩ := hres.clear_self hc
  have hslot : s.slot pos.row.toNat pos.col.toNat = some c := by
    rw [← Sheet.cellAt_eq_slot hn]; exact hc
  have hslot1 : s1.slot pos.row.toNat pos.col.toNat = some c1 := by
    rw [← Sheet.cellAt_eq_slot hn]; exact hc1
  have hlt := Sheet.slot_lt hslot
  have htext : c1.GetText.isEmpty = true := by
    simp only [Cell.GetText, himpl, Impl.GetText]; rfl
  refine ⟨s1, V, c1, hres, hc1, himpl, ?_⟩
  by_cases hd : c1.dependets_ = []
  · refine ⟨s1.setSlot pos.row.toNat pos.col.toNat none, ?_, ?_⟩
    · simp [Sheet.ClearCell, hv, hlt, hslot, hclear, hslot1, Cell.IsReferenced, hd, htext]
    · intro q
      rw [Sheet.cellAt_setSlot s1 pos hn (Sheet.cellAt_lt hc1).2]
      by_cases hq : q = pos <;> simp [hq, hd]
  · refine ⟨s1, ?_, ?_⟩
    · have : c1.dependets_.isEmpty = false := by
        cases hdd : c1.dependets_ with
        | nil => exact absurd hdd hd
        | cons _ _ => rfl
      simp [Sheet.ClearCell, hv, hlt, hslot, hclear, hslot1, Cell.IsReferenced, this]
    · intro q; simp [hd]

theorem Sheet.ClearCell_acyclic (ParseFormula : String → Option FormulaInterface)
    (s : Sheet) (pos : Position) (hs : s.Acyclic) :
    (Sheet.ClearCell ParseFormula s pos).1.Acyclic := by
  by_cases hv : pos.IsValid = true
  · cases hc : s.cellAt pos with
    | none => rw [Sheet.ClearCell_absent ParseFormula s pos hv hc]; exact hs
    | some c =>
      obtain ⟨s1, V, c1, hres, _, _, s2, h2, hcell2⟩ :=
        Sheet.ClearCell_present ParseFormula s pos hv hc
      rw [h2]
      apply Sheet.Acyclic.of_subrelation _ hs
      intro a b hab
      unfold Sheet.ReadsFrom at hab ⊢
      have hsub : ∀ x ∈ s2.refsAt a, x ∈ s1.refsAt a := by
        intro x hx
        unfold Sheet.refsAt at hx ⊢
        rw [hcell2] at hx
        split at hx
        · simp at hx
        · exact hx
      have := hsub b hab
      rw [hres.refsAt (by simp [hc]) a] at this
      by_cases ha : a = pos
      · simp [ha, Impl.GetReferencedCells] at this
      · simpa [ha] using this
  · rw [Sheet.ClearCell_invalid ParseFormula s pos (by simpa using hv)]
    exact hs

/-! ## Reachable sheets -/

theorem Sheet.cellAt_create (p : Position) : CreateSheet.cellAt p = none := by
  simp [Sheet.cellAt, CreateSheet, Sheet.slot, Sheet.rowAt]

theorem Sheet.acyclic_create : CreateSheet.Acyclic := by
  intro p hp
  rcases Relation.TransGen.head'_iff.mp hp with ⟨c, h, _⟩
  simp [Sheet.ReadsFrom, Sheet.refsAt, Sheet.cellAt_create] at h

/-- C1: acyclicity is an invariant of the sheet.  After any sequence of `SetCell` and
`ClearCell` calls on the empty sheet, rejected calls included, no position is reachable
from itself along one or more reads-from edges (an edge leaves a stored cell for each
position of its `GetReferencedCells`, so every position on a cycle would hold a cell). -/
theorem acyclicity_invariant (ParseFormula : String → Option FormulaInterface) (s : Sheet)
    (h : Reachable ParseFormula s) : ∀ p, ¬ Relation.TransGen s.ReadsFrom p p := by
  induction h with
  | create => exact Sheet.acyclic_create
  | setCell s pos text _ ih => exact Sheet.SetCell_acyclic ParseFormula s pos text ih
  | clearCell s pos _ ih => exact Sheet.ClearCell_acyclic ParseFormula s pos ih

theorem acyclicity_invariant_witness :
    Reachable demoParse
        (Sheet.SetCell demoParse (Sheet.SetCell demoParse CreateSheet ⟨0, 0⟩ "=B1").1
          ⟨0, 1⟩ "=A1").1 ∧
      ∀ p, ¬ Relation.TransGen
        (Sheet.SetCell demoParse (Sheet.SetCell demoParse CreateSheet ⟨0, 0⟩ "=B1").1
          ⟨0, 1⟩ "=A1").1.ReadsFrom p p :=
  ⟨Reachable.setCell _ _ _ (Reachable.setCell _ _ _ Reachable.create),
    acyclicity_invariant demoParse _
      (Reachable.setCell _ _ _ (Reachable.setCell _ _ _ Reachable.create))⟩

/-! ## Classification of the text -/

theorem String.isEmpty_eq_false_of_length {t : String} (h : t.length > 0) :
    t.isEmpty = false := by
  rw [Bool.eq_false_iff]
  intro h2
  rw [String.isEmpty_iff] at h2
  subst h2
  simp at h

theorem Cell.makeImpl_formula (ParseFormula : String → Option FormulaInterface) (text : String)
    (hlen : text.length > 1) (hfront : text.front = FORMULA_SIGN) :
    Cell.makeImpl ParseFormula text =
      (ParseFormula (text.drop 1)).map fun f => .FormulaImpl f none := by
  unfold Cell.makeImpl
  rw [String.isEmpty_eq_false_of_length (by omega)]
  simp [hlen, hfront]

theorem Cell.makeImpl_text (ParseFormula : String → Option FormulaInterface) (text : String)
    (hne : text ≠ "") (hnf : ¬ (text.length > 1 ∧ text.front = FORMULA_SIGN)) :
    Cell.makeImpl ParseFormula text = some (.TextImpl text) := by
  unfold Cell.makeImpl
  have : text.isEmpty = false := by
    rw [Bool.eq_false_iff]
    intro h2
    exact hne ((String.isEmpty_iff text).mp h2)
  rw [this]
  by_cases h1 : text.length > 1
  · have h2 : ¬ text.front = FORMULA_SIGN := fun h => hnf ⟨h1, h⟩
    simp [h1, h2]
  · simp [h1]

/-! ## Exactness of the cycle check -/

theorem Sheet.closesCycle_ensureCell_iff (s : Sheet) (pos : Position)
    (hn : 0 ≤ pos.row ∧ 0 ≤ pos.col) (R : List Position) :
    (s.ensureCell pos).ClosesCycle pos R ↔
      ∃ P ∈ R, P = pos ∨ ((s.cellAt P).isSome ∧ Relation.TransGen s.ReadsFrom P pos) := by
  unfold Sheet.ClosesCycle
  rw [Sheet.readsFrom_ensureCell s pos hn]
  constructor
  · rintro ⟨r, hr, hreach⟩
    refine ⟨r, hr, ?_⟩
    rcases Relation.reflTransGen_iff_eq_or_transGen.mp hreach with h | h
    · exact Or.inl h.symm
    · right
      refine ⟨?_, h⟩
      rcases Relation.TransGen.head'_iff.mp h with ⟨c, hrc, _⟩
      unfold Sheet.ReadsFrom Sheet.refsAt at hrc
      cases hs : s.cellAt r with
      | none => simp [hs] at hrc
      | some x => rfl
  · rintro ⟨r, hr, h | ⟨_, h⟩⟩
    · exact ⟨r, hr, h ▸ Relation.ReflTransGen.refl⟩
    · exact ⟨r, hr, h.to_reflTransGen⟩

/-- C2: the cycle check is exact.  For any sheet, valid position `pos` and text that is
classified as a formula and parses to `f`, `SetCell(pos, text)` throws
`CircularDependencyException` exactly when some referenced position `P` of `f` is `pos`
itself or holds a cell from which `pos` is reachable along the reads-from edges of the
sheet before the call; otherwise the edit returns normally.  No assumption on the sheet
is needed, and the criterion does not mention the visited set. -/
theorem cycle_check_exact (ParseFormula : String → Option FormulaInterface) (s : Sheet)
    (pos : Position) (text : String) (f : FormulaInterface)
    (hv : pos.IsValid = true) (hlen : text.length > 1) (hfront : text.front = FORMULA_SIGN)
    (hparse : ParseFormula (text.drop 1) = some f) :
    ((Sheet.SetCell ParseFormula s pos text).2 = some (.thrown .CircularDependencyException) ↔
      ∃ P ∈ f.GetReferencedCells,
        P = pos ∨ ((s.cellAt P).isSome ∧ Relation.TransGen s.ReadsFrom P pos)) ∧
    ((¬ ∃ P ∈ f.GetReferencedCells,
        P = pos ∨ ((s.cellAt P).isSome ∧ Relation.TransGen s.ReadsFrom P pos)) →
      (Sheet.SetCell ParseFormula s pos text).2 = none) := by
  have hn := Position.nonneg_of_IsValid hv
  have hm : Cell.makeImpl ParseFormula text = some (.FormulaImpl f none) := by
    rw [Cell.makeImpl_formula ParseFormula text hlen hfront, hparse]; rfl
  have hiff := Sheet.closesCycle_ensureCell_iff s pos hn f.GetReferencedCells
  rcases Sheet.SetCell_spec ParseFormula s pos text hv with
    ⟨hnone, _⟩ | ⟨impl, himpl, hcyc, h⟩ | ⟨impl, himpl, hcyc, s', V, h, _, _⟩
  · rw [hm] at hnone; exact absurd hnone (by simp)
  · rw [hm] at himpl
    cases himpl
    have hc := hiff.mp hcyc
    exact ⟨⟨fun _ => hc, fun _ => by rw [h]⟩, fun hno => absurd hc hno⟩
  · rw [hm] at himpl
    cases himpl
    have hc : ¬ ∃ P ∈ f.GetReferencedCells,
        P = pos ∨ ((s.cellAt P).isSome ∧ Relation.TransGen s.ReadsFrom P pos) :=
      fun hex => hcyc (hiff.mpr hex)
    refine ⟨⟨fun hthrow => ?_, fun hex => absurd hex hc⟩, fun _ => by rw [h]⟩
    rw [h] at hthrow
    exact absurd hthrow (by simp)

theorem cycle_check_exact_witness :
    ((⟨0, 1⟩ : Position).IsValid = true ∧ "=A1".length > 1 ∧ "=A1".front = FORMULA_SIGN ∧
      demoParse ("=A1".drop 1) = some (demoFormula "A1" [⟨0, 0⟩])) ∧
    ((Sheet.SetCell demoParse (Sheet.SetCell demoParse CreateSheet ⟨0, 0⟩ "=B1").1
        ⟨0, 1⟩ "=A1").2 = some (.thrown .CircularDependencyException) ↔
      ∃ P ∈ (demoFormula "A1" [⟨0, 0⟩]).GetReferencedCells,
        P = ⟨0, 1⟩ ∨
          (((Sheet.SetCell demoParse CreateSheet ⟨0, 0⟩ "=B1").1.cellAt P).isSome ∧
            Relation.TransGen (Sheet.SetCell demoParse CreateSheet ⟨0, 0⟩ "=B1").1.ReadsFrom
              P ⟨0, 1⟩)) :=
  ⟨⟨by decide, by decide, by decide, by rfl⟩,
    (cycle_check_exact demoParse (Sheet.SetCell demoParse CreateSheet ⟨0, 0⟩ "=B1").1
      ⟨0, 1⟩ "=A1" (demoFormula "A1" [⟨0, 0⟩]) (by decide) (by decide) (by decide)
      (by rfl)).1⟩

/-! ## What `GetValue` sees of the sheet -/

theorem Sheet.GetCell_isSome (s : Sheet) (p : Position) (hv : p.IsValid = true) :
    s.GetCell p = .ok ((s.cellAt p).filter fun cell => !cell.GetText.isEmpty) := by
  rw [Sheet.GetCell_eq, if_pos hv]

theorem Sheet.GetCell_none_iff (s : Sheet) (p : Position) (hv : p.IsValid = true) :
    s.GetCell p = .ok none ↔ (s.implAt p).GetText.isEmpty = true := by
  rw [Sheet.GetCell_isSome s p hv]
  unfold Sheet.implAt
  cases hc : s.cellAt p with
  | none =>
    have : "".isEmpty = true := rfl
    simp [Option.filter, Impl.GetText, this]
  | some c =>
    simp only [Option.filter, Option.map_some', Option.getD_some, Cell.GetText]
    by_cases ht : c.impl_.GetText.isEmpty = true <;> simp [ht]

theorem runEvaluation_lookup (gv : Sheet → Position → Sheet × Except Stop Value)
    (pos : Position) (k : Option Value → Evaluation) (s : Sheet) :
    runEvaluation gv (.lookup pos k) s =
      if pos.IsValid = true then
        if (s.implAt pos).GetText.isEmpty = true then runEvaluation gv (k none) s
        else
          match gv s pos with
          | (s1, .error e) => (s1, .error e)
          | (s1, .ok v) => runEvaluation gv (k (some v)) s1
      else (s, .error (.thrown .InvalidPositionException)) := by
  by_cases hv : pos.IsValid = true
  · rw [if_pos hv]
    by_cases ht : (s.implAt pos).GetText.isEmpty = true
    · rw [if_pos ht, runEvaluation, (Sheet.GetCell_none_iff s pos hv).mpr ht]
    · rw [if_neg ht, runEvaluation]
      have hne : s.GetCell pos ≠ .ok none := fun h => ht ((Sheet.GetCell_none_iff s pos hv).mp h)
      rw [Sheet.GetCell_isSome s pos hv] at hne ⊢
      cases hf : (s.cellAt pos).filter fun cell => !cell.GetText.isEmpty with
      | none => rw [hf] at hne; exact absurd rfl hne
      | some c => rfl
  · rw [if_neg hv, runEvaluation, Sheet.GetCell_eq, if_neg hv]

theorem Cell.GetValue_succ (fuel : Nat) (s : Sheet) (self : Position) :
    Cell.GetValue (fuel + 1) s self =
      match s.implAt self with
      | .EmptyImpl => (s, .ok (.text ""))
      | .TextImpl value_ => (s, .ok (textValue value_))
      | .FormulaImpl _ (some v) => (s, .ok v.toValue)
      | .FormulaImpl formula_ none =>
        match runEvaluation (Cell.GetValue fuel) formula_.Evaluate s with
        | (s1, .error e) => (s1, .error e)
        | (s1, .ok v) => (s1.updateCell self (Cell.setCache v), .ok v.toValue) := by
  rw [Cell.GetValue]
  unfold Sheet.implAt
  cases hc : (s.cellAt self).map Cell.impl_ with
  | none => rfl
  | some i =>
    cases i with
    | EmptyImpl => rfl
    | TextImpl v => rfl
    | FormulaImpl f c => cases c <;> rfl

theorem Sheet.implAt_updateCell_setCache (s : Sheet) (p : Position) (v : FormulaValue)
    (q : Position) :
    (s.updateCell p (Cell.setCache v)).implAt q =
      if q = p then (s.implAt p).withCache v else s.implAt q := by
  unfold Sheet.implAt
  rw [Sheet.cellAt_updateCell]
  by_cases hq : q = p
  · subst hq
    cases hc : s.cellAt q with
    | none => simp [Impl.withCache]
    | some c =>
      simp only [if_true, Option.map_some', Option.getD_some, Cell.setCache]
      cases hi : c.impl_ <;> simp [Impl.withCache, hi]
  · simp [hq]

theorem runEvaluation_congr (gv : Sheet → Position → Sheet × Except Stop Value)
    (hgv : ∀ (s s' : Sheet) (q : Position), s.SameContent s' →
      (gv s q).2 = (gv s' q).2 ∧ (gv s q).1.SameContent (gv s' q).1) :
    ∀ (prog : Evaluation) (s s' : Sheet), s.SameContent s' →
      (runEvaluation gv prog s).2 = (runEvaluation gv prog s').2 ∧
        (runEvaluation gv prog s).1.SameContent (runEvaluation gv prog s').1 := by
  intro prog
  induction prog with
  | done v => intro s s' h; exact ⟨rfl, h⟩
  | lookup pos k ih =>
    intro s s' h
    rw [runEvaluation_lookup, runEvaluation_lookup]
    by_cases hv : pos.IsValid = true
    · simp only [hv, if_true, ← h pos]
      by_cases ht : (s.implAt pos).GetText.isEmpty = true
      · simp only [ht, if_true]
        exact ih none s s' h
      · simp only [ht, if_false]
        obtain ⟨h2, h1⟩ := hgv s s' pos h
        cases hg : gv s pos with
        | mk s1 r =>
          cases hg' : gv s' pos with
          | mk s1' r' =>
            rw [hg, hg'] at h2 h1
            simp only at h2 h1
            subst h2
            cases r with
            | error e => exact ⟨rfl, h1⟩
            | ok v => exact ih (some v) s1 s1' h1
    · simp only [hv, if_false]
      exact ⟨rfl, h⟩

/-- `GetValue` is determined by the implementations stored in the sheet: on sheets with
the same content it gives the same answer with the same budget, and leaves sheets with
the same content. -/
theorem Cell.GetValue_congr :
    ∀ (fuel : Nat) (s s' : Sheet) (q : Position), s.SameContent s' →
      (Cell.GetValue fuel s q).2 = (Cell.GetValue fuel s' q).2 ∧
        (Cell.GetValue fuel s q).1.SameContent (Cell.GetValue fuel s' q).1 := by
  intro fuel
  induction fuel with
  | zero => intro s s' q h; exact ⟨rfl, h⟩
  | succ fuel ih =>
    intro s s' q h
    rw [Cell.GetValue_succ, Cell.GetValue_succ, ← h q]
    cases hi : s.implAt q with
    | EmptyImpl => exact ⟨rfl, h⟩
    | TextImpl v => exact ⟨rfl, h⟩
    | FormulaImpl f c =>
      cases c with
      | some v => exact ⟨rfl, h⟩
      | none =>
        simp only []
        obtain ⟨h2, h1⟩ := runEvaluation_congr (Cell.GetValue fuel) ih f.Evaluate s s' h
        cases hg : runEvaluation (Cell.GetValue fuel) f.Evaluate s with
        | mk s1 r =>
          cases hg' : runEvaluation (Cell.GetValue fuel) f.Evaluate s' with
          | mk s1' r' =>
            rw [hg, hg'] at h2 h1
            simp only at h2 h1
            subst h2
            cases r with
            | error e => exact ⟨rfl, h1⟩
            | ok v =>
              refine ⟨rfl, ?_⟩
              intro x
              simp only [Sheet.implAt_updateCell_setCache, h1 x, h1 q]

/-! ## A rejected edit -/

theorem Sheet.SetCell_rejected_state (ParseFormula : String → Option FormulaInterface)
    (s : Sheet) (pos : Position) (text : String)
    (hrej : (Sheet.SetCell ParseFormula s pos text).2 =
        some (.thrown .CircularDependencyException) ∨
      (Sheet.SetCell ParseFormula s pos text).2 = some (.thrown .FormulaException)) :
    pos.IsValid = true ∧ (Sheet.SetCell ParseFormula s pos text).1 = s.ensureCell pos := by
  by_cases hv : pos.IsValid = true
  · refine ⟨hv, ?_⟩
    rcases Sheet.SetCell_spec ParseFormula s pos text hv with
      ⟨_, h⟩ | ⟨impl, _, _, h⟩ | ⟨impl, _, _, s', V, h, _, _⟩
    · rw [h]
    · rw [h]
    · rw [h] at hrej; simp at hrej
  · rw [Sheet.SetCell_invalid ParseFormula s pos text (by simpa using hv)] at hrej
    simp at hrej

theorem Sheet.implAt_ensureCell (s : Sheet) (pos : Position) (hn : 0 ≤ pos.row ∧ 0 ≤ pos.col)
    (q : Position) : (s.ensureCell pos).implAt q = s.implAt q := by
  unfold Sheet.implAt
  rw [Sheet.ensureCell_spec s pos hn]
  by_cases hq : q = pos
  · subst hq
    cases s.cellAt q <;> simp [Cell.new]
  · simp [hq]

theorem Sheet.GetCell_ensureCell (s : Sheet) (pos : Position) (hn : 0 ≤ pos.row ∧ 0 ≤ pos.col)
    (q : Position) : (s.ensureCell pos).GetCell q = s.GetCell q := by
  rw [Sheet.GetCell_eq, Sheet.GetCell_eq, Sheet.ensureCell_spec s pos hn]
  by_cases hq : q = pos
  · subst hq
    cases hc : s.cellAt q with
    | none =>
      have : (Cell.new.GetText.isEmpty) = true := rfl
      simp [Option.filter, this]
    | some c => simp
  · simp [hq]

/-- C3: a rejected edit has no observable effect.  When `SetCell(pos, text)` throws
`CircularDependencyException` or the formula compile error, then at every position `q`
`GetCell(q)` returns what it returned before (the same absence, or the same cell with the
same text, cache and dependents), `GetValue` of every cell `GetCell` returns gives the
same answer as before for every budget, and every cell stored before the call is still
stored, unchanged in content, referenced positions, dependents and cache. -/
theorem rejected_edit_unobservable (ParseFormula : String → Option FormulaInterface)
    (s : Sheet) (pos : Position) (text : String)
    (hrej : (Sheet.SetCell ParseFormula s pos text).2 =
        some (.thrown .CircularDependencyException) ∨
      (Sheet.SetCell ParseFormula s pos text).2 = some (.thrown .FormulaException)) :
    (∀ q, (Sheet.SetCell ParseFormula s pos text).1.GetCell q = s.GetCell q) ∧
    (∀ q c, s.GetCell q = .ok (some c) → ∀ fuel,
      (Cell.GetValue fuel (Sheet.SetCell ParseFormula s pos text).1 q).2 =
        (Cell.GetValue fuel s q).2) ∧
    (∀ q c, s.cellAt q = some c →
      (Sheet.SetCell ParseFormula s pos text).1.cellAt q = some c) := by
  obtain ⟨hv, hstate⟩ := Sheet.SetCell_rejected_state ParseFormula s pos text hrej
  have hn := Position.nonneg_of_IsValid hv
  rw [hstate]
  refine ⟨Sheet.GetCell_ensureCell s pos hn, ?_, ?_⟩
  · intro q _ _ fuel
    exact (Cell.GetValue_congr fuel _ _ q (Sheet.implAt_ensureCell s pos hn)).1
  · intro q c hc
    rw [Sheet.ensureCell_spec s pos hn]
    by_cases hq : q = pos
    · subst hq; simp [hc]
    · simp [hq, hc]

theorem rejected_edit_unobservable_witness :
    ((Sheet.SetCell demoParse CreateSheet ⟨0, 0⟩ "=A1").2 =
        some (.thrown .CircularDependencyException) ∨
      (Sheet.SetCell demoParse CreateSheet ⟨0, 0⟩ "=A1").2 =
        some (.thrown .FormulaException)) ∧
    ∀ q, (Sheet.SetCell demoParse CreateSheet ⟨0, 0⟩ "=A1").1.GetCell q =
      CreateSheet.GetCell q :=
  ⟨Or.inl (by decide),
    (rejected_edit_unobservable demoParse CreateSheet ⟨0, 0⟩ "=A1" (Or.inl (by decide))).1⟩

/-! ## Edge symmetry -/

theorem Sheet.dependentsAt_ensureCell (s : Sheet) (pos : Position)
    (hn : 0 ≤ pos.row ∧ 0 ≤ pos.col) (q : Position) :
    (s.ensureCell pos).dependentsAt q = s.dependentsAt q := by
  unfold Sheet.dependentsAt
  rw [Sheet.ensureCell_spec s pos hn]
  by_cases hq : q = pos
  · subst hq
    cases s.cellAt q <;> simp [Cell.new]
  · simp [hq]

theorem Sheet.Symmetric.ensureCell {s : Sheet} (hs : s.Symmetric) (pos : Position)
    (hn : 0 ≤ pos.row ∧ 0 ≤ pos.col) : (s.ensureCell pos).Symmetric := by
  intro a b
  rw [Sheet.refsAt_ensureCell s pos hn, Sheet.dependentsAt_ensureCell s pos hn]
  exact hs a b

theorem Cell.mem_rewired_dependents (s : Sheet) (self : Position) (impl : Impl)
    (a b : Position) :
    a ∈ (Cell.rewired s self impl b).elim [] Cell.dependets_ ↔
      (a = self ∧ b ∈ impl.GetReferencedCells) ∨
        (a ∈ s.dependentsAt b ∧ ¬ (a = self ∧ b ∈ s.refsAt self)) := by
  unfold Cell.rewired Sheet.dependentsAt
  cases hc : s.cellAt b with
  | none =>
    by_cases hb : b = self
    · subst hb
      by_cases h1 : b ∈ impl.GetReferencedCells <;> simp [h1, Cell.new, Cell.insertDependent]
    · by_cases h1 : b ∈ impl.GetReferencedCells <;>
        simp [h1, hb, Cell.new, Cell.insertDependent]
  | some c =>
    by_cases h1 : b ∈ impl.GetReferencedCells <;> by_cases h2 : b ∈ s.refsAt self <;>
      by_cases hb : b = self <;> by_cases hm : self ∈ c.dependets_ <;>
      by_cases ha : a = self <;>
      simp_all [Cell.insertDependent, Cell.eraseDependent, Cell.setImpl, List.mem_filter]

theorem SetResult.mem_dependentsAt {s : Sheet} {self : Position} {impl : Impl} {s' : Sheet}
    {V : List Position} (h : SetResult s self impl s' V) (a b : Position) :
    a ∈ s'.dependentsAt b ↔
      (a = self ∧ b ∈ impl.GetReferencedCells) ∨
        (a ∈ s.dependentsAt b ∧ ¬ (a = self ∧ b ∈ s.refsAt self)) := by
  rw [← Cell.mem_rewired_dependents]
  have : s'.dependentsAt b = (Cell.rewired s self impl b).elim [] Cell.dependets_ := by
    unfold Sheet.dependentsAt
    rw [h.2 b]
    split
    · cases Cell.rewired s self impl b <;> simp [Cell.resetCache]
    · rfl
  rw [this]

theorem SetResult.symmetric {s : Sheet} {self : Position} {impl : Impl} {s' : Sheet}
    {V : List Position} (h : SetResult s self impl s' V) (hself : s.cellAt self ≠ none)
    (hs : s.Symmetric) : s'.Symmetric := by
  intro a b
  rw [h.refsAt hself a, h.mem_dependentsAt a b]
  by_cases ha : a = self
  · subst ha
    simp only [if_true, true_and]
    constructor
    · intro hb; exact Or.inl hb
    · rintro (hb | ⟨hd, hnot⟩)
      · exact hb
      · exact absurd ((hs a b).mpr hd) hnot
  · simp only [ha, if_false, false_and, false_or, not_false_eq_true, and_true]
    exact hs a b

theorem Sheet.SetCell_symmetric (ParseFormula : String → Option FormulaInterface)
    (s : Sheet) (pos : Position) (text : String) (hs : s.Symmetric) :
    (Sheet.SetCell ParseFormula s pos text).1.Symmetric := by
  by_cases hv : pos.IsValid = true
  · have hn := Position.nonneg_of_IsValid hv
    have hs1 := hs.ensureCell pos hn
    have hself : (s.ensureCell pos).cellAt pos ≠ none := by
      rw [Sheet.ensureCell_spec s pos hn]; simp
    rcases Sheet.SetCell_spec ParseFormula s pos text hv with
      ⟨_, h⟩ | ⟨impl, _, _, h⟩ | ⟨impl, _, _, s', V, h, hV, hcell⟩
    · rw [h]; exact hs1
    · rw [h]; exact hs1
    · rw [h]
      exact SetResult.symmetric ⟨hV, hcell⟩ hself hs1
  · rw [Sheet.SetCell_invalid ParseFormula s pos text (by simpa using hv)]
    exact hs

theorem Sheet.ClearCell_symmetric (ParseFormula : String → Option FormulaInterface)
    (s : Sheet) (pos : Position) (hs : s.Symmetric) :
    (Sheet.ClearCell ParseFormula s pos).1.Symmetric := by
  by_cases hv : pos.IsValid = true
  · cases hc : s.cellAt pos with
    | none => rw [Sheet.ClearCell_absent ParseFormula s pos hv hc]; exact hs
    | some c =>
      obtain ⟨s1, V, c1, hres, hc1, himpl, s2, h2, hcell2⟩ :=
        Sheet.ClearCell_present ParseFormula s pos hv hc
      rw [h2]
      have hs1 : s1.Symmetric := hres.symmetric (by simp [hc]) hs
      by_cases hd : c1.dependets_ = []
      · have hrefs : ∀ q, s2.refsAt q = s1.refsAt q := by
          intro q
          unfold Sheet.refsAt
          rw [hcell2]
          by_cases hq : q = pos
          · subst hq
            simp [hd, hc1, Cell.GetReferencedCells, himpl, Impl.GetReferencedCells]
          · simp [hq]
        have hdeps : ∀ q, s2.dependentsAt q = s1.dependentsAt q := by
          intro q
          unfold Sheet.dependentsAt
          rw [hcell2]
          by_cases hq : q = pos
          · subst hq
            simp [hd, hc1]
          · simp [hq]
        intro a b
        rw [hrefs, hdeps]
        exact hs1 a b
      · have : ∀ q, s2.cellAt q = s1.cellAt q := by intro q; rw [hcell2]; simp [hd]
        intro a b
        unfold Sheet.refsAt Sheet.dependentsAt
        rw [this, this]
        exact hs1 a b
  · rw [Sheet.ClearCell_invalid ParseFormula s pos (by simpa using hv)]
    exact hs

theorem Sheet.symmetric_create : CreateSheet.Symmetric := by
  intro a b
  simp [Sheet.refsAt, Sheet.dependentsAt, Sheet.cellAt_create]

theorem Reachable.edges_symmetric {ParseFormula : String → Option FormulaInterface} {s : Sheet}
    (h : Reachable ParseFormula s) : s.Symmetric := by
  induction h with
  | create => exact Sheet.symmetric_create
  | setCell s pos text _ ih => exact Sheet.SetCell_symmetric ParseFormula s pos text ih
  | clearCell s pos _ ih => exact Sheet.ClearCell_symmetric ParseFormula s pos ih

/-- C4: edge symmetry is an invariant.  In every sheet reachable from the empty sheet by
`SetCell` and `ClearCell` calls, for all stored cells `A` and `B` the position of `B` is
among the referenced positions of `A` exactly when `A` is in the dependents set of `B`,
and every referenced position of a stored cell holds a stored cell. -/
theorem edge_symmetry_invariant (ParseFormula : String → Option FormulaInterface) (s : Sheet)
    (h : Reachable ParseFormula s) :
    (∀ A B cA cB, s.cellAt A = some cA → s.cellAt B = some cB →
      (B ∈ cA.GetReferencedCells ↔ A ∈ cB.dependets_)) ∧
    (∀ A cA, s.cellAt A = some cA → ∀ P ∈ cA.GetReferencedCells, (s.cellAt P).isSome) := by
  have hs := h.edges_symmetric
  constructor
  · intro A B cA cB hA hB
    have := hs A B
    simpa [Sheet.refsAt, Sheet.dependentsAt, hA, hB] using this
  · intro A cA hA P hP
    have hmem : A ∈ s.dependentsAt P := (hs A P).mp (by simpa [Sheet.refsAt, hA] using hP)
    unfold Sheet.dependentsAt at hmem
    cases hc : s.cellAt P with
    | none => simp [hc] at hmem
    | some c => rfl

theorem edge_symmetry_invariant_witness :
    Reachable demoParse (Sheet.SetCell demoParse CreateSheet ⟨0, 0⟩ "=B1+A2").1 ∧
    ∀ A cA, (Sheet.SetCell demoParse CreateSheet ⟨0, 0⟩ "=B1+A2").1.cellAt A = some cA →
      ∀ P ∈ cA.GetReferencedCells,
        ((Sheet.SetCell demoParse CreateSheet ⟨0, 0⟩ "=B1+A2").1.cellAt P).isSome :=
  ⟨Reachable.setCell _ _ _ Reachable.create,
    (edge_symmetry_invariant demoParse _ (Reachable.setCell _ _ _ Reachable.create)).2⟩

/-! ## The invalidation sweep after an edit -/

theorem Cell.Set_returns (ParseFormula : String → Option FormulaInterface) (n : Nat)
    (s : Sheet) (self : Position) (text : String) (s' : Sheet) (hself : s.cellAt self ≠ none)
    (hacc : Cell.Set ParseFormula (Sheet.SetCellAux ParseFormula (n + 1)) s self text =
      (s', none)) :
    ∃ (impl : Impl) (V : List Position), Cell.makeImpl ParseFormula text = some impl ∧
      SetResult s self impl s' V := by
  cases hm : Cell.makeImpl ParseFormula text with
  | none =>
    rw [Cell.Set_formula_error _ _ _ _ _ hm] at hacc
    simp at hacc
  | some impl =>
    rcases ThrowIfCircularDependency_spec s self impl hself with ⟨_, hthrow⟩ | ⟨_, hpass⟩
    · rw [Cell.Set_circular _ _ _ _ _ _ hm hthrow] at hacc
      simp at hacc
    · obtain ⟨s'', V, hset, hV, hcell⟩ := Cell.Set_accepted ParseFormula
        (Sheet.SetCellAux ParseFormula (n + 1)) s self text impl hm hpass
        (Sheet.SetCellAux_vivifies ParseFormula n _ impl.refs_valid)
      rw [hset] at hacc
      simp only [Prod.mk.injEq, and_true] at hacc
      subst hacc
      exact ⟨impl, V, rfl, hV, hcell⟩

theorem SetResult.implAt {s : Sheet} {self : Position} {impl : Impl} {s' : Sheet}
    {V : List Position} (h : SetResult s self impl s' V) (hself : s.cellAt self ≠ none)
    (q : Position) :
    s'.implAt q =
      if q ∈ V then (if q = self then impl else s.implAt q).ClearCache
      else if q = self then impl else s.implAt q := by
  have himpl : (s'.cellAt q).map Cell.impl_ =
      if q ∈ V then ((Cell.rewired s self impl q).map Cell.impl_).map Impl.ClearCache
      else (Cell.rewired s self impl q).map Cell.impl_ := by
    rw [h.2 q]
    split
    · cases Cell.rewired s self impl q <;> simp [Cell.resetCache]
    · rfl
  unfold Sheet.implAt
  rw [himpl, Cell.rewired_impl s self impl q hself]
  by_cases hq : q = self
  · subst hq
    by_cases hV : q ∈ V <;> simp [hV]
  · simp only [hq, if_false]
    cases hc : s.cellAt q with
    | some c => by_cases hV : q ∈ V <;> simp [hV]
    | none =>
      by_cases hV : q ∈ V <;> by_cases h1 : q ∈ impl.GetReferencedCells <;>
        simp [hV, h1, Impl.ClearCache]

theorem Impl.ClearCache_cache (i : Impl) : i.ClearCache.cache = none := by
  cases i <;> rfl

/-- C6: the invalidation sweep clears exactly the affected caches.  After `Cell::Set` on
the stored cell at `self` has returned normally, the cache of every cell reachable from
`self` along the dependents edges of the resulting sheet (`self` included) is absent, and
the cache at every other position is what it was before the call.  The callback is the
sheet's `SetCell` at any nesting depth. -/
theorem invalidation_sweep_exact (ParseFormula : String → Option FormulaInterface) (n : Nat)
    (s : Sheet) (self : Position) (text : String) (s' : Sheet) (hself : s.cellAt self ≠ none)
    (hacc : Cell.Set ParseFormula (Sheet.SetCellAux ParseFormula (n + 1)) s self text =
      (s', none)) :
    ∀ q, (Relation.ReflTransGen s'.DependentEdge self q → s'.cacheAt q = none) ∧
      (¬ Relation.ReflTransGen s'.DependentEdge self q → s'.cacheAt q = s.cacheAt q) := by
  obtain ⟨impl, V, _, hres⟩ := Cell.Set_returns ParseFormula n s self text s' hself hacc
  intro q
  unfold Sheet.cacheAt
  rw [hres.implAt hself q]
  constructor
  · intro hq
    rw [if_pos ((hres.1 q).mpr hq)]
    exact Impl.ClearCache_cache _
  · intro hq
    have hV : q ∉ V := fun h => hq ((hres.1 q).mp h)
    have hne : q ≠ self := fun h => hq (h ▸ Relation.ReflTransGen.refl)
    simp [hV, hne]

/-! ## Classification, lookup and round trip -/

theorem Sheet.GetCell_some_iff (s : Sheet) (pos : Position) (hv : pos.IsValid = true)
    (c : Cell) :
    s.GetCell pos = .ok (some c) ↔ (s.cellAt pos = some c ∧ c.GetText ≠ "") := by
  have hne : ∀ c : Cell, (c.GetText.isEmpty = true) ↔ c.GetText = "" :=
    fun c => String.isEmpty_iff _
  rw [Sheet.GetCell_isSome s pos hv]
  cases hc : s.cellAt pos with
  | none => simp [Option.filter]
  | some x =>
    by_cases ht : x.GetText.isEmpty = true
    · have := (hne x).mp ht
      simp only [Option.filter, ht, Bool.not_true, Bool.false_eq_true, if_false,
        Option.some.injEq]
      constructor
      · intro h; simp at h
      · rintro ⟨rfl, h⟩; exact absurd this h
    · have hx : x.GetText ≠ "" := fun h => ht ((hne x).mpr h)
      simp only [Option.filter, ht, Bool.not_false, if_true, Except.ok.injEq,
        Option.some.injEq]
      constructor
      · rintro rfl; exact ⟨rfl, hx⟩
      · rintro ⟨h, _⟩; exact h

theorem Sheet.GetCell_absent_iff (s : Sheet) (pos : Position) (hv : pos.IsValid = true) :
    s.GetCell pos = .ok none ↔ ¬ ∃ c, s.cellAt pos = some c ∧ c.GetText ≠ "" := by
  constructor
  · rintro h ⟨c, hc⟩
    rw [(Sheet.GetCell_some_iff s pos hv c).mpr hc] at h
    simp at h
  · intro h
    rw [Sheet.GetCell_isSome s pos hv] at *
    cases hf : (s.cellAt pos).filter fun cell => !cell.GetText.isEmpty with
    | none => rfl
    | some c =>
      exfalso
      apply h
      have := (Sheet.GetCell_some_iff s pos hv c).mp (by rw [Sheet.GetCell_isSome s pos hv, hf])
      exact ⟨c, this⟩

/-- C8: `GetCell` at a valid position returns a cell exactly when one is stored there
with non-empty text, and then returns that cell; a stored cell with empty text is
reported absent, and so is every position outside the allocated rows and columns. -/
theorem GetCell_reports_nonempty (s : Sheet) (pos : Position) (hv : pos.IsValid = true) :
    (∀ c, s.GetCell pos = .ok (some c) ↔ (s.cellAt pos = some c ∧ c.GetText ≠ "")) ∧
    (s.GetCell pos = .ok none ↔ ¬ ∃ c, s.cellAt pos = some c ∧ c.GetText ≠ "") ∧
    (∀ c, s.cellAt pos = some c → c.GetText = "" → s.GetCell pos = .ok none) ∧
    (¬ (pos.row.toNat < s.table_.length ∧ pos.col.toNat < (s.rowAt pos.row.toNat).length) →
      s.GetCell pos = .ok none) := by
  refine ⟨Sheet.GetCell_some_iff s pos hv, Sheet.GetCell_absent_iff s pos hv, ?_, ?_⟩
  · intro c hc ht
    rw [Sheet.GetCell_absent_iff s pos hv]
    rintro ⟨c', hc', ht'⟩
    rw [hc] at hc'
    simp only [Option.some.injEq] at hc'
    subst hc'
    exact ht' ht
  · intro hout
    rw [Sheet.GetCell_isSome s pos hv]
    cases hc : s.cellAt pos with
    | none => rfl
    | some x => exact absurd (Sheet.cellAt_lt hc) hout

theorem GetCell_reports_nonempty_witness :
    (⟨0, 1⟩ : Position).IsValid = true ∧
    ((Sheet.SetCell demoParse CreateSheet ⟨0, 0⟩ "=B1").1.GetCell ⟨0, 1⟩ = .ok none ↔
      ¬ ∃ c, (Sheet.SetCell demoParse CreateSheet ⟨0, 0⟩ "=B1").1.cellAt ⟨0, 1⟩ = some c ∧
        c.GetText ≠ "") :=
  ⟨by decide, (GetCell_reports_nonempty _ ⟨0, 1⟩ (by decide)).2.1⟩

/-- C10: text round trip for literal content.  For a valid position and a non-empty text
`T` that is not classified as a formula, `SetCell(pos, T)` returns normally and `GetCell(pos)`
then returns a cell whose `GetText` is `T` itself, a leading escape sign included. -/
theorem literal_text_round_trip (ParseFormula : String → Option FormulaInterface)
    (s : Sheet) (pos : Position) (T : String) (hv : pos.IsValid = true) (hne : T ≠ "")
    (hnf : ¬ (T.length > 1 ∧ T.front = FORMULA_SIGN)) :
    (Sheet.SetCell ParseFormula s pos T).2 = none ∧
    ∃ c, (Sheet.SetCell ParseFormula s pos T).1.GetCell pos = .ok (some c) ∧
      c.GetText = T := by
  have hn := Position.nonneg_of_IsValid hv
  have hm := Cell.makeImpl_text ParseFormula T hne hnf
  have hself : (s.ensureCell pos).cellAt pos ≠ none := by
    rw [Sheet.ensureCell_spec s pos hn]; simp
  rcases Sheet.SetCell_spec ParseFormula s pos T hv with
    ⟨hnone, _⟩ | ⟨impl, himpl, hcyc, _⟩ | ⟨impl, himpl, _, s', V, h, hV, hcell⟩
  · rw [hm] at hnone; simp at hnone
  · rw [hm] at himpl
    cases himpl
    obtain ⟨r, hr, _⟩ := hcyc
    simp [Impl.GetReferencedCells] at hr
  · rw [hm] at himpl
    cases himpl
    rw [h]
    refine ⟨rfl, ?_⟩
    have hres : SetResult (s.ensureCell pos) pos (.TextImpl T) s' V := ⟨hV, hcell⟩
    have himplAt := hres.implAt hself pos
    have hVpos : pos ∈ V := (hV pos).mpr Relation.ReflTransGen.refl
    simp only [hVpos, if_true, Impl.ClearCache] at himplAt
    cases hc : s'.cellAt pos with
    | none =>
      -- impossible: the target cell is stored
      have := hcell pos
      rw [hc, if_pos hVpos] at this
      have hr := Cell.rewired_impl (s.ensureCell pos) pos (.TextImpl T) pos hself
      cases hrew : Cell.rewired (s.ensureCell pos) pos (.TextImpl T) pos with
      | none => rw [hrew] at hr; simp at hr
      | some x => rw [hrew] at this; simp at this
    | some c =>
      have hci : c.impl_ = .TextImpl T := by
        simpa [Sheet.implAt, hc] using himplAt
      have htext : c.GetText = T := by simp [Cell.GetText, hci, Impl.GetText]
      refine ⟨c, ?_, htext⟩
      have : s'.cellAt pos = some c ∧ c.GetText ≠ "" := ⟨hc, by rw [htext]; exact hne⟩
      exact (Sheet.GetCell_some_iff s' pos hv c).mpr this

theorem invalidation_sweep_exact_witness :
    ((CreateSheet.ensureCell ⟨0, 0⟩).cellAt ⟨0, 0⟩ ≠ none ∧
      Cell.Set demoParse (Sheet.SetCellAux demoParse 1) (CreateSheet.ensureCell ⟨0, 0⟩)
          ⟨0, 0⟩ "=B1" =
        ((Cell.Set demoParse (Sheet.SetCellAux demoParse 1) (CreateSheet.ensureCell ⟨0, 0⟩)
          ⟨0, 0⟩ "=B1").1, none)) ∧
    ∀ q,
      (Relation.ReflTransGen
          (Cell.Set demoParse (Sheet.SetCellAux demoParse 1) (CreateSheet.ensureCell ⟨0, 0⟩)
            ⟨0, 0⟩ "=B1").1.DependentEdge ⟨0, 0⟩ q →
        (Cell.Set demoParse (Sheet.SetCellAux demoParse 1) (CreateSheet.ensureCell ⟨0, 0⟩)
          ⟨0, 0⟩ "=B1").1.cacheAt q = none) ∧
      (¬ Relation.ReflTransGen
          (Cell.Set demoParse (Sheet.SetCellAux demoParse 1) (CreateSheet.ensureCell ⟨0, 0⟩)
            ⟨0, 0⟩ "=B1").1.DependentEdge ⟨0, 0⟩ q →
        (Cell.Set demoParse (Sheet.SetCellAux demoParse 1) (CreateSheet.ensureCell ⟨0, 0⟩)
          ⟨0, 0⟩ "=B1").1.cacheAt q = (CreateSheet.ensureCell ⟨0, 0⟩).cacheAt q) :=
  ⟨⟨by rw [Sheet.ensureCell_spec _ _ (by decide)]; simp, Prod.ext rfl (by decide)⟩,
    invalidation_sweep_exact demoParse 0 (CreateSheet.ensureCell ⟨0, 0⟩) ⟨0, 0⟩ "=B1" _
      (by rw [Sheet.ensureCell_spec _ _ (by decide)]; simp) (Prod.ext rfl (by decide))⟩

theorem literal_text_round_trip_witness :
    ((⟨0, 0⟩ : Position).IsValid = true ∧ "=" ≠ "" ∧
      ¬ ("=".length > 1 ∧ "=".front = FORMULA_SIGN)) ∧
    ((Sheet.SetCell demoParse CreateSheet ⟨0, 0⟩ "=").2 = none ∧
      ∃ c, (Sheet.SetCell demoParse CreateSheet ⟨0, 0⟩ "=").1.GetCell ⟨0, 0⟩ = .ok (some c) ∧
        c.GetText = "=") :=
  ⟨⟨by decide, by decide, by decide⟩,
    literal_text_round_trip demoParse CreateSheet ⟨0, 0⟩ "=" (by decide) (by decide)
      (by decide)⟩

/-! ## The printable size -/

theorem scanRowBackwards_none (row : List (Option Cell)) :
    ∀ n, scanRowBackwards row n = none → ∀ j, j < n → ¬ rowHasText row j := by
  intro n
  induction n with
  | zero => intro _ j hj; omega
  | succ n ih =>
    intro h j hj
    rw [scanRowBackwards] at h
    have hcur : ¬ rowHasText row n ∧ scanRowBackwards row n = none := by
      cases hc : row.getD n none with
      | none =>
        rw [hc] at h
        exact ⟨fun ⟨c, hc', _⟩ => by rw [hc] at hc'; simp at hc', h⟩
      | some c =>
        rw [hc] at h
        simp only at h
        by_cases ht : c.GetText.isEmpty = true
        · simp only [ht, Bool.not_true, Bool.false_eq_true, if_false] at h
          refine ⟨?_, h⟩
          rintro ⟨c', hc', ht'⟩
          rw [hc] at hc'
          simp only [Option.some.injEq] at hc'
          subst hc'
          rw [ht] at ht'
          simp at ht'
        · simp [ht] at h
    by_cases hjn : j = n
    · subst hjn; exact hcur.1
    · exact ih hcur.2 j (by omega)

theorem scanRowBackwards_some (row : List (Option Cell)) :
    ∀ n j, scanRowBackwards row n = some j →
      j < n ∧ rowHasText row j ∧ ∀ j', j < j' → j' < n → ¬ rowHasText row j' := by
  intro n
  induction n with
  | zero => intro j h; simp [scanRowBackwards] at h
  | succ n ih =>
    intro j h
    rw [scanRowBackwards] at h
    have key : (rowHasText row n ∧ j = n) ∨
        (¬ rowHasText row n ∧ scanRowBackwards row n = some j) := by
      cases hc : row.getD n none with
      | none =>
        rw [hc] at h
        exact Or.inr ⟨fun ⟨c, hc', _⟩ => by rw [hc] at hc'; simp at hc', h⟩
      | some c =>
        rw [hc] at h
        simp only at h
        by_cases ht : c.GetText.isEmpty = true
        · simp only [ht, Bool.not_true, Bool.false_eq_true, if_false] at h
          right
          refine ⟨?_, h⟩
          rintro ⟨c', hc', ht'⟩
          rw [hc] at hc'
          simp only [Option.some.injEq] at hc'
          subst hc'
          rw [ht] at ht'
          simp at ht'
        · simp only [ht, Bool.not_false, if_true, Option.some.injEq] at h
          left
          exact ⟨⟨c, hc, by simpa using ht⟩, h.symm⟩
    rcases key with ⟨hn, rfl⟩ | ⟨hn, hrec⟩
    · exact ⟨Nat.lt_succ_self _, hn, fun j' h1 h2 => by omega⟩
    · obtain ⟨h1, h2, h3⟩ := ih j hrec
      refine ⟨by omega, h2, ?_⟩
      intro j' hj1 hj2
      by_cases hjn : j' = n
      · subst hjn; exact hn
      · exact h3 j' hj1 (by omega)

theorem rowHasText_lt {row : List (Option Cell)} {j : Nat} (h : rowHasText row j) :
    j < row.length := by
  obtain ⟨c, hc, _⟩ := h
  by_contra hj
  rw [List.getD_eq_getElem?_getD, List.getElem?_eq_none (by omega)] at hc
  simp at hc

theorem printableSizeFrom_spec :
    ∀ (rows : List (List (Option Cell))) (i0 : Nat) (size : Size),
      size.rows ≤ (printableSizeFrom i0 rows size).rows ∧
      size.cols ≤ (printableSizeFrom i0 rows size).cols ∧
      (∀ k j, rowHasText (rows.getD k []) j →
        i0 + k < (printableSizeFrom i0 rows size).rows ∧
          j < (printableSizeFrom i0 rows size).cols) ∧
      ((printableSizeFrom i0 rows size).rows = size.rows ∨
        ∃ k j, rowHasText (rows.getD k []) j ∧
          (printableSizeFrom i0 rows size).rows = i0 + k + 1) ∧
      ((printableSizeFrom i0 rows size).cols = size.cols ∨
        ∃ k, rowHasText (rows.getD k []) ((printableSizeFrom i0 rows size).cols - 1) ∧
          0 < (printableSizeFrom i0 rows size).cols) := by
  intro rows
  induction rows with
  | nil =>
    intro i0 size
    refine ⟨le_refl _, le_refl _, ?_, Or.inl rfl, Or.inl rfl⟩
    intro k j h
    obtain ⟨c, hc, _⟩ := h
    simp at hc
  | cons row rows ih =>
    intro i0 size
    rw [printableSizeFrom]
    cases hscan : scanRowBackwards row row.length with
    | none =>
      simp only []
      obtain ⟨h1, h2, h3, h4, h5⟩ := ih (i0 + 1) size
      have hno := scanRowBackwards_none row _ hscan
      refine ⟨h1, h2, ?_, ?_, ?_⟩
      · intro k j hkj
        cases k with
        | zero =>
          simp only [List.getD_cons_zero] at hkj
          exact absurd hkj (hno j (rowHasText_lt hkj))
        | succ k =>
          simp only [List.getD_cons_succ] at hkj
          have := h3 k j hkj
          exact ⟨by have := this.1; clear hkj hno h3 h4 h5; omega, this.2⟩
      · rcases h4 with h | ⟨k, j, hkj, h⟩
        · exact Or.inl h
        · exact Or.inr ⟨k + 1, j, by simpa using hkj, by rw [h]; ring⟩
      · rcases h5 with h | ⟨k, hk, h⟩
        · exact Or.inl h
        · exact Or.inr ⟨k + 1, by simpa using hk, h⟩
    | some j0 =>
      simp only []
      obtain ⟨h1, h2, h3, h4, h5⟩ :=
        ih (i0 + 1) ⟨max size.rows (i0 + 1), max size.cols (j0 + 1)⟩
      obtain ⟨hj0, htext, hlast⟩ := scanRowBackwards_some row _ j0 hscan
      simp only at h1 h2 h4 h5
      generalize (printableSizeFrom (i0 + 1) rows
        ⟨max size.rows (i0 + 1), max size.cols (j0 + 1)⟩).rows = R at h1 h3 h4 ⊢
      generalize (printableSizeFrom (i0 + 1) rows
        ⟨max size.rows (i0 + 1), max size.cols (j0 + 1)⟩).cols = C at h2 h3 h5 ⊢
      have a1 : size.rows ≤ R := le_trans (le_max_left _ _) h1
      have a2 : i0 + 1 ≤ R := le_trans (le_max_right _ _) h1
      have b1 : size.cols ≤ C := le_trans (le_max_left _ _) h2
      have b2 : j0 + 1 ≤ C := le_trans (le_max_right _ _) h2
      refine ⟨a1, b1, ?_, ?_, ?_⟩
      · intro k j hkj
        cases k with
        | zero =>
          simp only [List.getD_cons_zero] at hkj
          have hj : j ≤ j0 := by
            by_contra hgt
            exact hlast j (by omega) (rowHasText_lt hkj) hkj
          clear hkj htext hlast h3 h4 h5
          exact ⟨by omega, by omega⟩
        | succ k =>
          simp only [List.getD_cons_succ] at hkj
          have := h3 k j hkj
          exact ⟨by have := this.1; clear hkj htext hlast h3 h4 h5; omega, this.2⟩
      · rcases h4 with h | ⟨k, j, hkj, h⟩
        · rcases le_total size.rows (i0 + 1) with hle | hle
          · rw [max_eq_right hle] at h
            exact Or.inr ⟨0, j0, by simpa using htext, by rw [h]⟩
          · rw [max_eq_left hle] at h
            exact Or.inl h
        · exact Or.inr ⟨k + 1, j, by simpa using hkj, by rw [h]; ring⟩
      · rcases h5 with h | ⟨k, hk, h⟩
        · rcases le_total size.cols (j0 + 1) with hle | hle
          · rw [max_eq_right hle] at h
            right
            refine ⟨0, ?_, by rw [h]; simp⟩
            have : C - 1 = j0 := by rw [h]; simp
            rw [this]
            simpa using htext
          · rw [max_eq_left hle] at h
            exact Or.inl h
        · exact Or.inr ⟨k + 1, by simpa using hk, h⟩

theorem Sheet.hasTextAt_iff (s : Sheet) (i j : Nat) :
    s.HasTextAt i j ↔ rowHasText (s.table_.getD i []) j := by
  unfold Sheet.HasTextAt rowHasText Sheet.slot Sheet.rowAt
  constructor
  · rintro ⟨c, hc, ht⟩
    refine ⟨c, hc, ?_⟩
    rw [Bool.eq_false_iff]
    exact fun h => ht ((String.isEmpty_iff _).mp h)
  · rintro ⟨c, hc, ht⟩
    refine ⟨c, hc, ?_⟩
    intro h
    rw [(String.isEmpty_iff _).mpr h] at ht
    simp at ht

/-- C9: `GetPrintableSize` is the minimal bounding rectangle of the cells with non-empty
text.  Every such cell lies inside it; when `rows` is positive its last row holds such a
cell and when `cols` is positive its last column holds such a cell, so that `rows` and
`cols` are one more than the largest row and column index of such a cell; and the size
is `0 x 0` when there is none.  Cells with empty text play no part. -/
theorem printable_size_minimal (s : Sheet) :
    (∀ i j, s.HasTextAt i j → i < s.GetPrintableSize.rows ∧ j < s.GetPrintableSize.cols) ∧
    (0 < s.GetPrintableSize.rows → ∃ j, s.HasTextAt (s.GetPrintableSize.rows - 1) j) ∧
    (0 < s.GetPrintableSize.cols → ∃ i, s.HasTextAt i (s.GetPrintableSize.cols - 1)) ∧
    ((¬ ∃ i j, s.HasTextAt i j) → s.GetPrintableSize = ⟨0, 0⟩) := by
  obtain ⟨_, _, h3, h4, h5⟩ := printableSizeFrom_spec s.table_ 0 ⟨0, 0⟩
  have hrows : 0 < s.GetPrintableSize.rows → ∃ j, s.HasTextAt (s.GetPrintableSize.rows - 1) j := by
    intro hpos
    rcases h4 with h | ⟨k, j, hkj, h⟩
    · unfold Sheet.GetPrintableSize at hpos; simp only at h; omega
    · refine ⟨j, ?_⟩
      have : s.GetPrintableSize.rows - 1 = k := by unfold Sheet.GetPrintableSize; omega
      rw [this, Sheet.hasTextAt_iff]
      exact hkj
  have hcols : 0 < s.GetPrintableSize.cols → ∃ i, s.HasTextAt i (s.GetPrintableSize.cols - 1) := by
    intro hpos
    rcases h5 with h | ⟨k, hk, _⟩
    · unfold Sheet.GetPrintableSize at hpos; simp only at h; omega
    · exact ⟨k, (Sheet.hasTextAt_iff s k _).mpr hk⟩
  refine ⟨?_, hrows, hcols, ?_⟩
  · intro i j hij
    have := h3 i j ((Sheet.hasTextAt_iff s i j).mp hij)
    simpa [Sheet.GetPrintableSize] using this
  · intro hno
    have hr : s.GetPrintableSize.rows = 0 := by
      by_contra h
      obtain ⟨j, hj⟩ := hrows (by omega)
      exact hno ⟨_, j, hj⟩
    have hc : s.GetPrintableSize.cols = 0 := by
      by_contra h
      obtain ⟨i, hi⟩ := hcols (by omega)
      exact hno ⟨i, _, hi⟩
    cases hsz : s.GetPrintableSize with
    | mk r c => rw [hsz] at hr hc; simp only at hr hc; subst hr; subst hc; rfl

/-! ## The value of a cell regardless of caches -/

theorem pureEvaluation_lookup (s : Sheet) (value : Position → Option Value)
    (pos : Position) (k : Option Value → Evaluation) :
    pureEvaluation s value (.lookup pos k) =
      if pos.IsValid = true then
        if (s.implAt pos).GetText.isEmpty = true then pureEvaluation s value (k none)
        else (value pos).bind fun v => pureEvaluation s value (k (some v))
      else none := by
  by_cases hv : pos.IsValid = true
  · rw [if_pos hv]
    by_cases ht : (s.implAt pos).GetText.isEmpty = true
    · rw [if_pos ht, pureEvaluation, (Sheet.GetCell_none_iff s pos hv).mpr ht]
    · rw [if_neg ht, pureEvaluation]
      have hne : s.GetCell pos ≠ .ok none := fun h => ht ((Sheet.GetCell_none_iff s pos hv).mp h)
      rw [Sheet.GetCell_isSome s pos hv] at hne ⊢
      cases hf : (s.cellAt pos).filter fun cell => !cell.GetText.isEmpty with
      | none => rw [hf] at hne; exact absurd rfl hne
      | some c =>
        simp only []
        cases value pos <;> rfl
  · rw [if_neg hv, pureEvaluation, Sheet.GetCell_eq, if_neg hv]

theorem Sheet.trueValue_succ (fuel : Nat) (s : Sheet) (p : Position) :
    s.trueValue (fuel + 1) p =
      match s.implAt p with
      | .EmptyImpl => some (.text "")
      | .TextImpl value_ => some (textValue value_)
      | .FormulaImpl formula_ _ =>
        (pureEvaluation s (s.trueValue fuel) formula_.Evaluate).map FormulaValue.toValue := by
  rw [Sheet.trueValue]

theorem Impl.text_of_ClearCache_eq {i j : Impl} (h : i.ClearCache = j.ClearCache) :
    i.GetText = j.GetText := by
  rw [← Impl.ClearCache_text i, ← Impl.ClearCache_text j, h]

theorem pureEvaluation_congr (Out : Position → Prop) (s s' : Sheet)
    (value value' : Position → Option Value)
    (hskel : ∀ q, ¬ Out q → (s.implAt q).ClearCache = (s'.implAt q).ClearCache)
    (hval : ∀ q, ¬ Out q → value q = value' q) (R : List Position)
    (hR : ∀ r ∈ R, ¬ Out r) :
    ∀ prog : Evaluation, prog.ReadsWithin R →
      pureEvaluation s value prog = pureEvaluation s' value' prog := by
  intro prog hprog
  induction hprog with
  | done v => rfl
  | lookup pos k hpos _ ih =>
    rw [pureEvaluation_lookup, pureEvaluation_lookup]
    have hout := hR pos hpos
    rw [Impl.text_of_ClearCache_eq (hskel pos hout), hval pos hout]
    by_cases hv : pos.IsValid = true
    · simp only [hv, if_true]
      by_cases ht : (s'.implAt pos).GetText.isEmpty = true
      · simp only [ht, if_true]; exact ih none
      · simp only [ht, if_false]
        cases value' pos with
        | none => rfl
        | some v => exact ih (some v)
    · simp [hv]

/-- The cache-free value at a position depends only on the content, caches apart, of the
cells outside a set `Out` that no cell outside `Out` refers to. -/
theorem Sheet.trueValue_congr (Out : Position → Prop) (s s' : Sheet)
    (hskel : ∀ q, ¬ Out q → (s.implAt q).ClearCache = (s'.implAt q).ClearCache)
    (hclosed : ∀ q, ¬ Out q → ∀ r ∈ (s.implAt q).GetReferencedCells, ¬ Out r) :
    ∀ (fuel : Nat) (q : Position), ¬ Out q → s.trueValue fuel q = s'.trueValue fuel q := by
  intro fuel
  induction fuel with
  | zero => intro q _; rfl
  | succ fuel ih =>
    intro q hq
    rw [Sheet.trueValue_succ, Sheet.trueValue_succ]
    have hsk := hskel q hq
    have hcl := hclosed q hq
    cases hi : s.implAt q with
    | EmptyImpl =>
      rw [hi] at hsk
      cases hj : s'.implAt q <;> rw [hj] at hsk <;> simp [Impl.ClearCache] at hsk ⊢
    | TextImpl t =>
      rw [hi] at hsk
      cases hj : s'.implAt q <;> rw [hj] at hsk <;> simp [Impl.ClearCache] at hsk ⊢
      rw [hsk]
    | FormulaImpl f c =>
      rw [hi] at hsk hcl
      cases hj : s'.implAt q with
      | EmptyImpl => rw [hj] at hsk; simp [Impl.ClearCache] at hsk
      | TextImpl t => rw [hj] at hsk; simp [Impl.ClearCache] at hsk
      | FormulaImpl f' c' =>
        rw [hj] at hsk
        simp only [Impl.ClearCache, Impl.FormulaImpl.injEq, and_true] at hsk
        subst hsk
        simp only []
        rw [pureEvaluation_congr Out s s' (s.trueValue fuel) (s'.trueValue fuel) hskel ih
          f.GetReferencedCells hcl f.Evaluate f.reads_refs]

theorem pureEvaluation_mono (s : Sheet) (value value' : Position → Option Value)
    (hval : ∀ q w, value q = some w → value' q = some w) :
    ∀ (prog : Evaluation) (v : FormulaValue),
      pureEvaluation s value prog = some v → pureEvaluation s value' prog = some v := by
  intro prog
  induction prog with
  | done w => intro v h; exact h
  | lookup pos k ih =>
    intro v h
    rw [pureEvaluation_lookup] at h ⊢
    by_cases hv : pos.IsValid = true
    · simp only [hv, if_true] at h ⊢
      by_cases ht : (s.implAt pos).GetText.isEmpty = true
      · simp only [ht, if_true] at h ⊢; exact ih none v h
      · simp only [ht, if_false] at h ⊢
        cases hw : value pos with
        | none => rw [hw] at h; simp at h
        | some w =>
          rw [hw] at h
          rw [hval pos w hw]
          exact ih (some w) v h
    · simp [hv] at h

theorem Sheet.trueValue_mono_succ (s : Sheet) :
    ∀ (fuel : Nat) (p : Position) (v : Value),
      s.trueValue fuel p = some v → s.trueValue (fuel + 1) p = some v := by
  intro fuel
  induction fuel with
  | zero => intro p v h; simp [Sheet.trueValue] at h
  | succ fuel ih =>
    intro p v h
    rw [Sheet.trueValue_succ] at h ⊢
    cases hi : s.implAt p with
    | EmptyImpl => rw [hi] at h; exact h
    | TextImpl t => rw [hi] at h; exact h
    | FormulaImpl f c =>
      rw [hi] at h
      simp only [Option.map_eq_some'] at h ⊢
      obtain ⟨w, hw, hwv⟩ := h
      exact ⟨w, pureEvaluation_mono s _ _ (ih) f.Evaluate w hw, hwv⟩

theorem Sheet.trueValue_mono (s : Sheet) (p : Position) (v : Value) {k k' : Nat}
    (hk : k ≤ k') (h : s.trueValue k p = some v) : s.trueValue k' p = some v := by
  induction hk with
  | refl => exact h
  | step _ ih => exact Sheet.trueValue_mono_succ s _ p v ih

theorem pureEvaluation_trueValue_mono (s : Sheet) (prog : Evaluation) (v : FormulaValue)
    {k k' : Nat} (hk : k ≤ k')
    (h : pureEvaluation s (s.trueValue k) prog = some v) :
    pureEvaluation s (s.trueValue k') prog = some v :=
  pureEvaluation_mono s _ _ (fun q w hw => Sheet.trueValue_mono s q w hk hw) prog v h

/-! ## `GetValue` against the cache-free value -/

theorem Sheet.SameSkeleton.refl_skeleton (s : Sheet) : s.SameSkeleton s := fun _ => rfl

theorem Sheet.SameSkeleton.trans_skeleton {a b c : Sheet} (h1 : a.SameSkeleton b)
    (h2 : b.SameSkeleton c) : a.SameSkeleton c := fun q => (h2 q).trans (h1 q)

theorem Sheet.SameSkeleton.trueValue_eq {s s' : Sheet} (h : s.SameSkeleton s') (k : Nat) :
    s'.trueValue k = s.trueValue k := by
  funext q
  refine Sheet.trueValue_congr (fun _ => False) s' s (fun q _ => h q) ?_ k q (fun h => h)
  intro q _ r _ hr
  exact hr

theorem pureEvaluation_congr_all (s s' : Sheet) (value : Position → Option Value)
    (hskel : s.SameSkeleton s') :
    ∀ prog : Evaluation, pureEvaluation s' value prog = pureEvaluation s value prog := by
  intro prog
  induction prog with
  | done v => rfl
  | lookup pos k ih =>
    rw [pureEvaluation_lookup, pureEvaluation_lookup,
      Impl.text_of_ClearCache_eq (hskel pos)]
    by_cases hv : pos.IsValid = true
    · simp only [hv, if_true]
      by_cases ht : (s.implAt pos).GetText.isEmpty = true
      · simp only [ht, if_true]; exact ih none
      · simp only [ht, if_false]
        cases value pos with
        | none => rfl
        | some v => exact ih (some v)
    · simp [hv]

theorem Sheet.SameSkeleton.pureEvaluation_eq {s s' : Sheet} (h : s.SameSkeleton s')
    (k : Nat) (prog : Evaluation) :
    pureEvaluation s' (s'.trueValue k) prog = pureEvaluation s (s.trueValue k) prog := by
  rw [h.trueValue_eq k]
  exact pureEvaluation_congr_all s s' _ h prog

theorem Impl.ClearCache_withCache (v : FormulaValue) (i : Impl) :
    (i.withCache v).ClearCache = i.ClearCache := by
  cases i <;> rfl

theorem runEvaluation_coherent (gv : Sheet → Position → Sheet × Except Stop Value)
    (hgv : ValueStepOk gv) :
    ∀ (prog : Evaluation) (s s1 : Sheet) (r : Except Stop FormulaValue), s.CachesCoherent →
      runEvaluation gv prog s = (s1, r) →
      s.SameSkeleton s1 ∧ s1.CachesCoherent ∧
        ∀ v, r = .ok v → ∃ k, pureEvaluation s (s.trueValue k) prog = some v := by
  intro prog
  induction prog with
  | done w =>
    intro s s1 r hs h
    simp only [runEvaluation, Prod.mk.injEq] at h
    obtain ⟨rfl, rfl⟩ := h
    refine ⟨Sheet.SameSkeleton.refl_skeleton s, hs, ?_⟩
    intro v hv
    simp only [Except.ok.injEq] at hv
    subst hv
    exact ⟨0, rfl⟩
  | lookup pos k ih =>
    intro s s1 r hs h
    rw [runEvaluation_lookup] at h
    by_cases hv : pos.IsValid = true
    · simp only [hv, if_true] at h
      by_cases ht : (s.implAt pos).GetText.isEmpty = true
      · simp only [ht, if_true] at h
        obtain ⟨h1, h2, h3⟩ := ih none s s1 r hs h
        refine ⟨h1, h2, ?_⟩
        intro v hrv
        obtain ⟨k', hk'⟩ := h3 v hrv
        exact ⟨k', by rw [pureEvaluation_lookup]; simp only [hv, ht, if_true]; exact hk'⟩
      · simp only [ht, if_false] at h
        cases hg : gv s pos with
        | mk s' r' =>
          rw [hg] at h
          obtain ⟨g1, g2, g3⟩ := hgv s pos s' r' hs hg
          cases r' with
          | error e =>
            simp only [Prod.mk.injEq] at h
            obtain ⟨rfl, rfl⟩ := h
            exact ⟨g1, g2, fun v hv => by simp at hv⟩
          | ok w =>
            simp only at h
            obtain ⟨h1, h2, h3⟩ := ih (some w) s' s1 r g2 h
            refine ⟨g1.trans_skeleton h1, h2, ?_⟩
            intro v hrv
            obtain ⟨k2, hk2⟩ := h3 v hrv
            obtain ⟨k1, hk1⟩ := g3 w rfl
            rw [g1.pureEvaluation_eq k2] at hk2
            refine ⟨max k1 k2, ?_⟩
            rw [pureEvaluation_lookup]
            simp only [hv, ht, if_true, if_false]
            rw [Sheet.trueValue_mono s pos w (le_max_left k1 k2) hk1]
            exact pureEvaluation_trueValue_mono s _ v (le_max_right k1 k2) hk2
    · simp only [hv, if_false, Prod.mk.injEq] at h
      obtain ⟨rfl, rfl⟩ := h
      exact ⟨Sheet.SameSkeleton.refl_skeleton s, hs, fun v hv => by simp at hv⟩

theorem Sheet.CachesCoherent.of_sameSkeleton {s s1 : Sheet} (h : s.SameSkeleton s1)
    (hcache : ∀ p f v, s1.implAt p = .FormulaImpl f (some v) →
      ∃ fuel, pureEvaluation s (s.trueValue fuel) f.Evaluate = some v) :
    s1.CachesCoherent := by
  intro p f v hp
  obtain ⟨k, hk⟩ := hcache p f v hp
  exact ⟨k, by rw [h.pureEvaluation_eq k]; exact hk⟩

/-- On a coherent sheet `GetValue` changes caches only, keeps the sheet coherent, and what
it returns is the cache-free value of the cell. -/
theorem Cell.GetValue_coherent : ∀ fuel : Nat, ValueStepOk (Cell.GetValue fuel) := by
  intro fuel
  induction fuel with
  | zero =>
    intro s p s1 r hs h
    simp only [Cell.GetValue, Prod.mk.injEq] at h
    obtain ⟨rfl, rfl⟩ := h
    exact ⟨Sheet.SameSkeleton.refl_skeleton s, hs, fun v hv => by simp at hv⟩
  | succ fuel ih =>
    intro s p s1 r hs h
    rw [Cell.GetValue_succ] at h
    cases hi : s.implAt p with
    | EmptyImpl =>
      rw [hi] at h
      simp only [Prod.mk.injEq] at h
      obtain ⟨rfl, rfl⟩ := h
      refine ⟨Sheet.SameSkeleton.refl_skeleton s, hs, fun v hv => ⟨1, ?_⟩⟩
      simp only [Except.ok.injEq] at hv
      rw [Sheet.trueValue_succ, hi, ← hv]
    | TextImpl t =>
      rw [hi] at h
      simp only [Prod.mk.injEq] at h
      obtain ⟨rfl, rfl⟩ := h
      refine ⟨Sheet.SameSkeleton.refl_skeleton s, hs, fun v hv => ⟨1, ?_⟩⟩
      simp only [Except.ok.injEq] at hv
      rw [Sheet.trueValue_succ, hi, ← hv]
    | FormulaImpl f c =>
      rw [hi] at h
      cases c with
      | some w =>
        simp only [Prod.mk.injEq] at h
        obtain ⟨rfl, rfl⟩ := h
        refine ⟨Sheet.SameSkeleton.refl_skeleton s, hs, fun v hv => ?_⟩
        simp only [Except.ok.injEq] at hv
        obtain ⟨k, hk⟩ := hs p f w hi
        refine ⟨k + 1, ?_⟩
        rw [Sheet.trueValue_succ, hi]
        simp only [hk, Option.map_some', hv]
      | none =>
        simp only at h
        cases hrun : runEvaluation (Cell.GetValue fuel) f.Evaluate s with
        | mk s' r' =>
          rw [hrun] at h
          obtain ⟨g1, g2, g3⟩ := runEvaluation_coherent (Cell.GetValue fuel) ih f.Evaluate
            s s' r' hs hrun
          cases r' with
          | error e =>
            simp only [Prod.mk.injEq] at h
            obtain ⟨rfl, rfl⟩ := h
            exact ⟨g1, g2, fun v hv => by simp at hv⟩
          | ok w =>
            simp only [Prod.mk.injEq] at h
            obtain ⟨rfl, rfl⟩ := h
            obtain ⟨k, hk⟩ := g3 w rfl
            have hskel : s.SameSkeleton (s'.updateCell p (Cell.setCache w)) := by
              intro q
              rw [Sheet.implAt_updateCell_setCache]
              by_cases hq : q = p
              · subst hq
                rw [if_pos rfl, Impl.ClearCache_withCache]
                exact g1 q
              · rw [if_neg hq]; exact g1 q
            refine ⟨hskel, ?_, ?_⟩
            · apply Sheet.CachesCoherent.of_sameSkeleton hskel
              intro q g v hq
              rw [Sheet.implAt_updateCell_setCache] at hq
              by_cases hqp : q = p
              · subst hqp
                rw [if_pos rfl] at hq
                have hsk := g1 q
                rw [hi] at hsk
                cases hj : s'.implAt q with
                | EmptyImpl => rw [hj] at hsk; simp [Impl.ClearCache] at hsk
                | TextImpl t => rw [hj] at hsk; simp [Impl.ClearCache] at hsk
                | FormulaImpl f' c' =>
                  rw [hj] at hsk hq
                  simp only [Impl.ClearCache, Impl.FormulaImpl.injEq, and_true] at hsk
                  simp only [Impl.withCache, Impl.FormulaImpl.injEq, Option.some.injEq] at hq
                  obtain ⟨rfl, rfl⟩ := hq
                  subst hsk
                  exact ⟨k, hk⟩
              · rw [if_neg hqp] at hq
                obtain ⟨k', hk'⟩ := g2 q g v hq
                exact ⟨k', by rw [← g1.pureEvaluation_eq k']; exact hk'⟩
            · intro v hv
              simp only [Except.ok.injEq] at hv
              refine ⟨k + 1, ?_⟩
              rw [Sheet.trueValue_succ, hi]
              simp only [hk, Option.map_some', hv]

/-! ## `GetValue` changes caches only -/

theorem Sheet.CachesApart.refl_apart (s : Sheet) : s.CachesApart s := fun _ => rfl

theorem Sheet.CachesApart.trans_apart {a b c : Sheet} (h1 : a.CachesApart b)
    (h2 : b.CachesApart c) : a.CachesApart c := fun q => (h2 q).trans (h1 q)

theorem Sheet.CachesApart.refsAt_eq {s s' : Sheet} (h : s.CachesApart s') (q : Position) :
    s'.refsAt q = s.refsAt q := by
  have := h q
  unfold Sheet.refsAt
  cases h1 : s'.cellAt q <;> cases h2 : s.cellAt q <;> rw [h1, h2] at this <;>
    simp [Cell.withoutCache] at this ⊢
  simp only [Cell.GetReferencedCells]
  rw [← Impl.ClearCache_refs, this.1, Impl.ClearCache_refs]

theorem Sheet.CachesApart.dependentsAt_eq {s s' : Sheet} (h : s.CachesApart s')
    (q : Position) : s'.dependentsAt q = s.dependentsAt q := by
  have := h q
  unfold Sheet.dependentsAt
  cases h1 : s'.cellAt q <;> cases h2 : s.cellAt q <;> rw [h1, h2] at this <;>
    simp [Cell.withoutCache] at this ⊢
  exact this.2

theorem Sheet.CachesApart.updateCell_setCache (s : Sheet) (p : Position) (v : FormulaValue) :
    s.CachesApart (s.updateCell p (Cell.setCache v)) := by
  intro q
  rw [Sheet.cellAt_updateCell]
  by_cases hq : q = p
  · subst hq
    cases hc : s.cellAt q with
    | none => simp
    | some c =>
      simp only [if_true, Option.map_some', Option.some.injEq, Cell.withoutCache,
        Cell.setCache]
      cases hi : c.impl_ <;> simp [Impl.ClearCache, hi]
  · simp [hq]

theorem runEvaluation_cachesApart (gv : Sheet → Position → Sheet × Except Stop Value)
    (hgv : ∀ (s : Sheet) (p : Position), s.CachesApart (gv s p).1) :
    ∀ (prog : Evaluation) (s : Sheet), s.CachesApart (runEvaluation gv prog s).1 := by
  intro prog
  induction prog with
  | done v => intro s; exact Sheet.CachesApart.refl_apart s
  | lookup pos k ih =>
    intro s
    rw [runEvaluation_lookup]
    by_cases hv : pos.IsValid = true
    · simp only [hv, if_true]
      by_cases ht : (s.implAt pos).GetText.isEmpty = true
      · simp only [ht, if_true]; exact ih none s
      · simp only [ht, if_false]
        have hg := hgv s pos
        cases hgp : gv s pos with
        | mk s' r' =>
          rw [hgp] at hg
          cases r' with
          | error e => exact hg
          | ok w => exact Sheet.CachesApart.trans_apart hg (ih (some w) s')
    · simp only [hv, if_false]; exact Sheet.CachesApart.refl_apart s

theorem Cell.GetValue_cachesApart :
    ∀ (fuel : Nat) (s : Sheet) (p : Position), s.CachesApart (Cell.GetValue fuel s p).1 := by
  intro fuel
  induction fuel with
  | zero => intro s p; exact Sheet.CachesApart.refl_apart s
  | succ fuel ih =>
    intro s p
    rw [Cell.GetValue_succ]
    cases hi : s.implAt p with
    | EmptyImpl => exact Sheet.CachesApart.refl_apart s
    | TextImpl t => exact Sheet.CachesApart.refl_apart s
    | FormulaImpl f c =>
      cases c with
      | some w => exact Sheet.CachesApart.refl_apart s
      | none =>
        simp only
        have hrun := runEvaluation_cachesApart (Cell.GetValue fuel) ih f.Evaluate s
        cases hr : runEvaluation (Cell.GetValue fuel) f.Evaluate s with
        | mk s' r' =>
          rw [hr] at hrun
          cases r' with
          | error e => exact hrun
          | ok w =>
            exact Sheet.CachesApart.trans_apart hrun
              (Sheet.CachesApart.updateCell_setCache s' p w)

theorem Sheet.CachesApart.symmetric_of {s s' : Sheet} (h : s.CachesApart s')
    (hs : s.Symmetric) : s'.Symmetric := by
  intro a b
  rw [h.refsAt_eq, h.dependentsAt_eq]
  exact hs a b

theorem Sheet.CachesApart.acyclic_of {s s' : Sheet} (h : s.CachesApart s')
    (hs : s.Acyclic) : s'.Acyclic := by
  apply Sheet.Acyclic.of_subrelation _ hs
  intro a b hab
  unfold Sheet.ReadsFrom at hab ⊢
  rw [h.refsAt_eq] at hab
  exact hab

/-! ## Edits keep the caches coherent -/

theorem Sheet.refsAt_eq_implAt (s : Sheet) (q : Position) :
    s.refsAt q = (s.implAt q).GetReferencedCells := by
  unfold Sheet.refsAt Sheet.implAt
  cases s.cellAt q <;> simp [Cell.GetReferencedCells, Impl.GetReferencedCells]

theorem Sheet.CachesCoherent.of_sameContent {s s' : Sheet}
    (h : ∀ q, s'.implAt q = s.implAt q) (hs : s.CachesCoherent) : s'.CachesCoherent := by
  apply Sheet.CachesCoherent.of_sameSkeleton (s := s) (fun q => by rw [h q])
  intro p f v hp
  rw [h p] at hp
  exact hs p f v hp

theorem SetResult.cachesCoherent {s : Sheet} {self : Position} {impl : Impl} {s' : Sheet}
    {V : List Position} (h : SetResult s self impl s' V) (hself : s.cellAt self ≠ none)
    (hsym : s'.Symmetric) (hs : s.CachesCoherent) : s'.CachesCoherent := by
  have hselfV : self ∈ V := (h.1 self).mpr Relation.ReflTransGen.refl
  have himpl : ∀ q, q ∉ V → s'.implAt q = s.implAt q := by
    intro q hq
    have hne : q ≠ self := fun e => hq (e ▸ hselfV)
    rw [h.implAt hself q]
    simp [hq, hne]
  have hclosed : ∀ q, q ∉ V → ∀ r ∈ (s.implAt q).GetReferencedCells, r ∉ V := by
    intro q hq r hr hrV
    have hne : q ≠ self := fun e => hq (e ▸ hselfV)
    have hr' : r ∈ s'.refsAt q := by
      rw [h.refsAt hself q, if_neg hne, Sheet.refsAt_eq_implAt]; exact hr
    have hdep : q ∈ s'.dependentsAt r := (hsym q r).mp hr'
    exact hq ((h.1 q).mpr (Relation.ReflTransGen.tail ((h.1 r).mp hrV) hdep))
  have hskel : ∀ q, q ∉ V → (s.implAt q).ClearCache = (s'.implAt q).ClearCache :=
    fun q hq => by rw [himpl q hq]
  intro p f v hp
  have hpV : p ∉ V := by
    intro hpV
    rw [h.implAt hself p, if_pos hpV] at hp
    have := Impl.ClearCache_cache (if p = self then impl else s.implAt p)
    rw [hp] at this
    simp [Impl.cache] at this
  have hp' : s.implAt p = .FormulaImpl f (some v) := by rw [← himpl p hpV]; exact hp
  obtain ⟨k, hk⟩ := hs p f v hp'
  refine ⟨k, ?_⟩
  rw [← hk]
  symm
  apply pureEvaluation_congr (fun q => q ∈ V) s s' _ _ hskel
    (Sheet.trueValue_congr (fun q => q ∈ V) s s' hskel hclosed k) f.GetReferencedCells _
    f.Evaluate f.reads_refs
  have := hclosed p hpV
  rw [hp'] at this
  exact this

theorem Sheet.SetCell_cachesCoherent (ParseFormula : String → Option FormulaInterface)
    (s : Sheet) (pos : Position) (text : String) (hsym : s.Symmetric)
    (hs : s.CachesCoherent) : (Sheet.SetCell ParseFormula s pos text).1.CachesCoherent := by
  have hsym' := Sheet.SetCell_symmetric ParseFormula s pos text hsym
  by_cases hv : pos.IsValid = true
  · have hn := Position.nonneg_of_IsValid hv
    have hs1 : (s.ensureCell pos).CachesCoherent :=
      Sheet.CachesCoherent.of_sameContent (Sheet.implAt_ensureCell s pos hn) hs
    have hself : (s.ensureCell pos).cellAt pos ≠ none := by
      rw [Sheet.ensureCell_spec s pos hn]; simp
    rcases Sheet.SetCell_spec ParseFormula s pos text hv with
      ⟨_, h⟩ | ⟨impl, _, _, h⟩ | ⟨impl, _, _, s', V, h, hV, hcell⟩
    · rw [h]; exact hs1
    · rw [h]; exact hs1
    · rw [h] at hsym' ⊢
      exact SetResult.cachesCoherent ⟨hV, hcell⟩ hself hsym' hs1
  · rw [Sheet.SetCell_invalid ParseFormula s pos text (by simpa using hv)]
    exact hs

theorem Sheet.ClearCell_cachesCoherent (ParseFormula : String → Option FormulaInterface)
    (s : Sheet) (pos : Position) (hsym : s.Symmetric) (hs : s.CachesCoherent) :
    (Sheet.ClearCell ParseFormula s pos).1.CachesCoherent := by
  by_cases hv : pos.IsValid = true
  · cases hc : s.cellAt pos with
    | none => rw [Sheet.ClearCell_absent ParseFormula s pos hv hc]; exact hs
    | some c =>
      obtain ⟨s1, V, c1, hres, hc1, himpl, s2, h2, hcell2⟩ :=
        Sheet.ClearCell_present ParseFormula s pos hv hc
      rw [h2]
      have hs1 : s1.CachesCoherent :=
        hres.cachesCoherent (by simp [hc]) (hres.symmetric (by simp [hc]) hsym) hs
      apply Sheet.CachesCoherent.of_sameContent _ hs1
      intro q
      unfold Sheet.implAt
      rw [hcell2]
      split
      · rename_i hq
        rw [hq.1, hc1]
        simp [himpl]
      · rfl
  · rw [Sheet.ClearCell_invalid ParseFormula s pos (by simpa using hv)]
    exact hs

/-! ## Sheets reachable by edits and reads -/

theorem Sheet.implAt_create (p : Position) : CreateSheet.implAt p = .EmptyImpl := by
  simp [Sheet.implAt, Sheet.cellAt_create]

theorem ReadReachable.invariants {ParseFormula : String → Option FormulaInterface} {s : Sheet}
    (h : ReadReachable ParseFormula s) : s.Symmetric ∧ s.Acyclic ∧ s.CachesCoherent := by
  induction h with
  | create =>
    refine ⟨Sheet.symmetric_create, Sheet.acyclic_create, ?_⟩
    intro p f v hp
    rw [Sheet.implAt_create] at hp
    simp at hp
  | setCell s pos text _ ih =>
    exact ⟨Sheet.SetCell_symmetric ParseFormula s pos text ih.1,
      Sheet.SetCell_acyclic ParseFormula s pos text ih.2.1,
      Sheet.SetCell_cachesCoherent ParseFormula s pos text ih.1 ih.2.2⟩
  | clearCell s pos _ ih =>
    exact ⟨Sheet.ClearCell_symmetric ParseFormula s pos ih.1,
      Sheet.ClearCell_acyclic ParseFormula s pos ih.2.1,
      Sheet.ClearCell_cachesCoherent ParseFormula s pos ih.1 ih.2.2⟩
  | getValue s fuel pos _ ih =>
    have hfr := Cell.GetValue_cachesApart fuel s pos
    refine ⟨hfr.symmetric_of ih.1, hfr.acyclic_of ih.2.1, ?_⟩
    exact (Cell.GetValue_coherent fuel s pos _ _ ih.2.2 rfl).2.1

/-! ## `GetValue` returns on an acyclic sheet -/

theorem Sheet.CachesApart.stored_iff {s s' : Sheet} (h : s.CachesApart s') (q : Position) :
    s'.cellAt q = none ↔ s.cellAt q = none := by
  have := h q
  cases h1 : s'.cellAt q <;> cases h2 : s.cellAt q <;> rw [h1, h2] at this <;> simp at this ⊢

theorem runEvaluation_returns (gv : Sheet → Position → Sheet × Except Stop Value)
    (s0 : Sheet) (R : List Position)
    (hfr : ∀ (s : Sheet) (p : Position), s.CachesApart (gv s p).1)
    (hgv : ∀ (s : Sheet) (r : Position), s0.CachesApart s → r ∈ R →
      ∃ s1 v, gv s r = (s1, .ok v)) :
    ∀ prog : Evaluation, prog.ReadsWithin R → (∀ r ∈ R, r.IsValid = true) →
      ∀ s : Sheet, s0.CachesApart s → ∃ s1 v, runEvaluation gv prog s = (s1, .ok v) := by
  intro prog hprog hval
  induction hprog with
  | done v => intro s _; exact ⟨s, v, rfl⟩
  | lookup pos k hpos _ ih =>
    intro s hs
    rw [runEvaluation_lookup]
    simp only [hval pos hpos, if_true]
    by_cases ht : (s.implAt pos).GetText.isEmpty = true
    · simp only [ht, if_true]; exact ih none s hs
    · simp only [ht, if_false]
      obtain ⟨s1, v, hg⟩ := hgv s pos hs hpos
      have hfr1 := hfr s pos
      rw [hg] at hfr1 ⊢
      exact ih (some v) s1 (hs.trans_apart hfr1)

theorem Cell.GetValue_returns (s0 : Sheet) (hacyc : s0.Acyclic) :
    ∀ (fuel : Nat) (s : Sheet) (p : Position) (chain : List Position),
      s0.CachesApart s → chain.Nodup → (∀ c ∈ chain, s0.cellAt c ≠ none) →
      (∀ c ∈ chain, Relation.TransGen s0.ReadsFrom c p) →
      s0.slotCount + 1 ≤ fuel + chain.length →
      ∃ s1 v, Cell.GetValue fuel s p = (s1, .ok v) := by
  intro fuel
  induction fuel with
  | zero =>
    intro s p chain _ hnd hst _ hfuel
    have hsub : chain ⊆ s0.positions := by
      intro c hc
      cases h : s0.cellAt c with
      | none => exact absurd h (hst c hc)
      | some x => exact Sheet.mem_positions h
    have := (List.subperm_of_subset hnd hsub).length_le
    rw [Sheet.positions_length] at this
    omega
  | succ fuel ih =>
    intro s p chain hs hnd hst hreach hfuel
    rw [Cell.GetValue_succ]
    cases hi : s.implAt p with
    | EmptyImpl => exact ⟨s, _, rfl⟩
    | TextImpl t => exact ⟨s, _, rfl⟩
    | FormulaImpl f c =>
      cases c with
      | some w => exact ⟨s, _, rfl⟩
      | none =>
        simp only
        have hrefs : s0.refsAt p = f.GetReferencedCells := by
          rw [← hs.refsAt_eq, Sheet.refsAt_eq_implAt, hi]; rfl
        have hp0 : s0.cellAt p ≠ none := by
          intro h0
          have : s0.refsAt p = [] := by simp [Sheet.refsAt, h0]
          have hs' : s.cellAt p = none := (hs.stored_iff p).mpr h0
          simp [Sheet.implAt, hs'] at hi
        have hpnot : p ∉ chain := fun hp => hacyc p (hreach p hp)
        have hgv : ∀ (s' : Sheet) (r : Position), s0.CachesApart s' →
            r ∈ f.GetReferencedCells → ∃ s1 v, Cell.GetValue fuel s' r = (s1, .ok v) := by
          intro s' r hs' hr
          have hpr : s0.ReadsFrom p r := by unfold Sheet.ReadsFrom; rw [hrefs]; exact hr
          apply ih s' r (p :: chain) hs' (List.nodup_cons.mpr ⟨hpnot, hnd⟩)
          · intro c hc
            rcases List.mem_cons.mp hc with rfl | hc
            · exact hp0
            · exact hst c hc
          · intro c hc
            rcases List.mem_cons.mp hc with rfl | hc
            · exact Relation.TransGen.single hpr
            · exact Relation.TransGen.tail (hreach c hc) hpr
          · simp only [List.length_cons]; omega
        obtain ⟨s1, v, hrun⟩ := runEvaluation_returns (Cell.GetValue fuel) s0
          f.GetReferencedCells (Cell.GetValue_cachesApart fuel) hgv f.Evaluate f.reads_refs
          f.refs_valid s hs
        rw [hrun]
        exact ⟨_, _, rfl⟩

/-! ## Cache coherence -/

/-- C5: cache coherence is an invariant.  In every sheet reachable from the empty sheet by
`SetCell`, `ClearCell` and `GetValue` calls in any order, every formula cell whose cache is
present holds the value of its expression on the current content of the cells it reads,
directly or transitively (caches not consulted), which is also what running the evaluation
now returns.  Moreover `GetValue` of any cell returns when given as many steps as the grid
has slots plus one, and whatever `GetValue` returns is the value of the cell on the
current content of the sheet, so a read after an edit of an upstream cell reflects that
edit. -/
theorem cache_coherence_invariant (ParseFormula : String → Option FormulaInterface)
    (s : Sheet) (h : ReadReachable ParseFormula s) :
    (∀ p c f v, s.cellAt p = some c → c.impl_ = .FormulaImpl f (some v) →
      (∃ fuel, pureEvaluation s (s.trueValue fuel) f.Evaluate = some v) ∧
      (∃ s1, runEvaluation (Cell.GetValue (s.slotCount + 1)) f.Evaluate s = (s1, .ok v)) ∧
      (∀ fuel s1 w, runEvaluation (Cell.GetValue fuel) f.Evaluate s = (s1, .ok w) → w = v)) ∧
    (∀ p, ∃ s1 v, Cell.GetValue (s.slotCount + 1) s p = (s1, .ok v)) ∧
    (∀ fuel p s1 w, Cell.GetValue fuel s p = (s1, .ok w) → ∃ k, s.trueValue k p = some w) := by
  obtain ⟨_, hacyc, hcoh⟩ := h.invariants
  refine ⟨?_, ?_, ?_⟩
  · intro p c f v hc hi
    have hp : s.implAt p = .FormulaImpl f (some v) := by simp [Sheet.implAt, hc, hi]
    obtain ⟨k1, hk1⟩ := hcoh p f v hp
    have same : ∀ fuel s1 w,
        runEvaluation (Cell.GetValue fuel) f.Evaluate s = (s1, .ok w) → w = v := by
      intro fuel s1 w hrun
      obtain ⟨_, _, h3⟩ := runEvaluation_coherent (Cell.GetValue fuel)
        (Cell.GetValue_coherent fuel) f.Evaluate s s1 _ hcoh hrun
      obtain ⟨k2, hk2⟩ := h3 w rfl
      have e1 := pureEvaluation_trueValue_mono s _ v (le_max_left k1 k2) hk1
      have e2 := pureEvaluation_trueValue_mono s _ w (le_max_right k1 k2) hk2
      rw [e1] at e2
      exact (Option.some.inj e2).symm
    refine ⟨⟨k1, hk1⟩, ?_, same⟩
    obtain ⟨s1, w, hrun⟩ := runEvaluation_returns (Cell.GetValue (s.slotCount + 1)) s
      f.GetReferencedCells (Cell.GetValue_cachesApart _)
      (fun s' r hs' _ => Cell.GetValue_returns s hacyc (s.slotCount + 1) s' r [] hs'
        List.nodup_nil (fun c hc => absurd hc (List.not_mem_nil c))
        (fun c hc => absurd hc (List.not_mem_nil c)) (by simp))
      f.Evaluate f.reads_refs f.refs_valid s (Sheet.CachesApart.refl_apart s)
    have := same _ s1 w hrun
    subst this
    exact ⟨s1, hrun⟩
  · intro p
    exact Cell.GetValue_returns s hacyc (s.slotCount + 1) s p [] (Sheet.CachesApart.refl_apart s)
      List.nodup_nil (fun c hc => absurd hc (List.not_mem_nil c))
      (fun c hc => absurd hc (List.not_mem_nil c)) (by simp)
  · intro fuel p s1 w hg
    exact (Cell.GetValue_coherent fuel s p s1 _ hcoh hg).2.2 w rfl

theorem cache_coherence_invariant_witness :
    ReadReachable demoParse
      (Sheet.SetCell demoParse
        (Cell.GetValue 3
          (Sheet.SetCell demoParse (Sheet.SetCell demoParse CreateSheet ⟨0, 0⟩ "5").1
            ⟨1, 0⟩ "=A1").1 ⟨1, 0⟩).1 ⟨0, 0⟩ "10").1 ∧
    (Cell.GetValue 3
      (Sheet.SetCell demoParse
        (Cell.GetValue 3
          (Sheet.SetCell demoParse (Sheet.SetCell demoParse CreateSheet ⟨0, 0⟩ "5").1
            ⟨1, 0⟩ "=A1").1 ⟨1, 0⟩).1 ⟨0, 0⟩ "10").1 ⟨1, 0⟩).2 = .ok (.number ⟨10⟩) ∧
    ∀ fuel p s1 w,
      Cell.GetValue fuel
        (Sheet.SetCell demoParse
          (Cell.GetValue 3
            (Sheet.SetCell demoParse (Sheet.SetCell demoParse CreateSheet ⟨0, 0⟩ "5").1
              ⟨1, 0⟩ "=A1").1 ⟨1, 0⟩).1 ⟨0, 0⟩ "10").1 p = (s1, .ok w) →
      ∃ k,
        (Sheet.SetCell demoParse
          (Cell.GetValue 3
            (Sheet.SetCell demoParse (Sheet.SetCell demoParse CreateSheet ⟨0, 0⟩ "5").1
              ⟨1, 0⟩ "=A1").1 ⟨1, 0⟩).1 ⟨0, 0⟩ "10").1.trueValue k p = some w :=
  ⟨ReadReachable.setCell _ _ _ (ReadReachable.getValue _ _ _
      (ReadReachable.setCell _ _ _ (ReadReachable.setCell _ _ _ ReadReachable.create))),
    by rfl,
    (cache_coherence_invariant demoParse _
      (ReadReachable.setCell _ _ _ (ReadReachable.getValue _ _ _
        (ReadReachable.setCell _ _ _ (ReadReachable.setCell _ _ _ ReadReachable.create))))).2.2⟩

/-! ## The content installed by an edit -/

/-- An accepted `SetCell` leaves at `pos` the implementation built from the text. -/
theorem Sheet.SetCell_installs (ParseFormula : String → Option FormulaInterface)
    (s : Sheet) (pos : Position) (text : String) (hv : pos.IsValid = true) (impl : Impl)
    (hm : Cell.makeImpl ParseFormula text = some impl)
    (hacc : (Sheet.SetCell ParseFormula s pos text).2 = none) :
    (Sheet.SetCell ParseFormula s pos text).1.implAt pos = impl.ClearCache := by
  have hn := Position.nonneg_of_IsValid hv
  have hself : (s.ensureCell pos).cellAt pos ≠ none := by
    rw [Sheet.ensureCell_spec s pos hn]; simp
  rcases Sheet.SetCell_spec ParseFormula s pos text hv with
    ⟨_, h⟩ | ⟨_, _, _, h⟩ | ⟨impl', himpl', _, s', V, h, hV, hcell⟩
  · rw [h] at hacc; simp at hacc
  · rw [h] at hacc; simp at hacc
  · rw [hm] at himpl'
    cases himpl'
    rw [h]
    have hres : SetResult (s.ensureCell pos) pos impl s' V := ⟨hV, hcell⟩
    have hVpos : pos ∈ V := (hV pos).mpr Relation.ReflTransGen.refl
    rw [hres.implAt hself pos]
    simp [hVpos]

/-- A text whose implementation refers to no cell is always accepted. -/
theorem Sheet.SetCell_accepts_unreferencing (ParseFormula : String → Option FormulaInterface)
    (s : Sheet) (pos : Position) (text : String) (hv : pos.IsValid = true) (impl : Impl)
    (hm : Cell.makeImpl ParseFormula text = some impl)
    (hrefs : impl.GetReferencedCells = []) :
    (Sheet.SetCell ParseFormula s pos text).2 = none := by
  rcases Sheet.SetCell_spec ParseFormula s pos text hv with
    ⟨hnone, _⟩ | ⟨impl', himpl', hcyc, _⟩ | ⟨_, _, _, s', V, h, _, _⟩
  · rw [hm] at hnone; simp at hnone
  · rw [hm] at himpl'
    cases himpl'
    obtain ⟨r, hr, _⟩ := hcyc
    rw [hrefs] at hr
    exact absurd hr (List.not_mem_nil r)
  · rw [h]

theorem Sheet.SetCell_formula_error (ParseFormula : String → Option FormulaInterface)
    (s : Sheet) (pos : Position) (text : String) (hv : pos.IsValid = true)
    (hm : Cell.makeImpl ParseFormula text = none) :
    (Sheet.SetCell ParseFormula s pos text).2 = some (.thrown .FormulaException) := by
  rcases Sheet.SetCell_spec ParseFormula s pos text hv with
    ⟨_, h⟩ | ⟨impl', himpl', _, _⟩ | ⟨impl', himpl', _, _⟩
  · rw [h]
  · rw [hm] at himpl'; simp at himpl'
  · rw [hm] at himpl'; simp at himpl'

/-- C7: content classification.  Step 2 of `Cell::Set` gives the empty implementation for
the empty text, a formula built from the text after the sign (or the compile error of
that remainder) for a text longer than one character that starts with the formula sign,
and a text implementation holding the text unchanged for every other text; `"="` alone is
a text whatever the formula compiler does.  Accordingly `SetCell` at a valid position
always accepts an empty or literal text and leaves that content in the cell, and for a
formula text it either throws the compile error or, when it accepts, leaves the parsed
formula with an absent cache in the cell. -/
theorem content_classification (ParseFormula : String → Option FormulaInterface)
    (s : Sheet) (pos : Position) (text : String) (hv : pos.IsValid = true) :
    (text = "" →
      Cell.makeImpl ParseFormula text = some .EmptyImpl ∧
      (Sheet.SetCell ParseFormula s pos text).2 = none ∧
      (Sheet.SetCell ParseFormula s pos text).1.implAt pos = .EmptyImpl) ∧
    (text.length > 1 ∧ text.front = FORMULA_SIGN →
      Cell.makeImpl ParseFormula text =
        ((ParseFormula (text.drop 1)).map fun f => .FormulaImpl f none) ∧
      (ParseFormula (text.drop 1) = none →
        (Sheet.SetCell ParseFormula s pos text).2 = some (.thrown .FormulaException)) ∧
      (∀ f, ParseFormula (text.drop 1) = some f →
        (Sheet.SetCell ParseFormula s pos text).2 = none →
        (Sheet.SetCell ParseFormula s pos text).1.implAt pos = .FormulaImpl f none)) ∧
    (text ≠ "" ∧ ¬ (text.length > 1 ∧ text.front = FORMULA_SIGN) →
      Cell.makeImpl ParseFormula text = some (.TextImpl text) ∧
      (Sheet.SetCell ParseFormula s pos text).2 = none ∧
      (Sheet.SetCell ParseFormula s pos text).1.implAt pos = .TextImpl text) ∧
    (∀ parse : String → Option FormulaInterface,
      Cell.makeImpl parse "=" = some (.TextImpl "=") ∧
      (Sheet.SetCell parse s pos "=").2 = none ∧
      (Sheet.SetCell parse s pos "=").1.implAt pos = .TextImpl "=") := by
  have literal : ∀ (parse : String → Option FormulaInterface) (t : String), t ≠ "" →
      ¬ (t.length > 1 ∧ t.front = FORMULA_SIGN) →
      Cell.makeImpl parse t = some (.TextImpl t) ∧
      (Sheet.SetCell parse s pos t).2 = none ∧
      (Sheet.SetCell parse s pos t).1.implAt pos = .TextImpl t := by
    intro parse t hne hnf
    have hm := Cell.makeImpl_text parse t hne hnf
    have hacc := Sheet.SetCell_accepts_unreferencing parse s pos t hv _ hm rfl
    exact ⟨hm, hacc, Sheet.SetCell_installs parse s pos t hv _ hm hacc⟩
  refine ⟨?_, ?_, ?_, ?_⟩
  · intro h
    subst h
    have hm := Cell.makeImpl_empty ParseFormula
    have hacc := Sheet.SetCell_accepts_unreferencing ParseFormula s pos "" hv _ hm rfl
    exact ⟨hm, hacc, Sheet.SetCell_installs ParseFormula s pos "" hv _ hm hacc⟩
  · intro h
    have hm := Cell.makeImpl_formula ParseFormula text h.1 h.2
    refine ⟨hm, ?_, ?_⟩
    · intro hnone
      apply Sheet.SetCell_formula_error ParseFormula s pos text hv
      rw [hm, hnone]; rfl
    · intro f hf hacc
      have hm' : Cell.makeImpl ParseFormula text = some (.FormulaImpl f none) := by
        rw [hm, hf]; rfl
      exact Sheet.SetCell_installs ParseFormula s pos text hv _ hm' hacc
  · intro h
    exact literal ParseFormula text h.1 h.2
  · intro parse
    exact literal parse "=" (by decide) (by decide)

theorem content_classification_witness :
    (⟨0, 0⟩ : Position).IsValid = true ∧
    ∀ parse : String → Option FormulaInterface,
      Cell.makeImpl parse "=" = some (.TextImpl "=") ∧
      (Sheet.SetCell parse CreateSheet ⟨0, 0⟩ "=").2 = none ∧
      (Sheet.SetCell parse CreateSheet ⟨0, 0⟩ "=").1.implAt ⟨0, 0⟩ = .TextImpl "=" :=
  ⟨by decide, (content_classification demoParse CreateSheet ⟨0, 0⟩ "=A1" (by decide)).2.2.2⟩

/-! ## Escape handling -/

theorem String.front_of_data_cons {T : String} {c : Char} {cs : List Char}
    (h : T.data = c :: cs) : T.front = c := by
  cases T with
  | mk d =>
    simp only at h
    subst h
    simp [String.front, String.get, String.utf8GetAux]

theorem textValue_escaped {T : String} (h : T.data.head? = some ESCAPE_SIGN) :
    textValue T = .text (T.drop 1) := by
  unfold textValue
  cases hd : T.data with
  | nil => rw [hd] at h; simp at h
  | cons c cs =>
    rw [hd] at h
    simp only [List.head?_cons, Option.some.injEq] at h
    have hne : T.isEmpty = false := by
      rw [Bool.eq_false_iff]
      intro he
      rw [(String.isEmpty_iff T).mp he] at hd
      simp at hd
    rw [hne, String.front_of_data_cons hd, h]
    simp

theorem textValue_plain {T : String} (h : T.data.head? ≠ some ESCAPE_SIGN) :
    textValue T = .text T := by
  unfold textValue
  cases hd : T.data with
  | nil =>
    have : T.isEmpty = true := by
      rw [String.isEmpty_iff]
      apply String.ext
      rw [hd]
    rw [this]
    simp
  | cons c cs =>
    rw [hd] at h
    simp only [List.head?_cons, ne_eq, Option.some.injEq] at h
    rw [String.front_of_data_cons hd]
    simp [h]

theorem Cell.GetValue_text (fuel : Nat) (s : Sheet) (p : Position) (T : String)
    (h : s.implAt p = .TextImpl T) :
    Cell.GetValue (fuel + 1) s p = (s, .ok (textValue T)) := by
  rw [Cell.GetValue_succ, h]

/-- C11: escape handling happens at read time only.  For a stored cell holding the
literal text `T`, `GetValue` returns, without changing the sheet, the text `T` with its
first character removed when `T` begins with the escape sign, and the text `T` itself
otherwise (in particular for the empty text); the value is a text in both cases, never a
number or an error. -/
theorem escape_at_read_time (s : Sheet) (p : Position) (c : Cell) (T : String) (fuel : Nat)
    (hc : s.cellAt p = some c) (hi : c.impl_ = .TextImpl T) :
    (T.data.head? = some ESCAPE_SIGN →
      Cell.GetValue (fuel + 1) s p = (s, .ok (.text (T.drop 1))) ∧
        (T.drop 1).data = T.data.tail) ∧
    (T.data.head? ≠ some ESCAPE_SIGN →
      Cell.GetValue (fuel + 1) s p = (s, .ok (.text T))) ∧
    ∃ t, Cell.GetValue (fuel + 1) s p = (s, .ok (.text t)) := by
  have himpl : s.implAt p = .TextImpl T := by simp [Sheet.implAt, hc, hi]
  have hg := Cell.GetValue_text fuel s p T himpl
  refine ⟨?_, ?_, ?_⟩
  · intro h
    refine ⟨by rw [hg, textValue_escaped h], ?_⟩
    rw [String.data_drop]
    cases T.data <;> rfl
  · intro h
    rw [hg, textValue_plain h]
  · by_cases h : T.data.head? = some ESCAPE_SIGN
    · exact ⟨_, by rw [hg, textValue_escaped h]⟩
    · exact ⟨_, by rw [hg, textValue_plain h]⟩

theorem escape_at_read_time_witness :
    (∃ c, (Sheet.SetCell demoParse CreateSheet ⟨0, 0⟩ "'5").1.cellAt ⟨0, 0⟩ = some c ∧
      c.impl_ = .TextImpl "'5") ∧
    (Cell.GetValue 1 (Sheet.SetCell demoParse CreateSheet ⟨0, 0⟩ "'5").1 ⟨0, 0⟩).2 =
      .ok (.text "5") ∧
    (Cell.GetValue 1 (Sheet.SetCell demoParse CreateSheet ⟨0, 0⟩ "'").1 ⟨0, 0⟩).2 =
      .ok (.text "") ∧
    ("'5".data.head? = some ESCAPE_SIGN →
      Cell.GetValue 1 (Sheet.SetCell demoParse CreateSheet ⟨0, 0⟩ "'5").1 ⟨0, 0⟩ =
        ((Sheet.SetCell demoParse CreateSheet ⟨0, 0⟩ "'5").1, .ok (.text ("'5".drop 1))) ∧
      ("'5".drop 1).data = "'5".data.tail) :=
  ⟨⟨_, rfl, rfl⟩, by rfl, by rfl,
    (escape_at_read_time (Sheet.SetCell demoParse CreateSheet ⟨0, 0⟩ "'5").1 ⟨0, 0⟩ _ "'5" 0
      rfl rfl).1⟩

/-! ## Further consequences of the edit characterisation -/

theorem Reachable.readReachable {ParseFormula : String → Option FormulaInterface} {s : Sheet}
    (h : Reachable ParseFormula s) : ReadReachable ParseFormula s := by
  induction h with
  | create => exact ReadReachable.create
  | setCell s pos text _ ih => exact ReadReachable.setCell s pos text ih
  | clearCell s pos _ ih => exact ReadReachable.clearCell s pos ih

theorem Sheet.ClearCell_returns (ParseFormula : String → Option FormulaInterface)
    (s : Sheet) (pos : Position) (hv : pos.IsValid = true) :
    (Sheet.ClearCell ParseFormula s pos).2 = none := by
  cases hc : s.cellAt pos with
  | none => rw [Sheet.ClearCell_absent ParseFormula s pos hv hc]
  | some c =>
    obtain ⟨_, _, _, _, _, _, s2, h2, _⟩ := Sheet.ClearCell_present ParseFormula s pos hv hc
    rw [h2]

/-- An accepted `SetCell` is an accepted `Cell::Set` on the sheet with the target cell
created. -/
theorem Sheet.SetCell_accepted_result (ParseFormula : String → Option FormulaInterface)
    (s : Sheet) (pos : Position) (text : String)
    (hacc : (Sheet.SetCell ParseFormula s pos text).2 = none) :
    pos.IsValid = true ∧ ∃ (impl : Impl) (V : List Position),
      Cell.makeImpl ParseFormula text = some impl ∧
      SetResult (s.ensureCell pos) pos impl (Sheet.SetCell ParseFormula s pos text).1 V := by
  by_cases hv : pos.IsValid = true
  · refine ⟨hv, ?_⟩
    rcases Sheet.SetCell_spec ParseFormula s pos text hv with
      ⟨_, h⟩ | ⟨_, _, _, h⟩ | ⟨impl, himpl, _, s', V, h, hV, hcell⟩
    · rw [h] at hacc; simp at hacc
    · rw [h] at hacc; simp at hacc
    · rw [h]; exact ⟨impl, V, himpl, hV, hcell⟩
  · rw [Sheet.SetCell_invalid ParseFormula s pos text (by simpa using hv)] at hacc
    simp at hacc

theorem Cell.rewired_absent (s : Sheet) (self : Position) (impl : Impl) (q : Position)
    (hq : q ≠ self) (hc : s.cellAt q = none) :
    Cell.rewired s self impl q =
      if q ∈ impl.GetReferencedCells then some ⟨.EmptyImpl, [self]⟩ else none := by
  unfold Cell.rewired
  by_cases h1 : q ∈ impl.GetReferencedCells <;>
    simp [hq, hc, h1, Cell.new, Cell.insertDependent]

theorem Cell.rewired_present (s : Sheet) (self : Position) (impl : Impl) (q : Position)
    (hq : q ≠ self) {c : Cell} (hc : s.cellAt q = some c) :
    ∃ c', Cell.rewired s self impl q = some c' ∧ c'.impl_ = c.impl_ := by
  unfold Cell.rewired
  by_cases h1 : q ∈ impl.GetReferencedCells <;> by_cases h2 : q ∈ s.refsAt self <;>
    simp [hq, hc, h1, h2, Cell.insertDependent, Cell.eraseDependent]

theorem Cell.resetCache_dependets (c : Cell) : c.resetCache.dependets_ = c.dependets_ := rfl

theorem Cell.resetCache_impl (c : Cell) : c.resetCache.impl_ = c.impl_.ClearCache := rfl

/-- What an accepted `Cell::Set` leaves at a position other than its target. -/
theorem SetResult.cellAt_other {s : Sheet} {self : Position} {impl : Impl} {s' : Sheet}
    {V : List Position} (h : SetResult s self impl s' V) (q : Position) (hq : q ≠ self) :
    (∀ c, s.cellAt q = some c →
      ∃ c', s'.cellAt q = some c' ∧ c'.impl_.ClearCache = c.impl_.ClearCache) ∧
    (s.cellAt q = none → ∀ c', s'.cellAt q = some c' →
      c'.impl_ = .EmptyImpl ∧ c'.dependets_ = [self] ∧ q ∈ impl.GetReferencedCells) := by
  constructor
  · intro c hc
    obtain ⟨c1, hc1, himpl⟩ := Cell.rewired_present s self impl q hq hc
    rw [h.2 q, hc1]
    by_cases hV : q ∈ V
    · refine ⟨c1.resetCache, by simp [hV], ?_⟩
      rw [Cell.resetCache_impl, himpl]
      cases c.impl_ <;> rfl
    · exact ⟨c1, by simp [hV], by rw [himpl]⟩
  · intro hc c' hc'
    rw [h.2 q, Cell.rewired_absent s self impl q hq hc] at hc'
    by_cases h1 : q ∈ impl.GetReferencedCells
    · simp only [h1, if_true, Option.map_some'] at hc'
      by_cases hV : q ∈ V
      · simp only [hV, if_true, Option.some.injEq] at hc'
        subst hc'
        exact ⟨rfl, rfl, h1⟩
      · simp only [hV, if_false, Option.some.injEq] at hc'
        subst hc'
        exact ⟨rfl, rfl, h1⟩
    · simp [h1] at hc'

theorem Sheet.ensureCell_other (s : Sheet) (pos : Position) (hn : 0 ≤ pos.row ∧ 0 ≤ pos.col)
    (q : Position) (hq : q ≠ pos) : (s.ensureCell pos).cellAt q = s.cellAt q := by
  rw [Sheet.ensureCell_spec s pos hn, if_neg hq]

/-- `SetCell` never removes a stored cell. -/
theorem Sheet.SetCell_keeps_cells (ParseFormula : String → Option FormulaInterface)
    (s : Sheet) (pos : Position) (text : String) (q : Position)
    (hq : (s.cellAt q).isSome = true) :
    ((Sheet.SetCell ParseFormula s pos text).1.cellAt q).isSome = true := by
  by_cases hv : pos.IsValid = true
  · have hn := Position.nonneg_of_IsValid hv
    have hens : ((s.ensureCell pos).cellAt q).isSome = true := by
      rw [Sheet.ensureCell_spec s pos hn]
      by_cases hqp : q = pos <;> simp [hqp, hq]
    rcases Sheet.SetCell_spec ParseFormula s pos text hv with
      ⟨_, h⟩ | ⟨_, _, _, h⟩ | ⟨impl, _, _, s', V, h, hV, hcell⟩
    · rw [h]; exact hens
    · rw [h]; exact hens
    · rw [h]
      have hself : (s.ensureCell pos).cellAt pos ≠ none := by
        rw [Sheet.ensureCell_spec s pos hn]; simp
      have himpl := Cell.rewired_impl (s.ensureCell pos) pos impl q hself
      have hrew : (Cell.rewired (s.ensureCell pos) pos impl q).isSome = true := by
        cases hr : Cell.rewired (s.ensureCell pos) pos impl q with
        | some x => rfl
        | none =>
          rw [hr] at himpl
          by_cases hqp : q = pos
          · simp [hqp] at himpl
          · cases he : (s.ensureCell pos).cellAt q with
            | none => rw [he] at hens; simp at hens
            | some c => simp [hqp, he] at himpl
      simp only [hcell q]
      split
      · cases hr : Cell.rewired (s.ensureCell pos) pos impl q with
        | none => rw [hr] at hrew; simp at hrew
        | some x => rfl
      · exact hrew
  · rw [Sheet.SetCell_invalid ParseFormula s pos text (by simpa using hv)]
    exact hq

/-- C15: invalid positions are rejected before any effect.  For a position that is not
valid, `SetCell`, `GetCell` and `ClearCell` each throw `InvalidPositionException` and the
sheet is exactly the sheet before the call; for a valid position `GetCell` returns a
result and `ClearCell` returns normally, so neither throws. -/
theorem invalid_position_rejected (ParseFormula : String → Option FormulaInterface)
    (s : Sheet) (pos : Position) (text : String) :
    (pos.IsValid = false →
      Sheet.SetCell ParseFormula s pos text = (s, some (.thrown .InvalidPositionException)) ∧
      s.GetCell pos = .error .InvalidPositionException ∧
      Sheet.ClearCell ParseFormula s pos = (s, some (.thrown .InvalidPositionException))) ∧
    (pos.IsValid = true →
      (∃ r, s.GetCell pos = .ok r) ∧ (Sheet.ClearCell ParseFormula s pos).2 = none) := by
  constructor
  · intro hv
    refine ⟨Sheet.SetCell_invalid ParseFormula s pos text hv, ?_,
      Sheet.ClearCell_invalid ParseFormula s pos hv⟩
    rw [Sheet.GetCell_eq]
    simp [hv]
  · intro hv
    exact ⟨⟨_, Sheet.GetCell_isSome s pos hv⟩, Sheet.ClearCell_returns ParseFormula s pos hv⟩

/-- C17: an accepted edit changes only its target.  When `SetCell(pos, text)` returns
normally, every cell stored before at a position `q` other than `pos` is still stored at
`q` with the same content (caches apart), hence the same text and the same referenced
positions; a cell the call created at a position other than `pos` is empty, has the cell
at `pos` as its only dependent and is referenced by the new content; and the dependents
set at a position other than `pos` gains or loses no cell other than the one at `pos`. -/
theorem accepted_edit_frame (ParseFormula : String → Option FormulaInterface)
    (s : Sheet) (pos : Position) (text : String)
    (hacc : (Sheet.SetCell ParseFormula s pos text).2 = none) :
    (∀ q c, q ≠ pos → s.cellAt q = some c →
      ∃ c', (Sheet.SetCell ParseFormula s pos text).1.cellAt q = some c' ∧
        c'.impl_.ClearCache = c.impl_.ClearCache ∧ c'.GetText = c.GetText ∧
        c'.GetReferencedCells = c.GetReferencedCells) ∧
    (∀ q c', q ≠ pos → s.cellAt q = none →
      (Sheet.SetCell ParseFormula s pos text).1.cellAt q = some c' →
      c'.impl_ = .EmptyImpl ∧ c'.dependets_ = [pos] ∧
        q ∈ (Sheet.SetCell ParseFormula s pos text).1.refsAt pos) ∧
    (∀ q a, q ≠ pos → a ≠ pos →
      (a ∈ (Sheet.SetCell ParseFormula s pos text).1.dependentsAt q ↔
        a ∈ s.dependentsAt q)) := by
  obtain ⟨hv, impl, V, _, hres⟩ := Sheet.SetCell_accepted_result ParseFormula s pos text hacc
  have hn := Position.nonneg_of_IsValid hv
  have hself : (s.ensureCell pos).cellAt pos ≠ none := by
    rw [Sheet.ensureCell_spec s pos hn]; simp
  refine ⟨?_, ?_, ?_⟩
  · intro q c hq hc
    rw [← Sheet.ensureCell_other s pos hn q hq] at hc
    obtain ⟨c', hc', himpl⟩ := (hres.cellAt_other q hq).1 c hc
    refine ⟨c', hc', himpl, ?_, ?_⟩
    · simp only [Cell.GetText]
      rw [← Impl.ClearCache_text, himpl, Impl.ClearCache_text]
    · simp only [Cell.GetReferencedCells]
      rw [← Impl.ClearCache_refs, himpl, Impl.ClearCache_refs]
  · intro q c' hq hc hc'
    rw [← Sheet.ensureCell_other s pos hn q hq] at hc
    obtain ⟨h1, h2, h3⟩ := (hres.cellAt_other q hq).2 hc c' hc'
    refine ⟨h1, h2, ?_⟩
    rw [hres.refsAt hself pos, if_pos rfl]
    exact h3
  · intro q a _ ha
    rw [hres.mem_dependentsAt a q, Sheet.dependentsAt_ensureCell s pos hn]
    simp [ha]

theorem accepted_edit_frame_witness :
    (Sheet.SetCell demoParse CreateSheet ⟨0, 0⟩ "=B1").2 = none ∧
    ∀ q c', q ≠ (⟨0, 0⟩ : Position) → CreateSheet.cellAt q = none →
      (Sheet.SetCell demoParse CreateSheet ⟨0, 0⟩ "=B1").1.cellAt q = some c' →
      c'.impl_ = .EmptyImpl ∧ c'.dependets_ = [⟨0, 0⟩] ∧
        q ∈ (Sheet.SetCell demoParse CreateSheet ⟨0, 0⟩ "=B1").1.refsAt ⟨0, 0⟩ :=
  ⟨by decide, (accepted_edit_frame demoParse CreateSheet ⟨0, 0⟩ "=B1" (by decide)).2.1⟩

/-! ## Removal of cells -/

theorem SetResult.clear_self_exact {s : Sheet} {self : Position} {s1 : Sheet}
    {V : List Position} (h : SetResult s self .EmptyImpl s1 V) {c : Cell}
    (hc : s.cellAt self = some c) (hno : self ∉ s.refsAt self) :
    s1.cellAt self = some ⟨.EmptyImpl, c.dependets_⟩ := by
  have hmem : self ∈ V := (h.1 self).mpr Relation.ReflTransGen.refl
  have hrew : Cell.rewired s self .EmptyImpl self = some (Cell.setImpl .EmptyImpl c) := by
    simp [Cell.rewired, hc, Impl.GetReferencedCells, hno]
  rw [h.2 self, if_pos hmem, hrew]
  rfl

theorem Sheet.Acyclic.not_self_ref {s : Sheet} (hs : s.Acyclic) (p : Position) :
    p ∉ s.refsAt p :=
  fun h => hs p (Relation.TransGen.single h)

theorem Sheet.refsAt_ne_nil_stored {s : Sheet} {a b : Position} (h : b ∈ s.refsAt a) :
    (s.cellAt a).isSome = true := by
  unfold Sheet.refsAt at h
  cases hc : s.cellAt a with
  | none => simp [hc] at h
  | some c => rfl

/-- The sheet after `ClearCell` on a stored cell of a sheet without self-reference. -/
theorem Sheet.ClearCell_stored (ParseFormula : String → Option FormulaInterface)
    (s : Sheet) (pos : Position) (hv : pos.IsValid = true) {c : Cell}
    (hc : s.cellAt pos = some c) (hno : pos ∉ s.refsAt pos) :
    ∃ (s1 : Sheet) (V : List Position), SetResult s pos .EmptyImpl s1 V ∧
      Cell.Clear ParseFormula s pos = (s1, none) ∧
      s1.cellAt pos = some ⟨.EmptyImpl, c.dependets_⟩ ∧
      (Sheet.ClearCell ParseFormula s pos).2 = none ∧
      ∀ q, (Sheet.ClearCell ParseFormula s pos).1.cellAt q =
        if q = pos ∧ c.dependets_ = [] then none else s1.cellAt q := by
  obtain ⟨s1, V, c1, hres, hc1, _, s2, h2, hcell2⟩ :=
    Sheet.ClearCell_present ParseFormula s pos hv hc
  have hexact := hres.clear_self_exact hc hno
  rw [hc1] at hexact
  simp only [Option.some.injEq] at hexact
  subst hexact
  obtain ⟨s1', V', hclear, hres'⟩ := Cell.Clear_spec ParseFormula s pos
  -- the two descriptions of `Cell::Clear` are of the same call
  have hsame : ∀ q, s1'.cellAt q = s1.cellAt q := by
    have hedge : ∀ a b, a ∈ s1'.dependentsAt b ↔ a ∈ s1.dependentsAt b :=
      fun a b => by rw [hres'.mem_dependentsAt, hres.mem_dependentsAt]
    have hE : s1'.DependentEdge = s1.DependentEdge := by
      funext a b
      exact propext (hedge b a)
    intro q
    rw [hres'.2 q, hres.2 q]
    have : q ∈ V' ↔ q ∈ V := by rw [hres'.1 q, hres.1 q, hE]
    by_cases hq : q ∈ V
    · simp [hq, this.mpr hq]
    · have hq' : q ∉ V' := fun h' => hq (this.mp h')
      simp [hq, hq']
  refine ⟨s1', V', hres', hclear, by rw [hsame]; exact hc1, by rw [h2], ?_⟩
  intro q
  rw [h2, hcell2, hsame]

/-- C12: clearing a referenced cell keeps it as a dependency target, and only `ClearCell`
removes cells.  On a reachable sheet, `ClearCell` at a valid position holding a cell
returns normally and removes the cell exactly when its dependents set is empty; when it
is not, the cell stays stored, empty and with the same dependents set, `GetCell` reports
it absent and every dependent still lists the position among its referenced positions.
`SetCell` removes no stored cell, whatever its position, text and outcome. -/
theorem clear_keeps_referenced (ParseFormula : String → Option FormulaInterface)
    (s : Sheet) (h : Reachable ParseFormula s) (pos : Position) (c : Cell)
    (hv : pos.IsValid = true) (hc : s.cellAt pos = some c) :
    (Sheet.ClearCell ParseFormula s pos).2 = none ∧
    ((Sheet.ClearCell ParseFormula s pos).1.cellAt pos = none ↔ c.dependets_ = []) ∧
    (c.dependets_ ≠ [] →
      (Sheet.ClearCell ParseFormula s pos).1.cellAt pos = some ⟨.EmptyImpl, c.dependets_⟩ ∧
      (Sheet.ClearCell ParseFormula s pos).1.GetCell pos = .ok none ∧
      ∀ d ∈ c.dependets_, pos ∈ (Sheet.ClearCell ParseFormula s pos).1.refsAt d) ∧
    (∀ (p' : Position) (text : String) (q : Position), (s.cellAt q).isSome = true →
      ((Sheet.SetCell ParseFormula s p' text).1.cellAt q).isSome = true) := by
  obtain ⟨hsym, hacyc, _⟩ := h.readReachable.invariants
  obtain ⟨s1, V, hres, _, hc1, hret, hcell⟩ :=
    Sheet.ClearCell_stored ParseFormula s pos hv hc (hacyc.not_self_ref pos)
  refine ⟨hret, ?_, ?_, fun p' text q hq => Sheet.SetCell_keeps_cells ParseFormula s p' text q hq⟩
  · rw [hcell pos]
    by_cases hd : c.dependets_ = []
    · simp [hd]
    · simp [hd, hc1]
  · intro hd
    have hstay : ∀ q, (Sheet.ClearCell ParseFormula s pos).1.cellAt q = s1.cellAt q := by
      intro q; rw [hcell q]; simp [hd]
    refine ⟨by rw [hstay, hc1], ?_, ?_⟩
    · rw [Sheet.GetCell_isSome _ pos hv, hstay, hc1]
      rfl
    · intro d hdmem
      have hdep : d ∈ s.dependentsAt pos := by simpa [Sheet.dependentsAt, hc] using hdmem
      have href : pos ∈ s.refsAt d := (hsym d pos).mpr hdep
      have hne : d ≠ pos := fun e => hacyc.not_self_ref pos (e ▸ href)
      have : (Sheet.ClearCell ParseFormula s pos).1.refsAt d = s1.refsAt d := by
        unfold Sheet.refsAt; rw [hstay]
      rw [this, hres.refsAt (by simp [hc]) d, if_neg hne]
      exact href

theorem clear_keeps_referenced_witness :
    (Reachable demoParse (Sheet.SetCell demoParse
        (Sheet.SetCell demoParse CreateSheet ⟨0, 0⟩ "7").1 ⟨1, 0⟩ "=A1").1 ∧
      (⟨0, 0⟩ : Position).IsValid = true ∧
      (Sheet.SetCell demoParse (Sheet.SetCell demoParse CreateSheet ⟨0, 0⟩ "7").1
        ⟨1, 0⟩ "=A1").1.cellAt ⟨0, 0⟩ = some ⟨.TextImpl "7", [⟨1, 0⟩]⟩) ∧
    ((Sheet.ClearCell demoParse (Sheet.SetCell demoParse
        (Sheet.SetCell demoParse CreateSheet ⟨0, 0⟩ "7").1 ⟨1, 0⟩ "=A1").1 ⟨0, 0⟩).1.cellAt
          ⟨0, 0⟩ = none ↔ ([⟨1, 0⟩] : List Position) = []) :=
  ⟨⟨Reachable.setCell _ _ _ (Reachable.setCell _ _ _ Reachable.create), by decide, rfl⟩,
    (clear_keeps_referenced demoParse
      (Sheet.SetCell demoParse (Sheet.SetCell demoParse CreateSheet ⟨0, 0⟩ "7").1
        ⟨1, 0⟩ "=A1").1
      (Reachable.setCell _ _ _ (Reachable.setCell _ _ _ Reachable.create)) ⟨0, 0⟩
      ⟨.TextImpl "7", [⟨1, 0⟩]⟩ (by decide) rfl).2.1⟩

/-- C20: removing a cell leaves no dangling back-reference.  On a reachable sheet every
member of the dependents set of a stored cell is itself a stored cell; and when `ClearCell`
runs on a stored cell, that cell is in no dependents set once `Cell::Clear` has returned,
which is the moment the cell may be removed, nor after `ClearCell` as a whole. -/
theorem no_dangling_dependents (ParseFormula : String → Option FormulaInterface)
    (s : Sheet) (h : Reachable ParseFormula s) :
    (∀ b cB a, s.cellAt b = some cB → a ∈ cB.dependets_ → (s.cellAt a).isSome = true) ∧
    (∀ pos c, pos.IsValid = true → s.cellAt pos = some c →
      (∀ q, pos ∉ (Cell.Clear ParseFormula s pos).1.dependentsAt q) ∧
      (∀ q, pos ∉ (Sheet.ClearCell ParseFormula s pos).1.dependentsAt q)) := by
  obtain ⟨hsym, hacyc, _⟩ := h.readReachable.invariants
  constructor
  · intro b cB a hb ha
    have : a ∈ s.dependentsAt b := by simpa [Sheet.dependentsAt, hb] using ha
    exact Sheet.refsAt_ne_nil_stored ((hsym a b).mpr this)
  · intro pos c hv hc
    obtain ⟨s1, V, hres, hclear, _, _, hcell⟩ :=
      Sheet.ClearCell_stored ParseFormula s pos hv hc (hacyc.not_self_ref pos)
    have hsym1 : s1.Symmetric := hres.symmetric (by simp [hc]) hsym
    have hno : ∀ q, pos ∉ s1.dependentsAt q := by
      intro q hq
      have := (hsym1 pos q).mpr hq
      rw [hres.refsAt (by simp [hc]) pos, if_pos rfl] at this
      simp [Impl.GetReferencedCells] at this
    refine ⟨by rw [hclear]; exact hno, ?_⟩
    intro q hq
    apply hno q
    unfold Sheet.dependentsAt at hq ⊢
    rw [hcell q] at hq
    split at hq
    · simp at hq
    · exact hq

theorem no_dangling_dependents_witness :
    Reachable demoParse (Sheet.ClearCell demoParse
      (Sheet.SetCell demoParse CreateSheet ⟨0, 0⟩ "=B1").1 ⟨0, 0⟩).1 ∧
    ∀ b cB a, (Sheet.ClearCell demoParse
        (Sheet.SetCell demoParse CreateSheet ⟨0, 0⟩ "=B1").1 ⟨0, 0⟩).1.cellAt b = some cB →
      a ∈ cB.dependets_ →
      ((Sheet.ClearCell demoParse
        (Sheet.SetCell demoParse CreateSheet ⟨0, 0⟩ "=B1").1 ⟨0, 0⟩).1.cellAt a).isSome = true :=
  ⟨Reachable.clearCell _ _ (Reachable.setCell _ _ _ Reachable.create),
    (no_dangling_dependents demoParse _
      (Reachable.clearCell _ _ (Reachable.setCell _ _ _ Reachable.create))).1⟩

/-! ## What a rejected edit leaves behind -/

theorem Sheet.ensureCell_of_stored (s : Sheet) (pos : Position) {c : Cell}
    (hc : s.cellAt pos = some c) : s.ensureCell pos = s := by
  have hn := Sheet.cellAt_nonneg hc
  have hlt := Sheet.cellAt_lt hc
  have hslot : s.slot pos.row.toNat pos.col.toNat = some c := by
    rw [← Sheet.cellAt_eq_slot hn]; exact hc
  unfold Sheet.ensureCell
  have h1 : ¬ pos.row.toNat ≥ s.table_.length := by omega
  have h2 : ¬ pos.col.toNat ≥ (s.rowAt pos.row.toNat).length := by omega
  simp only [h1, if_false, h2, hslot, Option.isNone_some, Bool.false_eq_true]

/-- C16, as the code has it: a rejected edit creates no cell anywhere but at its target.
When `SetCell(pos, text)` throws `CircularDependencyException` or the compile error, the
sheet is the sheet in which `Cell::Set` was entered: every cell stored before is stored
unchanged, the cell at every position other than `pos` (the referenced positions among
them) is what it was, and when `pos` held a cell the whole sheet equals the sheet before
the call; when `pos` held none, it now holds a new cell with empty content and no
dependents. -/
theorem rejected_edit_state (ParseFormula : String → Option FormulaInterface)
    (s : Sheet) (pos : Position) (text : String)
    (hrej : (Sheet.SetCell ParseFormula s pos text).2 =
        some (.thrown .CircularDependencyException) ∨
      (Sheet.SetCell ParseFormula s pos text).2 = some (.thrown .FormulaException)) :
    (Sheet.SetCell ParseFormula s pos text).1 = s.ensureCell pos ∧
    (∀ q c, s.cellAt q = some c →
      (Sheet.SetCell ParseFormula s pos text).1.cellAt q = some c) ∧
    (∀ q, q ≠ pos → (Sheet.SetCell ParseFormula s pos text).1.cellAt q = s.cellAt q) ∧
    ((s.cellAt pos).isSome = true → (Sheet.SetCell ParseFormula s pos text).1 = s) ∧
    (s.cellAt pos = none →
      (Sheet.SetCell ParseFormula s pos text).1.cellAt pos = some ⟨.EmptyImpl, []⟩) := by
  obtain ⟨hv, hstate⟩ := Sheet.SetCell_rejected_state ParseFormula s pos text hrej
  have hn := Position.nonneg_of_IsValid hv
  rw [hstate]
  refine ⟨rfl, ?_, ?_, ?_, ?_⟩
  · intro q c hc
    rw [Sheet.ensureCell_spec s pos hn]
    by_cases hq : q = pos
    · subst hq; simp [hc]
    · simp [hq, hc]
  · intro q hq
    exact Sheet.ensureCell_other s pos hn q hq
  · intro hsome
    cases hc : s.cellAt pos with
    | none => rw [hc] at hsome; simp at hsome
    | some c => exact Sheet.ensureCell_of_stored s pos hc
  · intro hnone
    rw [Sheet.ensureCell_spec s pos hn, if_pos rfl, hnone]
    rfl

theorem rejected_edit_state_witness :
    ((Sheet.SetCell demoParse CreateSheet ⟨0, 0⟩ "=A1").2 =
        some (.thrown .CircularDependencyException) ∨
      (Sheet.SetCell demoParse CreateSheet ⟨0, 0⟩ "=A1").2 =
        some (.thrown .FormulaException)) ∧
    ∀ q, q ≠ (⟨0, 0⟩ : Position) →
      (Sheet.SetCell demoParse CreateSheet ⟨0, 0⟩ "=A1").1.cellAt q = CreateSheet.cellAt q :=
  ⟨Or.inl (by decide),
    (rejected_edit_state demoParse CreateSheet ⟨0, 0⟩ "=A1" (Or.inl (by decide))).2.2.1⟩

/-- C16 as stated fails: on the empty sheet `SetCell(A1, "=A1")` is rejected with
`CircularDependencyException`, and yet a cell is stored at `A1` afterwards where none was
before, in a grid that has grown from no row to one. -/
theorem rejected_edit_leaks_target_cell :
    (Sheet.SetCell demoParse CreateSheet ⟨0, 0⟩ "=A1").2 =
      some (.thrown .CircularDependencyException) ∧
    (CreateSheet.cellAt ⟨0, 0⟩).isSome = false ∧
    ((Sheet.SetCell demoParse CreateSheet ⟨0, 0⟩ "=A1").1.cellAt ⟨0, 0⟩).isSome = true ∧
    CreateSheet.table_.length = 0 ∧
    (Sheet.SetCell demoParse CreateSheet ⟨0, 0⟩ "=A1").1.table_.length = 1 ∧
    (Sheet.SetCell demoParse CreateSheet ⟨0, 0⟩ "=A1").1.table_ ≠ CreateSheet.table_ := by
  refine ⟨by decide, by decide, by decide, by decide, by decide, ?_⟩
  intro h
  have : (Sheet.SetCell demoParse CreateSheet ⟨0, 0⟩ "=A1").1.table_.length =
      CreateSheet.table_.length := by rw [h]
  revert this
  decide

/-! ## Which cells are collected -/

/-- C19, as the code has it: only the target of `ClearCell` is collected.  After
`ClearCell` at a valid position no cell with an empty dependents set is stored there (the
cleared cell is removed when unreferenced and kept while referenced); `ClearCell` removes no
cell at another position, and `SetCell` removes no cell at all. -/
theorem cleared_target_collected (ParseFormula : String → Option FormulaInterface)
    (s : Sheet) (pos : Position) (hv : pos.IsValid = true) :
    (∀ c, (Sheet.ClearCell ParseFormula s pos).1.cellAt pos = some c → c.dependets_ ≠ []) ∧
    (∀ q, q ≠ pos → (s.cellAt q).isSome = true →
      ((Sheet.ClearCell ParseFormula s pos).1.cellAt q).isSome = true) ∧
    (∀ (p' : Position) (text : String) (q : Position), (s.cellAt q).isSome = true →
      ((Sheet.SetCell ParseFormula s p' text).1.cellAt q).isSome = true) := by
  refine ⟨?_, ?_, fun p' text q hq => Sheet.SetCell_keeps_cells ParseFormula s p' text q hq⟩
  · intro c' hc'
    cases hc : s.cellAt pos with
    | none =>
      rw [Sheet.ClearCell_absent ParseFormula s pos hv hc] at hc'
      rw [hc] at hc'
      simp at hc'
    | some c =>
      obtain ⟨s1, V, c1, _, hc1, _, s2, h2, hcell2⟩ :=
        Sheet.ClearCell_present ParseFormula s pos hv hc
      rw [h2] at hc'
      simp only at hc'
      rw [hcell2 pos] at hc'
      by_cases hd : c1.dependets_ = []
      · simp [hd] at hc'
      · simp only [hd, and_false, if_false] at hc'
        rw [hc1] at hc'
        simp only [Option.some.injEq] at hc'
        subst hc'
        exact hd
  · intro q hq hsome
    cases hc : s.cellAt pos with
    | none => rw [Sheet.ClearCell_absent ParseFormula s pos hv hc]; exact hsome
    | some c =>
      obtain ⟨s1, V, c1, hres, _, _, s2, h2, hcell2⟩ :=
        Sheet.ClearCell_present ParseFormula s pos hv hc
      rw [h2]
      simp only
      rw [hcell2 q]
      simp only [hq, false_and, if_false]
      cases hcq : s.cellAt q with
      | none => rw [hcq] at hsome; simp at hsome
      | some cq =>
        obtain ⟨c', hc', _⟩ := (hres.cellAt_other q hq).1 cq hcq
        rw [hc']
        rfl

theorem cleared_target_collected_witness :
    (⟨0, 0⟩ : Position).IsValid = true ∧
    ∀ c, (Sheet.ClearCell demoParse (Sheet.SetCell demoParse CreateSheet ⟨0, 0⟩ "=B1").1
        ⟨0, 0⟩).1.cellAt ⟨0, 0⟩ = some c → c.dependets_ ≠ [] :=
  ⟨by decide, (cleared_target_collected demoParse
    (Sheet.SetCell demoParse CreateSheet ⟨0, 0⟩ "=B1").1 ⟨0, 0⟩ (by decide)).1⟩

/-- C19 as stated fails: after the accepted edits `A1 = "=B1"` and `A1 = "5"` on the empty
sheet the placeholder at `B1` is still stored, empty and with no dependents; and after the
accepted `SetCell(A1, "")` on the empty sheet an empty cell without dependents is stored
at `A1`. -/
theorem placeholder_not_collected :
    (Sheet.SetCell demoParse CreateSheet ⟨0, 0⟩ "=B1").2 = none ∧
    (Sheet.SetCell demoParse (Sheet.SetCell demoParse CreateSheet ⟨0, 0⟩ "=B1").1
      ⟨0, 0⟩ "5").2 = none ∧
    Reachable demoParse (Sheet.SetCell demoParse
      (Sheet.SetCell demoParse CreateSheet ⟨0, 0⟩ "=B1").1 ⟨0, 0⟩ "5").1 ∧
    (Sheet.SetCell demoParse (Sheet.SetCell demoParse CreateSheet ⟨0, 0⟩ "=B1").1
      ⟨0, 0⟩ "5").1.cellAt ⟨0, 1⟩ = some ⟨.EmptyImpl, []⟩ ∧
    (Sheet.SetCell demoParse CreateSheet ⟨0, 0⟩ "").2 = none ∧
    (Sheet.SetCell demoParse CreateSheet ⟨0, 0⟩ "").1.cellAt ⟨0, 0⟩ = some ⟨.EmptyImpl, []⟩ :=
  ⟨by decide, by decide,
    Reachable.setCell _ _ _ (Reachable.setCell _ _ _ Reachable.create), rfl, by decide, rfl⟩

/-! ## Termination of the cycle search -/

theorem forReferenced_mono (s : Sheet)
    (check check' : Option Position → List Position → Except Stop (Bool × List Position))
    (hcheck : ∀ cur vis r, check cur vis = .ok r → check' cur vis = .ok r)
    (refs vis : List Position) (r : Bool × List Position)
    (h : forReferenced s check refs vis = .ok r) :
    forReferenced s check' refs vis = .ok r := by
  induction refs generalizing vis with
  | nil => simpa [forReferenced] using h
  | cons pos rest ih =>
    unfold forReferenced at h ⊢
    cases hg : s.GetConcreteCell pos with
    | error e => rw [hg] at h; simp at h
    | ok next =>
      rw [hg] at h
      simp only at h ⊢
      cases hc : check (next.map fun _ => pos) vis with
      | error e => rw [hc] at h; simp at h
      | ok res =>
        rw [hcheck _ _ _ hc]
        rw [hc] at h
        obtain ⟨b, v1⟩ := res
        cases b with
        | true => exact h
        | false => exact ih v1 h

theorem CheckCircularDependency_succ (s : Sheet) (target : Position) (fuel : Nat) :
    ∀ (cur : Option Position) (vis : List Position) (r : Bool × List Position),
      CheckCircularDependency s target fuel cur vis = .ok r →
      CheckCircularDependency s target (fuel + 1) cur vis = .ok r := by
  induction fuel with
  | zero => intro cur vis r h; simp [CheckCircularDependency] at h
  | succ n ih =>
    intro cur vis r h
    cases cur with
    | none => simpa [CheckCircularDependency] using h
    | some current =>
      unfold CheckCircularDependency at h ⊢
      by_cases h1 : current = target
      · simpa [h1] using h
      · by_cases h2 : current ∈ vis
        · simpa [h1, h2] using h
        · simp only [h1, h2, if_false] at h ⊢
          exact forReferenced_mono s _ _ ih _ _ _ h

theorem CheckCircularDependency_mono (s : Sheet) (target : Position) {fuel fuel' : Nat}
    (hle : fuel ≤ fuel') (cur : Option Position) (vis : List Position)
    (r : Bool × List Position) (h : CheckCircularDependency s target fuel cur vis = .ok r) :
    CheckCircularDependency s target fuel' cur vis = .ok r := by
  induction hle with
  | refl => exact h
  | step _ ih => exact CheckCircularDependency_succ s target _ cur vis r ih

theorem Sheet.mem_storedPositions (s : Sheet) (p : Position) :
    p ∈ s.storedPositions ↔ (s.cellAt p).isSome = true := by
  unfold Sheet.storedPositions
  rw [List.mem_filter]
  constructor
  · exact fun h => h.2
  · intro h
    refine ⟨?_, h⟩
    cases hc : s.cellAt p with
    | none => rw [hc] at h; simp at h
    | some c => exact Sheet.mem_positions hc

theorem Sheet.storedPositions_length (s : Sheet) : s.storedPositions.length ≤ s.slotCount := by
  rw [← Sheet.positions_length]
  exact List.length_filter_le _ _

/-- C18: the cycle search terminates on every sheet, cyclic or not.  For every sheet, target
cell and candidate implementation, the loop of `ThrowIfCircularDependency` returns a verdict
and a visited set, the same for every recursion budget of at least one more than the number
of slots of the grid; the visited set (the cells that were expanded) has no repetition,
holds stored cells only and so at most as many as the grid has slots, and
`ThrowIfCircularDependency` itself returns normally or throws
`CircularDependencyException`.  The same holds for one call of `CheckCircularDependency` on
any stored or null cell, and a call on a cell already in the visited set returns at once
with the visited set as it was. -/
theorem cycle_search_terminates (s : Sheet) (self : Position) (impl : Impl) :
    (∃ (b : Bool) (visited : List Position),
      (∀ fuel, s.slotCount + 1 ≤ fuel →
        forReferenced s (CheckCircularDependency s self fuel) impl.GetReferencedCells [] =
          .ok (b, visited)) ∧
      visited.Nodup ∧ (∀ v ∈ visited, (s.cellAt v).isSome = true) ∧
      visited.length ≤ s.slotCount) ∧
    (ThrowIfCircularDependency s self impl = none ∨
      ThrowIfCircularDependency s self impl =
        some (.thrown .CircularDependencyException)) ∧
    (∀ (current : Option Position),
      (∀ c, current = some c → (s.cellAt c).isSome = true) →
      ∃ (b : Bool) (visited : List Position),
        (∀ fuel, s.slotCount + 1 ≤ fuel →
          CheckCircularDependency s self fuel current [] = .ok (b, visited)) ∧
        visited.Nodup ∧ (∀ v ∈ visited, (s.cellAt v).isSome = true) ∧
        visited.length ≤ s.slotCount) ∧
    (∀ (fuel : Nat) (current : Position) (visited : List Position), current ∈ visited →
      CheckCircularDependency s self (fuel + 1) (some current) visited =
        .ok (decide (current = self), visited)) := by
  have hL : ∀ p, s.cellAt p ≠ none → p ∈ s.storedPositions := by
    intro p hp
    rw [Sheet.mem_storedPositions]
    cases h : s.cellAt p with
    | none => exact absurd h hp
    | some c => rfl
  have hlen := Sheet.storedPositions_length s
  have hcard : ∀ v : List Position, v.Nodup → v ⊆ s.storedPositions →
      v.length ≤ s.slotCount := fun v hnd hsub =>
    le_trans (List.Subperm.length_le (List.subperm_of_subset hnd hsub)) hlen
  obtain ⟨b, v', h, hnd, hsub, _⟩ :=
    forReferenced_terminates s s.storedPositions (s.slotCount + 1)
      (CheckCircularDependency s self (s.slotCount + 1))
      (CheckCircularDependency_terminates s self s.storedPositions hL (s.slotCount + 1))
      impl.GetReferencedCells [] impl.refs_valid List.nodup_nil (List.nil_subset _)
      (by simp only [List.length_nil]; omega)
  refine ⟨⟨b, v', ?_, hnd, fun v hv => (Sheet.mem_storedPositions s v).mp (hsub hv),
    hcard v' hnd hsub⟩, ?_, ?_, ?_⟩
  · intro fuel hfuel
    exact forReferenced_mono s _ _
      (fun cur vis r hr => CheckCircularDependency_mono s self hfuel cur vis r hr) _ _ _ h
  · cases b with
    | true => right; simp [ThrowIfCircularDependency, h]
    | false => left; simp [ThrowIfCircularDependency, h]
  · intro current hcur
    obtain ⟨b, v', h, hnd, hsub, _⟩ :=
      CheckCircularDependency_terminates s self s.storedPositions hL (s.slotCount + 1)
        current []
        (fun c hc => by
          have := hcur c hc
          intro hn
          rw [hn] at this
          simp at this)
        List.nodup_nil (List.nil_subset _) (by simp only [List.length_nil]; omega)
    exact ⟨b, v', fun fuel hfuel => CheckCircularDependency_mono s self hfuel _ _ _ h, hnd,
      fun v hv => (Sheet.mem_storedPositions s v).mp (hsub hv), hcard v' hnd hsub⟩
  · intro fuel current visited hmem
    unfold CheckCircularDependency
    by_cases h1 : current = self
    · simp [h1]
    · simp [h1, hmem]

/-- C18 on a cyclic sheet: with `A1` and `B1` reading each other, the search for a cycle
through `C1` from a formula reading `A1` returns normally, having expanded `A1` and `B1`
once each. -/
theorem cycle_search_on_cyclic_sheet :
    cyclicSheet.refsAt ⟨0, 0⟩ = [⟨0, 1⟩] ∧ cyclicSheet.refsAt ⟨0, 1⟩ = [⟨0, 0⟩] ∧
    forReferenced cyclicSheet
        (CheckCircularDependency cyclicSheet ⟨0, 2⟩ (cyclicSheet.slotCount + 1))
        (Impl.FormulaImpl (demoFormula "A1" [⟨0, 0⟩]) none).GetReferencedCells [] =
      .ok (false, [⟨0, 1⟩, ⟨0, 0⟩]) ∧
    ThrowIfCircularDependency cyclicSheet ⟨0, 2⟩
      (Impl.FormulaImpl (demoFormula "A1" [⟨0, 0⟩]) none) = none := by
  refine ⟨by decide, by decide, by rfl, by rfl⟩

/-! ## Observations of a sheet -/

theorem Impl.ClearCache_idem (i : Impl) : i.ClearCache.ClearCache = i.ClearCache := by
  cases i <;> rfl

theorem Impl.eq_text_of_ClearCache {i : Impl} {T : String} (h : i.ClearCache = .TextImpl T) :
    i = .TextImpl T := by
  cases i with
  | EmptyImpl => exact h
  | TextImpl _ => exact h
  | FormulaImpl f c => simp [Impl.ClearCache] at h

theorem Impl.eq_empty_of_ClearCache {i : Impl} (h : i.ClearCache = .EmptyImpl) :
    i = .EmptyImpl := by
  cases i with
  | EmptyImpl => rfl
  | TextImpl _ => exact h
  | FormulaImpl f c => simp [Impl.ClearCache] at h

theorem Sheet.CachesApart.sameSkeleton {s s' : Sheet} (h : s.CachesApart s') :
    s.SameSkeleton s' := by
  intro q
  have hq := h q
  unfold Sheet.implAt
  cases h1 : s.cellAt q with
  | none =>
    rw [h1] at hq
    cases h2 : s'.cellAt q with
    | none => rfl
    | some c' => rw [h2] at hq; simp at hq
  | some c =>
    rw [h1] at hq
    cases h2 : s'.cellAt q with
    | none => rw [h2] at hq; simp at hq
    | some c' =>
      rw [h2] at hq
      simp only [Option.map_some', Option.some.injEq, Cell.withoutCache, Prod.mk.injEq] at hq
      simpa using hq.1

theorem Cell.makeImpl_text_nonempty (ParseFormula : String → Option FormulaInterface)
    (text T : String) (h : Cell.makeImpl ParseFormula text = some (.TextImpl T)) :
    T.isEmpty = false := by
  unfold Cell.makeImpl at h
  by_cases h1 : text.isEmpty = true
  · simp [h1] at h
  · simp only [h1, Bool.false_eq_true, if_false] at h
    split at h
    · cases hp : ParseFormula (text.drop 1) with
      | none => rw [hp] at h; simp at h
      | some f => rw [hp] at h; simp at h
    · simp only [Option.some.injEq, Impl.TextImpl.injEq] at h
      subst h
      simpa using h1

theorem SetResult.keeps_texts_nonempty {s : Sheet} {self : Position} {impl : Impl} {s' : Sheet}
    {V : List Position} (h : SetResult s self impl s' V) (hself : s.cellAt self ≠ none)
    (hs : s.TextsNonempty) (himpl : ∀ T, impl = .TextImpl T → T.isEmpty = false) :
    s'.TextsNonempty := by
  intro q T hq
  rw [h.implAt hself q] at hq
  have hX : (if q = self then impl else s.implAt q) = .TextImpl T := by
    by_cases hV : q ∈ V
    · rw [if_pos hV] at hq
      exact Impl.eq_text_of_ClearCache hq
    · rw [if_neg hV] at hq
      exact hq
  by_cases hqs : q = self
  · rw [if_pos hqs] at hX
    exact himpl T hX
  · rw [if_neg hqs] at hX
    exact hs q T hX

theorem Sheet.ensureCell_stored (s : Sheet) (pos : Position) (hn : 0 ≤ pos.row ∧ 0 ≤ pos.col) :
    (s.ensureCell pos).cellAt pos ≠ none := by
  rw [Sheet.ensureCell_spec s pos hn, if_pos rfl]
  simp

theorem Sheet.SetCell_textsNonempty (ParseFormula : String → Option FormulaInterface)
    (s : Sheet) (pos : Position) (text : String) (hs : s.TextsNonempty) :
    (Sheet.SetCell ParseFormula s pos text).1.TextsNonempty := by
  by_cases hv : pos.IsValid = true
  · have hn := Position.nonneg_of_IsValid hv
    have hens : (s.ensureCell pos).TextsNonempty := by
      intro p T hp
      rw [Sheet.implAt_ensureCell s pos hn] at hp
      exact hs p T hp
    rcases Sheet.SetCell_spec ParseFormula s pos text hv with
      ⟨_, h⟩ | ⟨impl, _, _, h⟩ | ⟨impl, hm, _, s', V, h, hV, hcell⟩
    · rw [h]; exact hens
    · rw [h]; exact hens
    · rw [h]
      have hres : SetResult (s.ensureCell pos) pos impl s' V := ⟨hV, hcell⟩
      refine hres.keeps_texts_nonempty (Sheet.ensureCell_stored s pos hn) hens ?_
      intro T hT
      subst hT
      exact Cell.makeImpl_text_nonempty ParseFormula text T hm
  · rw [Sheet.SetCell_invalid ParseFormula s pos text (by simpa using hv)]
    exact hs

/-- What `Sheet::ClearCell` does at a valid position holding a cell, in terms of the
`Cell::Clear` it runs. -/
theorem Sheet.ClearCell_of_clear (ParseFormula : String → Option FormulaInterface)
    (s : Sheet) (pos : Position) (hv : pos.IsValid = true) {c : Cell}
    (hc : s.cellAt pos = some c) :
    ∃ (s1 : Sheet) (V : List Position) (c1 : Cell),
      Cell.Clear ParseFormula s pos = (s1, none) ∧ SetResult s pos .EmptyImpl s1 V ∧
      s1.cellAt pos = some c1 ∧ c1.impl_ = .EmptyImpl ∧
      (Sheet.ClearCell ParseFormula s pos).2 = none ∧
      ∀ q, (Sheet.ClearCell ParseFormula s pos).1.cellAt q =
        if q = pos ∧ c1.dependets_ = [] then none else s1.cellAt q := by
  have hn := Position.nonneg_of_IsValid hv
  obtain ⟨s1, V, hclear, hres⟩ := Cell.Clear_spec ParseFormula s pos
  obtain ⟨c1, hc1, himpl, _⟩ := hres.clear_self hc
  have hslot : s.slot pos.row.toNat pos.col.toNat = some c := by
    rw [← Sheet.cellAt_eq_slot hn]; exact hc
  have hslot1 : s1.slot pos.row.toNat pos.col.toNat = some c1 := by
    rw [← Sheet.cellAt_eq_slot hn]; exact hc1
  have hlt := Sheet.slot_lt hslot
  have htext : c1.GetText.isEmpty = true := by
    simp only [Cell.GetText, himpl, Impl.GetText]; rfl
  refine ⟨s1, V, c1, hclear, hres, hc1, himpl, ?_⟩
  by_cases hd : c1.dependets_ = []
  · have h2 : Sheet.ClearCell ParseFormula s pos =
        (s1.setSlot pos.row.toNat pos.col.toNat none, none) := by
      simp [Sheet.ClearCell, hv, hlt, hslot, hclear, hslot1, Cell.IsReferenced, hd, htext]
    rw [h2]
    refine ⟨rfl, ?_⟩
    intro q
    simp only
    rw [Sheet.cellAt_setSlot s1 pos hn (Sheet.cellAt_lt hc1).2]
    by_cases hq : q = pos <;> simp [hq, hd]
  · have h2 : Sheet.ClearCell ParseFormula s pos = (s1, none) := by
      have : c1.dependets_.isEmpty = false := by
        cases hdd : c1.dependets_ with
        | nil => exact absurd hdd hd
        | cons _ _ => rfl
      simp [Sheet.ClearCell, hv, hlt, hslot, hclear, hslot1, Cell.IsReferenced, this]
    rw [h2]
    refine ⟨rfl, ?_⟩
    intro q; simp [hd]

/-- The implementations after `Sheet::ClearCell` at a valid position: empty at the position
itself, and elsewhere what they were, with the caches of the swept cells cleared. -/
theorem Sheet.ClearCell_implAt (ParseFormula : String → Option FormulaInterface)
    (s : Sheet) (pos : Position) (hv : pos.IsValid = true) (q : Position) :
    ((Sheet.ClearCell ParseFormula s pos).1.implAt q).ClearCache =
      if q = pos then .EmptyImpl else (s.implAt q).ClearCache := by
  cases hc : s.cellAt pos with
  | none =>
    rw [Sheet.ClearCell_absent ParseFormula s pos hv hc]
    by_cases hq : q = pos
    · subst hq
      simp [Sheet.implAt, hc, Impl.ClearCache]
    · simp [hq]
  | some c =>
    obtain ⟨s1, V, c1, _, hres, hc1, himpl, _, hcell⟩ :=
      Sheet.ClearCell_of_clear ParseFormula s pos hv hc
    by_cases hq : q = pos
    · subst hq
      rw [if_pos rfl]
      unfold Sheet.implAt
      rw [hcell q]
      by_cases hd : c1.dependets_ = []
      · simp [hd, Impl.ClearCache]
      · simp [hd, hc1, himpl, Impl.ClearCache]
    · rw [if_neg hq]
      have : (Sheet.ClearCell ParseFormula s pos).1.implAt q = s1.implAt q := by
        unfold Sheet.implAt
        rw [hcell q]
        simp [hq]
      rw [this, hres.implAt (by simp [hc]) q]
      by_cases hV : q ∈ V
      · simp [hV, hq, Impl.ClearCache_idem]
      · simp [hV, hq]

theorem Sheet.ClearCell_textsNonempty (ParseFormula : String → Option FormulaInterface)
    (s : Sheet) (pos : Position) (hs : s.TextsNonempty) :
    (Sheet.ClearCell ParseFormula s pos).1.TextsNonempty := by
  by_cases hv : pos.IsValid = true
  · intro q T hq
    have h := Sheet.ClearCell_implAt ParseFormula s pos hv q
    rw [hq] at h
    by_cases hqp : q = pos
    · rw [if_pos hqp] at h
      simp [Impl.ClearCache] at h
    · rw [if_neg hqp] at h
      exact hs q T (Impl.eq_text_of_ClearCache h.symm)
  · rw [Sheet.ClearCell_invalid ParseFormula s pos (by simpa using hv)]
    exact hs

theorem ReadReachable.textsNonempty {ParseFormula : String → Option FormulaInterface}
    {s : Sheet} (h : ReadReachable ParseFormula s) : s.TextsNonempty := by
  induction h with
  | create =>
    intro p T hp
    rw [Sheet.implAt_create] at hp
    cases hp
  | setCell s pos text _ ih => exact Sheet.SetCell_textsNonempty ParseFormula s pos text ih
  | clearCell s pos _ ih => exact Sheet.ClearCell_textsNonempty ParseFormula s pos ih
  | getValue s fuel pos _ ih =>
    intro q T hq
    have hsk := (Cell.GetValue_cachesApart fuel s pos).sameSkeleton q
    rw [hq] at hsk
    exact ih q T (Impl.eq_text_of_ClearCache hsk.symm)

theorem Impl.formula_text_nonempty (f : FormulaInterface) (c : Option FormulaValue) :
    (Impl.FormulaImpl f c).GetText.isEmpty = false := by
  simp only [Impl.GetText]
  rw [← Bool.not_eq_true, String.isEmpty_iff]
  intro h
  have := congrArg String.length h
  simp [String.length_append, String.singleton] at this

/-- On a reachable sheet a position that `GetCell` reports absent holds no cell or an
empty one. -/
theorem ReadReachable.implAt_of_absent {ParseFormula : String → Option FormulaInterface}
    {s : Sheet} (h : ReadReachable ParseFormula s) (pos : Position)
    (hv : pos.IsValid = true) (habs : s.GetCell pos = .ok none) :
    s.implAt pos = .EmptyImpl := by
  have ht := (Sheet.GetCell_none_iff s pos hv).mp habs
  cases hi : s.implAt pos with
  | EmptyImpl => rfl
  | TextImpl T =>
    rw [hi] at ht
    have := h.textsNonempty pos T hi
    simp only [Impl.GetText] at ht
    rw [ht] at this
    cases this
  | FormulaImpl f c =>
    rw [hi, Impl.formula_text_nonempty] at ht
    cases ht

/-! ## Observations are determined by the contents -/

theorem Sheet.GetCell_presence (s : Sheet) (q : Position) :
    Except.map Option.isSome (s.GetCell q) =
      if q.IsValid = true then .ok (!(s.implAt q).GetText.isEmpty)
      else .error .InvalidPositionException := by
  rw [Sheet.GetCell_eq]
  by_cases hv : q.IsValid = true
  · rw [if_pos hv, if_pos hv]
    unfold Sheet.implAt
    cases hc : s.cellAt q with
    | none => rfl
    | some c =>
      simp only [Except.map, Option.filter, Option.map_some', Option.getD_some, Cell.GetText]
      by_cases hb : c.impl_.GetText.isEmpty = true
      · simp [hb]
      · simp [hb]
  · rw [if_neg hv, if_neg hv]
    rfl

theorem Sheet.hasTextAt_implAt (s : Sheet) (i j : Nat) :
    s.HasTextAt i j ↔ (s.implAt ⟨(i : Int), (j : Int)⟩).GetText ≠ "" := by
  have hslot : s.cellAt ⟨(i : Int), (j : Int)⟩ = s.slot i j := by
    rw [Sheet.cellAt_eq_slot ⟨Int.ofNat_nonneg i, Int.ofNat_nonneg j⟩]
    simp
  unfold Sheet.HasTextAt Sheet.implAt
  rw [hslot]
  cases hs : s.slot i j with
  | none => simp [Impl.GetText]
  | some c => simp [Cell.GetText]

theorem Sheet.printableSize_bounds (s : Sheet) :
    (∀ i j, s.HasTextAt i j → i < s.GetPrintableSize.rows ∧ j < s.GetPrintableSize.cols) ∧
    (0 < s.GetPrintableSize.rows → ∃ j, s.HasTextAt (s.GetPrintableSize.rows - 1) j) ∧
    (0 < s.GetPrintableSize.cols → ∃ i, s.HasTextAt i (s.GetPrintableSize.cols - 1)) := by
  obtain ⟨_, _, h3, h4, h5⟩ := printableSizeFrom_spec s.table_ 0 ⟨0, 0⟩
  refine ⟨?_, ?_, ?_⟩
  · intro i j hij
    have := h3 i j ((Sheet.hasTextAt_iff s i j).mp hij)
    simpa [Sheet.GetPrintableSize] using this
  · intro hpos
    rcases h4 with h | ⟨k, j, hkj, h⟩
    · unfold Sheet.GetPrintableSize at hpos; simp only at h; omega
    · refine ⟨j, ?_⟩
      have : s.GetPrintableSize.rows - 1 = k := by unfold Sheet.GetPrintableSize; omega
      rw [this, Sheet.hasTextAt_iff]
      exact hkj
  · intro hpos
    rcases h5 with h | ⟨k, hk, _⟩
    · unfold Sheet.GetPrintableSize at hpos; simp only at h; omega
    · exact ⟨k, (Sheet.hasTextAt_iff s k _).mpr hk⟩

theorem Sheet.GetPrintableSize_le {s s' : Sheet}
    (h : ∀ i j, s.HasTextAt i j → s'.HasTextAt i j) :
    s.GetPrintableSize.rows ≤ s'.GetPrintableSize.rows ∧
      s.GetPrintableSize.cols ≤ s'.GetPrintableSize.cols := by
  obtain ⟨_, hr, hc⟩ := Sheet.printableSize_bounds s
  obtain ⟨hin, _, _⟩ := Sheet.printableSize_bounds s'
  constructor
  · by_cases h0 : 0 < s.GetPrintableSize.rows
    · obtain ⟨j, hj⟩ := hr h0
      have := (hin _ _ (h _ _ hj)).1
      omega
    · omega
  · by_cases h0 : 0 < s.GetPrintableSize.cols
    · obtain ⟨i, hi⟩ := hc h0
      have := (hin _ _ (h _ _ hi)).2
      omega
    · omega

/-- The printable size depends only on which slots hold a non-empty text. -/
theorem Sheet.GetPrintableSize_congr {s s' : Sheet}
    (h : ∀ i j, s.HasTextAt i j ↔ s'.HasTextAt i j) :
    s'.GetPrintableSize = s.GetPrintableSize := by
  have h1 := Sheet.GetPrintableSize_le fun i j => (h i j).mp
  have h2 := Sheet.GetPrintableSize_le fun i j => (h i j).mpr
  cases hs : s.GetPrintableSize with
  | mk r c =>
    cases hs' : s'.GetPrintableSize with
    | mk r' c' =>
      rw [hs, hs'] at h1 h2
      simp only at h1 h2
      have hr : r' = r := by omega
      have hc : c' = c := by omega
      rw [hr, hc]

theorem Sheet.GetPrintableSize_of_texts {s s' : Sheet}
    (h : ∀ q, (s'.implAt q).GetText = (s.implAt q).GetText) :
    s'.GetPrintableSize = s.GetPrintableSize := by
  apply Sheet.GetPrintableSize_congr
  intro i j
  rw [Sheet.hasTextAt_implAt, Sheet.hasTextAt_implAt, h]

theorem Sheet.GetCell_text (s : Sheet) (q : Position) (c : Cell)
    (h : s.GetCell q = .ok (some c)) : c.GetText = (s.implAt q).GetText := by
  have hv : q.IsValid = true := by
    by_contra hv
    rw [Sheet.GetCell_eq, if_neg hv] at h
    cases h
  have := ((Sheet.GetCell_some_iff s q hv c).mp h).1
  unfold Sheet.implAt
  rw [this]
  rfl

/-- Two reachable sheets with the same contents, caches apart, give the same
observations. -/
theorem Sheet.sameObservations_of_skeleton
    {ParseFormula : String → Option FormulaInterface} {s s' : Sheet}
    (hs : ReadReachable ParseFormula s) (hs' : ReadReachable ParseFormula s')
    (hskel : s.SameSkeleton s') : s.SameObservations s' := by
  have htext : ∀ q, (s'.implAt q).GetText = (s.implAt q).GetText := by
    intro q
    rw [← Impl.ClearCache_text (s'.implAt q), hskel q, Impl.ClearCache_text]
  refine ⟨?_, htext, ?_, ?_, Sheet.GetPrintableSize_of_texts htext⟩
  · intro q
    rw [Sheet.GetCell_presence, Sheet.GetCell_presence, htext]
  · intro q c c' hc hc'
    rw [Sheet.GetCell_text s q c hc, Sheet.GetCell_text s' q c' hc', htext]
  · intro q fuel fuel' hf hf'
    obtain ⟨_, hacyc, hcoh⟩ := hs.invariants
    obtain ⟨_, hacyc', hcoh'⟩ := hs'.invariants
    obtain ⟨s1, v, hv⟩ := Cell.GetValue_returns s hacyc fuel s q []
      (Sheet.CachesApart.refl_apart s) List.nodup_nil (fun _ h => absurd h (List.not_mem_nil _))
      (fun _ h => absurd h (List.not_mem_nil _)) (by simpa using hf)
    obtain ⟨s1', v', hv'⟩ := Cell.GetValue_returns s' hacyc' fuel' s' q []
      (Sheet.CachesApart.refl_apart s') List.nodup_nil
      (fun _ h => absurd h (List.not_mem_nil _))
      (fun _ h => absurd h (List.not_mem_nil _)) (by simpa using hf')
    obtain ⟨k, hk⟩ := (Cell.GetValue_coherent fuel s q s1 _ hcoh hv).2.2 v rfl
    obtain ⟨k', hk'⟩ := (Cell.GetValue_coherent fuel' s' q s1' _ hcoh' hv').2.2 v' rfl
    rw [hskel.trueValue_eq k'] at hk'
    have e1 := Sheet.trueValue_mono s q v (Nat.le_max_left k k') hk
    have e2 := Sheet.trueValue_mono s q v' (Nat.le_max_right k k') hk'
    rw [e1] at e2
    simp only [Option.some.injEq] at e2
    subst e2
    exact ⟨v, by rw [hv], by rw [hv']⟩

theorem Sheet.sameSkeleton_of_ClearCell_empty (ParseFormula : String → Option FormulaInterface)
    (s : Sheet) (pos : Position) (hv : pos.IsValid = true)
    (he : s.implAt pos = .EmptyImpl) :
    s.SameSkeleton (Sheet.ClearCell ParseFormula s pos).1 := by
  intro q
  rw [Sheet.ClearCell_implAt ParseFormula s pos hv q]
  by_cases hq : q = pos
  · subst hq
    rw [if_pos rfl, he]
    rfl
  · rw [if_neg hq]

theorem Sheet.implAt_ClearCell_self (ParseFormula : String → Option FormulaInterface)
    (s : Sheet) (pos : Position) (hv : pos.IsValid = true) :
    (Sheet.ClearCell ParseFormula s pos).1.implAt pos = .EmptyImpl := by
  have := Sheet.ClearCell_implAt ParseFormula s pos hv pos
  rw [if_pos rfl] at this
  exact Impl.eq_empty_of_ClearCache this

/-- C13: clearing an already-empty cell is a no-op on observable state.  On a reachable
sheet (reads included) and at a valid position `pos` that `GetCell` reports absent,
`ClearCell(pos)` returns normally and leaves the observations as they were: `GetCell`
reports the same presence and text at every position, `GetValue` returns the same value at
every position, and `GetPrintableSize` is unchanged.  Whatever `pos` held, `GetCell(pos)` is
absent after one `ClearCell(pos)`, so that a second `ClearCell(pos)` changes no
observation. -/
theorem clear_empty_unobservable (ParseFormula : String → Option FormulaInterface)
    (s : Sheet) (h : ReadReachable ParseFormula s) (pos : Position)
    (hv : pos.IsValid = true) :
    (s.GetCell pos = .ok none →
      (Sheet.ClearCell ParseFormula s pos).2 = none ∧
      s.SameObservations (Sheet.ClearCell ParseFormula s pos).1) ∧
    (Sheet.ClearCell ParseFormula s pos).1.GetCell pos = .ok none ∧
    (Sheet.ClearCell ParseFormula (Sheet.ClearCell ParseFormula s pos).1 pos).2 = none ∧
    (Sheet.ClearCell ParseFormula s pos).1.SameObservations
      (Sheet.ClearCell ParseFormula (Sheet.ClearCell ParseFormula s pos).1 pos).1 := by
  have hself := Sheet.implAt_ClearCell_self ParseFormula s pos hv
  have hr1 : ReadReachable ParseFormula (Sheet.ClearCell ParseFormula s pos).1 :=
    ReadReachable.clearCell s pos h
  refine ⟨?_, ?_, Sheet.ClearCell_returns ParseFormula _ pos hv, ?_⟩
  · intro habs
    refine ⟨Sheet.ClearCell_returns ParseFormula s pos hv, ?_⟩
    exact Sheet.sameObservations_of_skeleton h hr1
      (Sheet.sameSkeleton_of_ClearCell_empty ParseFormula s pos hv
        (h.implAt_of_absent pos hv habs))
  · rw [Sheet.GetCell_none_iff _ pos hv, hself]
    rfl
  · exact Sheet.sameObservations_of_skeleton hr1 (ReadReachable.clearCell _ pos hr1)
      (Sheet.sameSkeleton_of_ClearCell_empty ParseFormula _ pos hv hself)

theorem clear_empty_unobservable_witness :
    ReadReachable demoParse (Sheet.SetCell demoParse CreateSheet ⟨0, 0⟩ "=B1").1 ∧
    (⟨0, 1⟩ : Position).IsValid = true ∧
    ((Sheet.SetCell demoParse CreateSheet ⟨0, 0⟩ "=B1").1.cellAt ⟨0, 1⟩).isSome = true ∧
    (Sheet.SetCell demoParse CreateSheet ⟨0, 0⟩ "=B1").1.GetCell ⟨0, 1⟩ = .ok none ∧
    (Sheet.SetCell demoParse CreateSheet ⟨0, 0⟩ "=B1").1.SameObservations
      (Sheet.ClearCell demoParse (Sheet.SetCell demoParse CreateSheet ⟨0, 0⟩ "=B1").1
        ⟨0, 1⟩).1 :=
  ⟨ReadReachable.setCell _ _ _ ReadReachable.create, by decide, by decide, by rfl,
    ((clear_empty_unobservable demoParse (Sheet.SetCell demoParse CreateSheet ⟨0, 0⟩ "=B1").1
      (ReadReachable.setCell _ _ _ ReadReachable.create) ⟨0, 1⟩ (by decide)).1 (by rfl)).2⟩

/-! ## Clearing and setting the empty text -/

theorem Cell.Set_empty_indep (ParseFormula : String → Option FormulaInterface)
    (f g : Sheet → Position → String → Sheet × Option Stop) (s : Sheet) (self : Position) :
    Cell.Set ParseFormula f s self "" = Cell.Set ParseFormula g s self "" := by
  unfold Cell.Set
  rw [Cell.makeImpl_empty]
  simp only [Impl.GetReferencedCells, Cell.FillDependets]

theorem Sheet.SetCell_empty_eq (ParseFormula : String → Option FormulaInterface)
    (s : Sheet) (pos : Position) (hv : pos.IsValid = true) :
    Sheet.SetCell ParseFormula s pos "" = Cell.Clear ParseFormula (s.ensureCell pos) pos := by
  unfold Sheet.SetCell Cell.Clear
  rw [Sheet.SetCellAux]
  simp only [hv, Bool.not_true, Bool.false_eq_true, if_false]
  exact Cell.Set_empty_indep ParseFormula _ _ _ _

theorem Sheet.SetCell_empty_of_absent (ParseFormula : String → Option FormulaInterface)
    (s : Sheet) (pos : Position) (hv : pos.IsValid = true) (hc : s.cellAt pos = none) :
    (Sheet.SetCell ParseFormula s pos "").2 = none ∧
    ∀ q, (Sheet.SetCell ParseFormula s pos "").1.cellAt q = (s.ensureCell pos).cellAt q := by
  have hn := Position.nonneg_of_IsValid hv
  rw [Sheet.SetCell_empty_eq ParseFormula s pos hv]
  obtain ⟨s1, V, hclear, hres⟩ := Cell.Clear_spec ParseFormula (s.ensureCell pos) pos
  rw [hclear]
  refine ⟨rfl, ?_⟩
  have hnew : (s.ensureCell pos).cellAt pos = some Cell.new := by
    rw [Sheet.ensureCell_spec s pos hn, if_pos rfl, hc]
    rfl
  have hrefs : (s.ensureCell pos).refsAt pos = [] := by
    unfold Sheet.refsAt
    rw [hnew]
    rfl
  have hdeps : (s.ensureCell pos).dependentsAt pos = [] := by
    unfold Sheet.dependentsAt
    rw [hnew]
    rfl
  have hrew : ∀ q, Cell.rewired (s.ensureCell pos) pos .EmptyImpl q =
      (s.ensureCell pos).cellAt q := by
    intro q
    unfold Cell.rewired
    simp only [hrefs, List.not_mem_nil, if_false, Impl.GetReferencedCells]
    by_cases hq : q = pos
    · subst hq
      rw [hnew]
      simp [Cell.setImpl, Cell.new]
    · simp [hq]
  have hV : ∀ q, q ∈ V → q = pos := by
    intro q hq
    have hreach := (hres.1 q).mp hq
    rcases Relation.ReflTransGen.cases_head hreach with heq | ⟨a, hedge, _⟩
    · exact heq.symm
    · exfalso
      unfold Sheet.DependentEdge at hedge
      rw [hres.mem_dependentsAt] at hedge
      simp [Impl.GetReferencedCells, hdeps] at hedge
  intro q
  simp only
  rw [hres.2 q, hrew]
  by_cases hq : q ∈ V
  · rw [if_pos hq, hV q hq, hnew]
    rfl
  · rw [if_neg hq]

/-- C14: clearing is setting the empty text.  On a reachable sheet and at a valid position
`pos`, `ClearCell(pos)` and `SetCell(pos, "")` both return normally (so neither throws
`CircularDependencyException`); the sheets they produce store the same cell, with the same
content, referenced positions, dependents and cache, at every position other than `pos`,
hold the same content at every position (`pos` holds an empty cell or none), return the
same `GetCell` at every position, the same `GetValue` for every budget, and give the same
observations: presence, text, value and printable size. -/
theorem clear_is_set_empty (ParseFormula : String → Option FormulaInterface)
    (s : Sheet) (h : ReadReachable ParseFormula s) (pos : Position)
    (hv : pos.IsValid = true) :
    (Sheet.ClearCell ParseFormula s pos).2 = none ∧
    (Sheet.SetCell ParseFormula s pos "").2 = none ∧
    (∀ q, q ≠ pos → (Sheet.ClearCell ParseFormula s pos).1.cellAt q =
      (Sheet.SetCell ParseFormula s pos "").1.cellAt q) ∧
    (∀ q, (Sheet.ClearCell ParseFormula s pos).1.implAt q =
      (Sheet.SetCell ParseFormula s pos "").1.implAt q) ∧
    (∀ q, (Sheet.ClearCell ParseFormula s pos).1.GetCell q =
      (Sheet.SetCell ParseFormula s pos "").1.GetCell q) ∧
    (∀ fuel q, (Cell.GetValue fuel (Sheet.ClearCell ParseFormula s pos).1 q).2 =
      (Cell.GetValue fuel (Sheet.SetCell ParseFormula s pos "").1 q).2) ∧
    (Sheet.ClearCell ParseFormula s pos).1.SameObservations
      (Sheet.SetCell ParseFormula s pos "").1 := by
  have hn := Position.nonneg_of_IsValid hv
  have hC := Sheet.implAt_ClearCell_self ParseFormula s pos hv
  have key : (Sheet.SetCell ParseFormula s pos "").2 = none ∧
      (∀ q, q ≠ pos → (Sheet.ClearCell ParseFormula s pos).1.cellAt q =
        (Sheet.SetCell ParseFormula s pos "").1.cellAt q) ∧
      (Sheet.SetCell ParseFormula s pos "").1.implAt pos = .EmptyImpl := by
    cases hc : s.cellAt pos with
    | none =>
      obtain ⟨hret, hcell⟩ := Sheet.SetCell_empty_of_absent ParseFormula s pos hv hc
      refine ⟨hret, ?_, ?_⟩
      · intro q hq
        rw [Sheet.ClearCell_absent ParseFormula s pos hv hc, hcell q,
          Sheet.ensureCell_other s pos hn q hq]
      · unfold Sheet.implAt
        rw [hcell pos, Sheet.ensureCell_spec s pos hn, if_pos rfl, hc]
        rfl
    | some c =>
      obtain ⟨s1, V, c1, hclear, _, hc1, himpl, _, hcell⟩ :=
        Sheet.ClearCell_of_clear ParseFormula s pos hv hc
      have hS : Sheet.SetCell ParseFormula s pos "" = (s1, none) := by
        rw [Sheet.SetCell_empty_eq ParseFormula s pos hv, Sheet.ensureCell_of_stored s pos hc,
          hclear]
      rw [hS]
      refine ⟨rfl, ?_, ?_⟩
      · intro q hq
        rw [hcell q]
        simp [hq]
      · unfold Sheet.implAt
        rw [hc1]
        exact himpl
  obtain ⟨hret, hcell, hS⟩ := key
  have hcontent : ∀ q, (Sheet.ClearCell ParseFormula s pos).1.implAt q =
      (Sheet.SetCell ParseFormula s pos "").1.implAt q := by
    intro q
    by_cases hq : q = pos
    · subst hq; rw [hC, hS]
    · unfold Sheet.implAt
      rw [hcell q hq]
  refine ⟨Sheet.ClearCell_returns ParseFormula s pos hv, hret, hcell, hcontent, ?_, ?_, ?_⟩
  · intro q
    by_cases hq : q = pos
    · subst hq
      rw [(Sheet.GetCell_none_iff _ q hv).mpr (by rw [hC]; rfl),
        (Sheet.GetCell_none_iff _ q hv).mpr (by rw [hS]; rfl)]
    · rw [Sheet.GetCell_eq, Sheet.GetCell_eq, hcell q hq]
  · intro fuel q
    exact (Cell.GetValue_congr fuel _ _ q hcontent).1
  · refine Sheet.sameObservations_of_skeleton (ReadReachable.clearCell s pos h)
      (ReadReachable.setCell s pos "" h) ?_
    intro q
    rw [hcontent q]

theorem clear_is_set_empty_witness :
    ReadReachable demoParse (Sheet.SetCell demoParse CreateSheet ⟨0, 0⟩ "7").1 ∧
    (⟨0, 0⟩ : Position).IsValid = true ∧
    (Sheet.ClearCell demoParse (Sheet.SetCell demoParse CreateSheet ⟨0, 0⟩ "7").1 ⟨0, 0⟩).2 =
      none ∧
    (Sheet.SetCell demoParse (Sheet.SetCell demoParse CreateSheet ⟨0, 0⟩ "7").1 ⟨0, 0⟩ "").2 =
      none ∧
    ∀ q, (Sheet.ClearCell demoParse (Sheet.SetCell demoParse CreateSheet ⟨0, 0⟩ "7").1
        ⟨0, 0⟩).1.GetCell q =
      (Sheet.SetCell demoParse (Sheet.SetCell demoParse CreateSheet ⟨0, 0⟩ "7").1
        ⟨0, 0⟩ "").1.GetCell q :=
  ⟨ReadReachable.setCell _ _ _ ReadReachable.create, by decide,
    (clear_is_set_empty demoParse (Sheet.SetCell demoParse CreateSheet ⟨0, 0⟩ "7").1
      (ReadReachable.setCell _ _ _ ReadReachable.create) ⟨0, 0⟩ (by decide)).1,
    (clear_is_set_empty demoParse (Sheet.SetCell demoParse CreateSheet ⟨0, 0⟩ "7").1
      (ReadReachable.setCell _ _ _ ReadReachable.create) ⟨0, 0⟩ (by decide)).2.1,
    (clear_is_set_empty demoParse (Sheet.SetCell demoParse CreateSheet ⟨0, 0⟩ "7").1
      (ReadReachable.setCell _ _ _ ReadReachable.create) ⟨0, 0⟩ (by decide)).2.2.2.2.1⟩

end Spreadsheet
